import Mathlib

/-!
Verification of the fractal-core computation-and-attestation pipeline.

Shallow embedding of the TypeScript sources:
  * src/api/src/encoding/varint.ts: LEB128 varints (uvarintEncode, uvarintDecode)
  * src/api/src/encoding/zigzag.ts: zigzag mapping (zigzagEncode, zigzagDecode)
  * src/api/src/encoding/bin-format.ts: BIN v1 envelope (binEncode, binDecode)
  * the canonical JSON serializer (canonicalStringify)
  * the sieve engine (sieve, ensureSieved, lowerBound, binarySearch,
    closestPrime, nextPrime, isPrime, primesAroundIndex, primesAroundValue)
  * the neighborhood computation (computeNeighborhood, rational)

JavaScript bigint values are modelled as Int (with Int.tdiv, the truncating
division used by bigint); unsigned ones as Nat.  Byte buffers are List Nat.
Functions that throw are modelled with Except String.
-/

set_option maxRecDepth 4000

namespace FractalCore

/-! ## varint.ts -/

/-- Encoding loop of `uvarintEncode` on a non-negative value: emit the low
7 bits with the continuation bit while the value is at least 0x80, then the
final byte. -/
def uvarintEncodeNat (x : Nat) : List Nat :=
  if x < 128 then [x % 128]
  else (x % 128 + 128) :: uvarintEncodeNat (x / 128)
termination_by x
decreasing_by exact Nat.div_lt_self (by omega) (by omega)

/-- Source function `uvarintEncode`: throws on negative input, otherwise
LEB128 bytes. -/
def uvarintEncode (x : Int) : Except String (List Nat) :=
  if x < 0 then .error "uvarintEncode: negative values not allowed"
  else .ok (uvarintEncodeNat x.toNat)

/-- Loop of `uvarintDecode`, processing the buffer suffix from the current
position.  `shift`, `acc` (`result` in the source) and `read` (`bytesRead`)
are the loop state; the shift-overflow check happens after the shift
increment, exactly as in the source. -/
def uvarintDecodeGo : List Nat → Nat → Nat → Nat → Except String (Nat × Nat)
  | [], _, _, _ => .error "uvarintDecode: unexpected end of buffer"
  | b :: rest, shift, acc, read =>
    let acc' := acc ||| ((b % 128) <<< shift)
    if b &&& 128 = 0 then .ok (acc', read + 1)
    else
      if 70 < shift + 7 then .error "uvarintDecode: varint too long"
      else uvarintDecodeGo rest (shift + 7) acc' (read + 1)

/-- Source function `uvarintDecode(buf, offset)`: returns the pair
`(value, bytesRead)` or throws. -/
def uvarintDecode (buf : List Nat) (offset : Nat) : Except String (Nat × Nat) :=
  uvarintDecodeGo (buf.drop offset) 0 0 0

/-! ## zigzag.ts -/

/-- Source function `zigzagEncode(s) = s ≥ 0 ? 2s : -2s - 1`. -/
def zigzagEncode (s : Int) : Int :=
  if 0 ≤ s then 2 * s else -2 * s - 1

/-- Source function `zigzagDecode`: throws on negative input; even
`z → z/2`, odd `z → -(z+1)/2` (exact bigint divisions, `Int.tdiv` models
the truncating division of bigint). -/
def zigzagDecode (z : Int) : Except String Int :=
  if z < 0 then .error "zigzagDecode: input must be non-negative"
  else if z % 2 = 0 then .ok (Int.tdiv z 2) else .ok (-(Int.tdiv (z + 1) 2))

/-! ## Arithmetic support for the varint proofs -/

/-- Bitwise-or with a disjoint shifted value is addition: the low `s` bits
hold `a`, the rest hold `c`. -/
theorem lor_shiftLeft_eq_add {a : Nat} (c s : Nat) (h : a < 2 ^ s) :
    a ||| (c <<< s) = a + c * 2 ^ s := by
  apply Nat.eq_of_testBit_eq
  intro i
  rw [Nat.testBit_lor, Nat.testBit_shiftLeft]
  rcases lt_or_le i s with hi | hi
  · have hdec : decide (i ≥ s) = false := by
      simp only [ge_iff_le, decide_eq_false_iff_not, not_le]; omega
    rw [hdec]
    simp only [Bool.false_and, Bool.or_false]
    rw [Nat.testBit_to_div_mod, Nat.testBit_to_div_mod]
    have h2 : (0:Nat) < 2 ^ i := Nat.two_pow_pos i
    have hs : (2:Nat) ^ s = 2 ^ (s - i) * 2 ^ i := by
      rw [← pow_add]
      congr 1
      omega
    have hdiv : (a + c * 2 ^ s) / 2 ^ i = a / 2 ^ i + c * 2 ^ (s - i) := by
      rw [hs, ← mul_assoc, Nat.add_mul_div_right _ _ h2]
    rw [hdiv]
    have heven : c * 2 ^ (s - i) % 2 = 0 := by
      have hp : (2:Nat) ^ (s - i) = 2 ^ (s - i - 1) * 2 := by
        rw [← pow_succ]
        congr 1
        omega
      rw [hp, ← mul_assoc]
      exact Nat.mul_mod_left _ _
    simp only [decide_eq_decide]
    omega
  · have hdec : decide (i ≥ s) = true := by
      simp only [ge_iff_le, decide_eq_true_eq]
      exact hi
    rw [hdec]
    simp only [Bool.true_and]
    have hz : a.testBit i = false := by
      rw [Nat.testBit_to_div_mod]
      have : a / 2 ^ i = 0 :=
        Nat.div_eq_of_lt (lt_of_lt_of_le h (Nat.pow_le_pow_right (by omega) hi))
      simp [this]
    rw [hz]
    simp only [Bool.false_or]
    rw [Nat.testBit_to_div_mod, Nat.testBit_to_div_mod]
    have hi2 : (2:Nat) ^ i = 2 ^ s * 2 ^ (i - s) := by
      rw [← pow_add]
      congr 1
      omega
    have hdiv : (a + c * 2 ^ s) / 2 ^ i = c / 2 ^ (i - s) := by
      rw [hi2, ← Nat.div_div_eq_div_mul]
      congr 1
      rw [Nat.add_mul_div_right _ _ (Nat.two_pow_pos s), Nat.div_eq_of_lt h,
        Nat.zero_add]
    rw [hdiv]

/-- Every LEB128 encoding is non-empty. -/
theorem uvarintEncodeNat_length_pos (x : Nat) : 1 ≤ (uvarintEncodeNat x).length := by
  rw [uvarintEncodeNat]
  split <;> simp

/-- A byte below 128 has the continuation bit clear. -/
theorem byte_and128_eq_zero {x : Nat} (h : x < 128) : x &&& 128 = 0 := by
  have h128 : (128:Nat) = 2 ^ 7 := by norm_num
  rw [h128, Nat.and_two_pow]
  have ht : x.testBit 7 = false := by
    rw [Nat.testBit_to_div_mod]
    have hd : x / 128 = 0 := Nat.div_eq_of_lt h
    simp [hd]
  simp [ht]

/-- A byte in `[128, 256)` has the continuation bit set. -/
theorem byte_and128_ne_zero {x : Nat} (h : 128 ≤ x) (h2 : x < 256) :
    x &&& 128 ≠ 0 := by
  have h128 : (128:Nat) = 2 ^ 7 := by norm_num
  rw [h128, Nat.and_two_pow]
  have ht : x.testBit 7 = true := by
    rw [Nat.testBit_to_div_mod]
    have hd : x / 128 = 1 := by omega
    simp [hd]
  simp [ht]

/-- A value below `128 ^ (k + 1)` encodes in at most `k + 1` bytes. -/
theorem uvarintEncodeNat_length_le (k : Nat) (x : Nat)
    (h : x < 128 ^ (k + 1)) : (uvarintEncodeNat x).length ≤ k + 1 := by
  induction k generalizing x with
  | zero =>
    rw [pow_one] at h
    rw [uvarintEncodeNat]
    simp [h]
  | succ k ih =>
    rw [uvarintEncodeNat]
    split
    · simp
    · rename_i hx
      have hdiv : x / 128 < 128 ^ (k + 1) := by
        rw [Nat.div_lt_iff_lt_mul (by omega)]
        calc x < 128 ^ (k + 1 + 1) := h
        _ = 128 ^ (k + 1) * 128 := by rw [pow_succ]
      simpa using ih (x / 128) hdiv

/-- Decoding an encoded value embedded in a longer buffer: the loop consumes
exactly the encoding, or-ing the value into the accumulator above the current
shift.  `j` counts the continuation bytes already consumed. -/
theorem uvarintDecodeGo_encode (x : Nat) (rest : List Nat) (j acc read : Nat)
    (hj : (uvarintEncodeNat x).length + j ≤ 11) (hacc : acc < 2 ^ (7 * j)) :
    uvarintDecodeGo (uvarintEncodeNat x ++ rest) (7 * j) acc read =
      .ok (acc + x * 2 ^ (7 * j), read + (uvarintEncodeNat x).length) := by
  induction x using uvarintEncodeNat.induct generalizing j acc read with
  | case1 x hx =>
    have hmod : x % 128 = x := Nat.mod_eq_of_lt hx
    have henc : uvarintEncodeNat x = [x] := by
      rw [uvarintEncodeNat]
      simp [hx, hmod]
    rw [henc]
    simp only [List.cons_append, List.nil_append, List.length_singleton]
    rw [uvarintDecodeGo]
    simp only [hmod]
    rw [if_pos (byte_and128_eq_zero hx)]
    rw [lor_shiftLeft_eq_add x (7 * j) hacc]
  | case2 x hx ih =>
    have hlt : x % 128 < 128 := Nat.mod_lt _ (by omega)
    have henc : uvarintEncodeNat x = (x % 128 + 128) :: uvarintEncodeNat (x / 128) := by
      rw [uvarintEncodeNat]
      simp [hx]
    rw [henc] at hj
    rw [henc]
    have hlen1 : 1 ≤ (uvarintEncodeNat (x / 128)).length := uvarintEncodeNat_length_pos _
    have hjle : j ≤ 9 := by
      simp only [List.length_cons] at hj
      omega
    simp only [List.cons_append, List.length_cons]
    rw [uvarintDecodeGo]
    rw [if_neg (byte_and128_ne_zero (by omega) (by omega))]
    rw [if_neg (by omega : ¬ 70 < 7 * j + 7)]
    have hmod2 : (x % 128 + 128) % 128 = x % 128 := by omega
    rw [hmod2]
    have haccle : acc ||| (x % 128) <<< (7 * j) < 2 ^ (7 * (j + 1)) := by
      rw [lor_shiftLeft_eq_add _ _ hacc]
      have hle : x % 128 * 2 ^ (7 * j) ≤ 127 * 2 ^ (7 * j) :=
        Nat.mul_le_mul_right _ (by omega)
      calc acc + x % 128 * 2 ^ (7 * j) < 128 * 2 ^ (7 * j) := by omega
      _ = 2 ^ (7 * (j + 1)) := by
          rw [show 7 * (j + 1) = 7 * j + 7 by ring, pow_add]
          ring
    rw [show 7 * j + 7 = 7 * (j + 1) from by ring]
    rw [ih (j + 1) _ (read + 1) (by simp only [List.length_cons] at hj ⊢; omega) haccle]
    congr 1
    congr 1
    · rw [lor_shiftLeft_eq_add _ _ hacc]
      have hx128 : x % 128 + 128 * (x / 128) = x := by omega
      have hpow : (2:Nat) ^ (7 * (j + 1)) = 128 * 2 ^ (7 * j) := by
        rw [show 7 * (j + 1) = 7 + 7 * j by ring, pow_add]
        norm_num
      rw [hpow]
      calc acc + x % 128 * 2 ^ (7 * j) + x / 128 * (128 * 2 ^ (7 * j))
          = acc + (x % 128 + 128 * (x / 128)) * 2 ^ (7 * j) := by ring
      _ = acc + x * 2 ^ (7 * j) := by rw [hx128]
    · omega

/-- Length of the initial run of continuation bytes (high bit set) of a
buffer suffix: the number of bytes `uvarintDecode` consumes before the first
terminating byte. -/
def contRun : List Nat → Nat
  | [] => 0
  | b :: rest => if b &&& 128 = 0 then 0 else contRun rest + 1

/-- Full characterization of the decode loop: with `j` continuation bytes
already consumed, the loop overflows iff the remaining continuation run
reaches `11 - j`, runs off the buffer iff no terminator exists within the
allowed budget, and otherwise succeeds consuming the run plus the
terminator. -/
theorem uvarintDecodeGo_characterization (bs : List Nat) :
    ∀ j acc read, j ≤ 10 →
      (uvarintDecodeGo bs (7 * j) acc read =
          .error "uvarintDecode: varint too long" ↔ 11 - j ≤ contRun bs) ∧
      (uvarintDecodeGo bs (7 * j) acc read =
          .error "uvarintDecode: unexpected end of buffer" ↔
        contRun bs = bs.length ∧ bs.length ≤ 10 - j) ∧
      (contRun bs ≤ 10 - j → contRun bs < bs.length →
        ∃ v, uvarintDecodeGo bs (7 * j) acc read = .ok (v, read + contRun bs + 1)) := by
  induction bs with
  | nil =>
    intro j acc read hj
    refine ⟨?_, ?_, ?_⟩
    · constructor
      · intro h
        rw [uvarintDecodeGo] at h
        exact absurd (Except.error.inj h) (by decide)
      · intro h
        rw [show contRun [] = 0 from rfl] at h
        exfalso
        omega
    · constructor
      · intro _
        exact ⟨rfl, by simp⟩
      · intro _
        rw [uvarintDecodeGo]
    · intro _ h
      exact absurd h (by simp [contRun])
  | cons b rest ih =>
    intro j acc read hj
    have hcr : contRun (b :: rest) = if b &&& 128 = 0 then 0 else contRun rest + 1 :=
      rfl
    by_cases hb : b &&& 128 = 0
    · rw [hcr, if_pos hb]
      have hok : uvarintDecodeGo (b :: rest) (7 * j) acc read =
          .ok (acc ||| ((b % 128) <<< (7 * j)), read + 1) := by
        rw [uvarintDecodeGo, if_pos hb]
      refine ⟨?_, ?_, ?_⟩
      · rw [hok]
        exact iff_of_false (by simp) (by omega)
      · rw [hok]
        refine iff_of_false (by simp) ?_
        intro h
        simp only [List.length_cons] at h
        omega
      · intro _ _
        exact ⟨acc ||| ((b % 128) <<< (7 * j)), by rw [hok]⟩
    · rw [hcr, if_neg hb]
      by_cases hj10 : j = 10
      · subst hj10
        have herr : uvarintDecodeGo (b :: rest) (7 * 10) acc read =
            .error "uvarintDecode: varint too long" := by
          rw [uvarintDecodeGo, if_neg hb, if_pos (by omega)]
        refine ⟨?_, ?_, ?_⟩
        · rw [herr]
          exact iff_of_true rfl (by omega)
        · rw [herr]
          refine iff_of_false (fun h => absurd (Except.error.inj h) (by decide)) ?_
          intro h
          simp only [List.length_cons] at h
          omega
        · intro h _
          exfalso
          omega
      · have hjlt : j + 1 ≤ 10 := by omega
        have hIH := ih (j + 1) (acc ||| ((b % 128) <<< (7 * j))) (read + 1) hjlt
        have hstep : uvarintDecodeGo (b :: rest) (7 * j) acc read =
            uvarintDecodeGo rest (7 * (j + 1)) (acc ||| ((b % 128) <<< (7 * j)))
              (read + 1) := by
          rw [show 7 * (j + 1) = 7 * j + 7 from by ring]
          rw [uvarintDecodeGo, if_neg hb, if_neg (by omega)]
        refine ⟨?_, ?_, ?_⟩
        · rw [hstep, hIH.1]
          omega
        · rw [hstep, hIH.2.1]
          simp only [List.length_cons]
          omega
        · intro h1 h2
          simp only [List.length_cons] at h2
          obtain ⟨v, hv⟩ := hIH.2.2 (by omega) (by omega)
          refine ⟨v, ?_⟩
          rw [hstep, hv]
          congr 2
          omega

/-- C9. `uvarintDecode` throws exactly on malformed input: shift overflow
when the continuation run reaches 11 bytes, end-of-buffer when the buffer
ends before a terminating byte; on any other input it returns the decoded
value together with the number of bytes read (run plus terminator). -/
theorem uvarintDecode_malformed (buf : List Nat) (offset : Nat) :
    (uvarintDecode buf offset = .error "uvarintDecode: varint too long" ↔
       11 ≤ contRun (buf.drop offset)) ∧
    (uvarintDecode buf offset = .error "uvarintDecode: unexpected end of buffer" ↔
       contRun (buf.drop offset) = (buf.drop offset).length ∧
         (buf.drop offset).length ≤ 10) ∧
    (contRun (buf.drop offset) ≤ 10 → contRun (buf.drop offset) < (buf.drop offset).length →
       ∃ v, uvarintDecode buf offset = .ok (v, contRun (buf.drop offset) + 1)) := by
  have h := uvarintDecodeGo_characterization (buf.drop offset) 0 0 0 (by omega)
  rw [uvarintDecode]
  simp only [Nat.mul_zero, Nat.sub_zero] at h
  refine ⟨h.1, h.2.1, fun h1 h2 => ?_⟩
  obtain ⟨v, hv⟩ := h.2.2 h1 h2
  exact ⟨v, by simpa using hv⟩

/-- Closed instance of `uvarintDecode_malformed`: a two-byte varint with one
continuation byte decodes without throwing, reading both bytes. -/
theorem uvarintDecode_malformed_witness :
    contRun (([128, 1] : List Nat).drop 0) ≤ 10 ∧
      ∃ v, uvarintDecode [128, 1] 0 = .ok (v, contRun (([128, 1] : List Nat).drop 0) + 1) := by
  exact ⟨by decide, (uvarintDecode_malformed [128, 1] 0).2.2 (by decide) (by decide)⟩

/-- Unfolding of the encoder when the continuation bit is needed. -/
theorem uvarintEncodeNat_step {x : Nat} (h : 128 ≤ x) :
    uvarintEncodeNat x = (x % 128 + 128) :: uvarintEncodeNat (x / 128) := by
  rw [uvarintEncodeNat]
  simp [Nat.not_lt.mpr h]

/-- Unfolding of the encoder when the value fits the final byte. -/
theorem uvarintEncodeNat_small {x : Nat} (h : x < 128) :
    uvarintEncodeNat x = [x] := by
  rw [uvarintEncodeNat]
  simp [h, Nat.mod_eq_of_lt h]

/-- A value at least `128 ^ k` encodes in more than `k` bytes. -/
theorem uvarintEncodeNat_length_ge (k : Nat) : ∀ x, 128 ^ k ≤ x →
    k + 1 ≤ (uvarintEncodeNat x).length := by
  induction k with
  | zero =>
    intro x _
    exact uvarintEncodeNat_length_pos x
  | succ k ih =>
    intro x hx
    have h128 : 128 ≤ x := by
      calc (128:Nat) = 128 ^ 1 := (pow_one _).symm
      _ ≤ 128 ^ (k + 1) := Nat.pow_le_pow_right (by norm_num) (by omega)
      _ ≤ x := hx
    rw [uvarintEncodeNat_step h128]
    have hdiv : 128 ^ k ≤ x / 128 := by
      rw [Nat.le_div_iff_mul_le (by norm_num)]
      calc 128 ^ k * 128 = 128 ^ (k + 1) := (pow_succ 128 k).symm
      _ ≤ x := hx
    have h := ih (x / 128) hdiv
    simp only [List.length_cons]
    omega

/-- Every encoding byte except the terminating one carries the
continuation bit: the continuation run of an encoding is its length less
one. -/
theorem uvarintEncodeNat_contRun (x : Nat) :
    contRun (uvarintEncodeNat x) = (uvarintEncodeNat x).length - 1 := by
  induction x using uvarintEncodeNat.induct with
  | case1 x h =>
    rw [uvarintEncodeNat_small h]
    rw [show contRun [x] = if x &&& 128 = 0 then 0 else contRun [] + 1 from rfl]
    rw [if_pos (byte_and128_eq_zero h)]
    rfl
  | case2 x h ih =>
    have h128 : 128 ≤ x := by omega
    rw [uvarintEncodeNat_step h128]
    have hb : (x % 128 + 128) &&& 128 ≠ 0 :=
      byte_and128_ne_zero (by omega) (by omega)
    rw [show contRun ((x % 128 + 128) :: uvarintEncodeNat (x / 128)) =
      if (x % 128 + 128) &&& 128 = 0 then 0
      else contRun (uvarintEncodeNat (x / 128)) + 1 from rfl]
    rw [if_neg hb, ih]
    have hlen := uvarintEncodeNat_length_pos (x / 128)
    simp only [List.length_cons]
    omega

/-- C2 (amended). For every non-negative value below `2 ^ 77`, decoding the
encoding returns the value and the exact encoded byte length; encoding a
negative value throws; and for every value at least `2 ^ 77` the encoding
has at least 12 bytes and the decoder rejects it with the shift-overflow
error. -/
theorem uvarint_roundtrip_bounded (n : Int) (h0 : 0 ≤ n) (h77 : n < 2 ^ 77) :
    uvarintEncode n = .ok (uvarintEncodeNat n.toNat) ∧
    uvarintDecode (uvarintEncodeNat n.toNat) 0 =
      .ok (n.toNat, (uvarintEncodeNat n.toNat).length) ∧
    (∀ x : Int, x < 0 →
      uvarintEncode x = .error "uvarintEncode: negative values not allowed") ∧
    (∀ m : Int, 2 ^ 77 ≤ m →
      uvarintEncode m = .ok (uvarintEncodeNat m.toNat) ∧
      12 ≤ (uvarintEncodeNat m.toNat).length ∧
      uvarintDecode (uvarintEncodeNat m.toNat) 0 =
        .error "uvarintDecode: varint too long") := by
  refine ⟨?_, ?_, ?_, ?_⟩
  · rw [uvarintEncode, if_neg (by omega)]
  · have hn : n.toNat < 128 ^ 11 := by
      have hp : (128:Nat) ^ 11 = 2 ^ 77 := by norm_num
      have hip : (2:Int) ^ 77 = 151115727451828646838272 := by norm_num
      rw [hp]
      have h2n : (2:Nat) ^ 77 = 151115727451828646838272 := by norm_num
      rw [h2n]
      omega
    have hlen : (uvarintEncodeNat n.toNat).length ≤ 11 :=
      uvarintEncodeNat_length_le 10 n.toNat hn
    have h := uvarintDecodeGo_encode n.toNat [] 0 0 0 (by simpa using hlen) (by simp)
    rw [List.append_nil] at h
    rw [uvarintDecode, List.drop_zero]
    simpa using h
  · intro x hx
    rw [uvarintEncode, if_pos hx]
  · intro m hm
    have hip : (2:Int) ^ 77 = 151115727451828646838272 := by norm_num
    have hp : (128:Nat) ^ 11 = 151115727451828646838272 := by norm_num
    have hn : 128 ^ 11 ≤ m.toNat := by omega
    have h12 : 12 ≤ (uvarintEncodeNat m.toNat).length :=
      uvarintEncodeNat_length_ge 11 m.toNat hn
    refine ⟨?_, h12, ?_⟩
    · rw [uvarintEncode, if_neg (by omega)]
    · have hch := uvarintDecodeGo_characterization
        (uvarintEncodeNat m.toNat) 0 0 0 (by omega)
      simp only [Nat.mul_zero, Nat.sub_zero] at hch
      rw [uvarintDecode, List.drop_zero]
      apply hch.1.mpr
      rw [uvarintEncodeNat_contRun]
      omega

/-- Closed instance of `uvarint_roundtrip_bounded` at `n = 300`. -/
theorem uvarint_roundtrip_bounded_witness :
    uvarintEncode 300 = .ok (uvarintEncodeNat (300 : Int).toNat) ∧
    uvarintDecode (uvarintEncodeNat (300 : Int).toNat) 0 =
      .ok ((300 : Int).toNat, (uvarintEncodeNat (300 : Int).toNat).length) ∧
    (∀ x : Int, x < 0 →
      uvarintEncode x = .error "uvarintEncode: negative values not allowed") ∧
    (∀ m : Int, 2 ^ 77 ≤ m →
      uvarintEncode m = .ok (uvarintEncodeNat m.toNat) ∧
      12 ≤ (uvarintEncodeNat m.toNat).length ∧
      uvarintDecode (uvarintEncodeNat m.toNat) 0 =
        .error "uvarintDecode: varint too long") :=
  uvarint_roundtrip_bounded 300 (by norm_num) (by norm_num)

/-- Encoding of a power of 128: that many continuation bytes then a 1. -/
theorem uvarintEncodeNat_pow128 (k : Nat) :
    uvarintEncodeNat (128 ^ k) = List.replicate k 128 ++ [1] := by
  induction k with
  | zero =>
    rw [pow_zero, uvarintEncodeNat_small (by norm_num)]
    simp
  | succ k ih =>
    have h1 : (128:Nat) ≤ 128 ^ (k + 1) := by
      calc (128:Nat) = 128 ^ 1 := (pow_one _).symm
      _ ≤ 128 ^ (k + 1) := Nat.pow_le_pow_right (by norm_num) (by omega)
    have hm : 128 ^ (k + 1) % 128 = 0 := by
      rw [pow_succ]
      exact Nat.mul_mod_left _ _
    have hd : 128 ^ (k + 1) / 128 = 128 ^ k := by
      rw [pow_succ]
      exact Nat.mul_div_cancel _ (by norm_num)
    rw [uvarintEncodeNat_step h1, hm, hd, ih]
    simp [List.replicate_succ]

/-- C2 counterexample. At `n = 2 ^ 77` the encoder succeeds with a 12-byte
encoding whose first eleven bytes are continuation bytes, and the decoder
rejects that encoding with the shift-overflow error, so the unrestricted
round-trip claim fails. -/
theorem uvarint_roundtrip_cex :
    uvarintEncode (2 ^ 77) =
      .ok [128, 128, 128, 128, 128, 128, 128, 128, 128, 128, 128, 1] ∧
    uvarintDecode [128, 128, 128, 128, 128, 128, 128, 128, 128, 128, 128, 1] 0 =
      .error "uvarintDecode: varint too long" := by
  constructor
  · rw [uvarintEncode, if_neg (by norm_num)]
    have hcast : ((2:Int) ^ 77).toNat = (128:Nat) ^ 11 := by
      rw [show ((2:Int) ^ 77) = (((128:Nat) ^ 11 : Nat) : Int) from by norm_num]
      exact Int.toNat_natCast _
    rw [hcast, uvarintEncodeNat_pow128 11]
    rfl
  · have hch := uvarintDecodeGo_characterization
      [128, 128, 128, 128, 128, 128, 128, 128, 128, 128, 128, 1] 0 0 0
      (by omega)
    simp only [Nat.mul_zero, Nat.sub_zero] at hch
    rw [uvarintDecode, List.drop_zero]
    exact hch.1.mpr (by decide)

/-- Encoded zigzag values are never negative. -/
theorem zigzagEncode_nonneg (s : Int) : 0 ≤ zigzagEncode s := by
  rw [zigzagEncode]
  split <;> omega

/-- The zigzag round-trip on a single value. -/
theorem zigzagDecode_encode (s : Int) : zigzagDecode (zigzagEncode s) = .ok s := by
  rw [zigzagEncode]
  by_cases hs : 0 ≤ s
  · rw [if_pos hs, zigzagDecode, if_neg (by omega), if_pos (Int.mul_emod_right 2 s)]
    rw [Int.mul_tdiv_cancel_left s (by norm_num)]
  · rw [if_neg hs, zigzagDecode, if_neg (by omega), if_neg (by omega)]
    rw [show -2 * s - 1 + 1 = 2 * (-s) from by ring]
    rw [Int.mul_tdiv_cancel_left (-s) (by norm_num), neg_neg]

/-- C3. The zigzag round-trip holds for every signed integer, the small-value
table matches, and decoding any negative value throws. -/
theorem zigzag_spec :
    (∀ s : Int, zigzagDecode (zigzagEncode s) = .ok s) ∧
    (zigzagEncode 0 = 0 ∧ zigzagEncode (-1) = 1 ∧ zigzagEncode 1 = 2 ∧
      zigzagEncode (-2) = 3 ∧ zigzagEncode 2 = 4) ∧
    (∀ z : Int, z < 0 →
      zigzagDecode z = .error "zigzagDecode: input must be non-negative") := by
  refine ⟨zigzagDecode_encode, by decide, ?_⟩
  intro z hz
  rw [zigzagDecode, if_pos hz]

/-- Closed instance of `zigzag_spec`: round-trip at 5 and the throw at -3. -/
theorem zigzag_spec_witness :
    zigzagDecode (zigzagEncode 5) = .ok 5 ∧
    zigzagDecode (-3) = .error "zigzagDecode: input must be non-negative" :=
  ⟨zigzag_spec.1 5, zigzag_spec.2.2 (-3) (by norm_num)⟩

/-! ## bin-format.ts -/

/-- The `n_type` discriminator of a request/result. -/
inductive NType
  | index
  | value
deriving DecidableEq

/-- The window-selection mode of a request/result. -/
inductive NeighborhoodMode
  | count
  | span
deriving DecidableEq

/-- A `{num, den}` pair; both components are decimal bigint strings in the
source, modelled as integers. -/
structure Rational where
  num : Int
  den : Int
deriving DecidableEq

/-- The NeighborhoodResult interface: `n` is the echoed request parameter
(a decimal string, modelled as an integer), other sequence fields are
optional. -/
structure NeighborhoodResult where
  n : Int
  n_type : NType
  mode : NeighborhoodMode
  center_prime : Option Int := none
  primes : Option (List Int) := none
  gaps : Option (List Int) := none
  d2 : Option (List Int) := none
  ratio : Option (List Rational) := none
  indices : Option (List Int) := none
deriving DecidableEq

/-- The flags byte built by `binEncode`: bit0 always set (primes implicit),
bit1 gaps, bit2 d2, bit3 ratio, bit4 indices. -/
def mkFlags (g d r i : Bool) : Nat :=
  1 ||| (if g then 2 else 0) ||| (if d then 4 else 0) ||| (if r then 8 else 0) |||
    (if i then 16 else 0)

/-- Concatenation of per-element encodings, propagating the first failure
(the section-emitting loops of `binEncode`). -/
def encodeAll {α : Type} (f : α → Except String (List Nat)) :
    List α → Except String (List Nat)
  | [] => .ok []
  | a :: as => do
    let b ← f a
    let bs ← encodeAll f as
    .ok (b ++ bs)

/-- Source function `binEncode`: header, reserved bytes, varint counts,
center index, first prime, then the conditional sections. -/
def binEncode (result : NeighborhoodResult) (centerIndex : Int) :
    Except String (List Nat) := do
  let flags := mkFlags result.gaps.isSome result.d2.isSome result.ratio.isSome
    result.indices.isSome
  let primes := result.primes.getD []
  let gaps := result.gaps.getD []
  let d2s := result.d2.getD []
  let ratios := result.ratio.getD []
  let header : List Nat :=
    [70, 67, 80, 49, 1, 0,
      flags &&& 255, (flags >>> 8) &&& 255, (flags >>> 16) &&& 255,
      (flags >>> 24) &&& 255,
      if result.n_type = NType.index then 0 else 1,
      if result.mode = NeighborhoodMode.count then 0 else 1]
  let c1 ← uvarintEncode (primes.length : Int)
  let c2 ← uvarintEncode (gaps.length : Int)
  let c3 ← uvarintEncode (d2s.length : Int)
  let c4 ← uvarintEncode (ratios.length : Int)
  let c5 ← uvarintEncode centerIndex
  let p0 : Int := match primes with
    | [] => 0
    | p :: _ => p
  let c6 ← uvarintEncode p0
  let sGaps ← encodeAll uvarintEncode gaps
  let sD2 ← encodeAll (fun d => uvarintEncode (zigzagEncode d)) d2s
  let sRatio ← encodeAll (fun q => do
      let bn ← uvarintEncode (zigzagEncode q.num)
      let bd ← uvarintEncode q.den
      .ok (bn ++ bd)) ratios
  let sIdx ← match result.indices with
    | some idxs => encodeAll uvarintEncode idxs
    | none => .ok ([] : List Nat)
  .ok (header ++ [0, 0] ++ c1 ++ c2 ++ c3 ++ c4 ++ c5 ++ c6 ++ sGaps ++ sD2 ++
    sRatio ++ sIdx)

/-- Reading loop for a plain varint section (`count` entries). -/
def readVarints (data : List Nat) : Nat → Nat → Except String (List Int × Nat)
  | 0, offset => .ok ([], offset)
  | k + 1, offset => do
    let (v, br) ← uvarintDecode data offset
    let (vs, final) ← readVarints data k (offset + br)
    .ok ((v : Int) :: vs, final)

/-- Reading loop for the zigzag-encoded d2 section. -/
def readZigzags (data : List Nat) : Nat → Nat → Except String (List Int × Nat)
  | 0, offset => .ok ([], offset)
  | k + 1, offset => do
    let (v, br) ← uvarintDecode data offset
    let s ← zigzagDecode (v : Int)
    let (vs, final) ← readZigzags data k (offset + br)
    .ok (s :: vs, final)

/-- Reading loop for the ratio section: `(zigzag(num), uvarint(den))` pairs. -/
def readRatios (data : List Nat) : Nat → Nat → Except String (List Rational × Nat)
  | 0, offset => .ok ([], offset)
  | k + 1, offset => do
    let (nv, br1) ← uvarintDecode data offset
    let num ← zigzagDecode (nv : Int)
    let (dv, br2) ← uvarintDecode data (offset + br1)
    let (qs, final) ← readRatios data k (offset + br1 + br2)
    .ok (({ num := num, den := (dv : Int) } : Rational) :: qs, final)

/-- Reconstruction loop for the implicit primes: running sums of the gaps
starting from the first prime. -/
def accPrimes (current : Int) : List Int → List Int
  | [] => []
  | g :: gs => (current + g) :: accPrimes (current + g) gs

/-- Source function `binDecode`: checks magic and version, reassembles the
flags, reads the six varint header fields, the conditional sections, and
reconstructs the primes from `p0` and the gaps. -/
def binDecode (data : List Nat) : Except String (NeighborhoodResult × Int) := do
  if ¬ (data.get? 0 = some 70 ∧ data.get? 1 = some 67 ∧ data.get? 2 = some 80 ∧
      data.get? 3 = some 49) then
    .error "Invalid BIN format: bad magic"
  else
    let version := data.getD 4 0 ||| (data.getD 5 0 <<< 8)
    if version ≠ 1 then .error "Unsupported BIN version"
    else
      let flags := data.getD 6 0 ||| (data.getD 7 0 <<< 8) |||
        (data.getD 8 0 <<< 16) ||| (data.getD 9 0 <<< 24)
      let nType := if data.get? 10 = some 0 then NType.index else NType.value
      let mode := if data.get? 11 = some 0 then NeighborhoodMode.count
        else NeighborhoodMode.span
      let (countPrimes, b1) ← uvarintDecode data 14
      let (countGaps, b2) ← uvarintDecode data (14 + b1)
      let (countD2, b3) ← uvarintDecode data (14 + b1 + b2)
      let (countRatio, b4) ← uvarintDecode data (14 + b1 + b2 + b3)
      let (centerIndex, b5) ← uvarintDecode data (14 + b1 + b2 + b3 + b4)
      let (p0, b6) ← uvarintDecode data (14 + b1 + b2 + b3 + b4 + b5)
      let (gaps, o7) ← if flags &&& 2 ≠ 0 then
          readVarints data countGaps (14 + b1 + b2 + b3 + b4 + b5 + b6)
        else .ok ([], 14 + b1 + b2 + b3 + b4 + b5 + b6)
      let (d2s, o8) ← if flags &&& 4 ≠ 0 then readZigzags data countD2 o7
        else .ok ([], o7)
      let (ratios, o9) ← if flags &&& 8 ≠ 0 then readRatios data countRatio o8
        else .ok ([], o8)
      let (indices, _) ← if flags &&& 16 ≠ 0 then readVarints data countPrimes o9
        else .ok ([], o9)
      let primes : List Int := if flags &&& 1 ≠ 0 then
          (p0 : Int) :: accPrimes (p0 : Int) gaps
        else []
      let result : NeighborhoodResult := {
        n := 0
        n_type := nType
        mode := mode
        center_prime := none
        primes := if primes.length > 0 then some primes else none
        gaps := if gaps.length > 0 then some gaps else none
        d2 := if d2s.length > 0 then some d2s else none
        ratio := if ratios.length > 0 then some ratios else none
        indices := if indices.length > 0 then some indices else none }
      .ok (result, (centerIndex : Int))

/-! ## BIN v1 round-trip support -/

/-- Bind on a success propagates the value. -/
theorem except_bind_ok {ε α β : Type} (a : α) (f : α → Except ε β) :
    (Except.ok a : Except ε α) >>= f = f a := rfl

/-- Bind on a failure propagates the failure. -/
theorem except_bind_err {ε α β : Type} (e : ε) (f : α → Except ε β) :
    (Except.error e : Except ε α) >>= f = .error e := rfl

/-- Unfolding of the varint-section reader at a positive count. -/
theorem readVarints_succ (data : List Nat) (k off : Nat) :
    readVarints data (k + 1) off = (do
      let (v, br) ← uvarintDecode data off
      let (vs, final) ← readVarints data k (off + br)
      .ok ((v : Int) :: vs, final)) := rfl

/-- Unfolding of the d2-section reader at a positive count. -/
theorem readZigzags_succ (data : List Nat) (k off : Nat) :
    readZigzags data (k + 1) off = (do
      let (v, br) ← uvarintDecode data off
      let s ← zigzagDecode (v : Int)
      let (vs, final) ← readZigzags data k (off + br)
      .ok (s :: vs, final)) := rfl

/-- Unfolding of the ratio-section reader at a positive count. -/
theorem readRatios_succ (data : List Nat) (k off : Nat) :
    readRatios data (k + 1) off = (do
      let (nv, br1) ← uvarintDecode data off
      let num ← zigzagDecode (nv : Int)
      let (dv, br2) ← uvarintDecode data (off + br1)
      let (qs, final) ← readRatios data k (off + br1 + br2)
      .ok (({ num := num, den := (dv : Int) } : Rational) :: qs, final)) := rfl

/-- Cast bound transfer for the varint ceiling. -/
theorem toNat_lt_pow77 {v : Int} (h : v < 2 ^ 77) : v.toNat < 2 ^ 77 := by
  have h1 : (2:Int) ^ 77 = 151115727451828646838272 := by norm_num
  have h2 : (2:Nat) ^ 77 = 151115727451828646838272 := by norm_num
  rw [h2]
  rw [h1] at h
  omega

/-- Decoding from an offset whose suffix starts with an encoded value below
the ceiling returns that value and its encoded length. -/
theorem uvarintDecode_spec (data : List Nat) (off : Nat) (v : Nat)
    (rest : List Nat) (hv : v < 2 ^ 77)
    (hdrop : data.drop off = uvarintEncodeNat v ++ rest) :
    uvarintDecode data off = .ok (v, (uvarintEncodeNat v).length) := by
  rw [uvarintDecode, hdrop]
  have hv' : v < 128 ^ 11 := by
    rw [show (128:Nat) ^ 11 = 2 ^ 77 from by norm_num]
    exact hv
  have hlen : (uvarintEncodeNat v).length ≤ 11 :=
    uvarintEncodeNat_length_le 10 v hv'
  have h := uvarintDecodeGo_encode v rest 0 0 0 (by omega) (by simp)
  simpa using h

/-- Consuming a recognised chunk advances the drop position past it. -/
theorem drop_step (data : List Nat) (off : Nat) (chunk rest : List Nat)
    (hdrop : data.drop off = chunk ++ rest) :
    data.drop (off + chunk.length) = rest := by
  rw [← List.drop_drop, hdrop, List.drop_left]

/-- A masked byte below 256 is itself. -/
theorem and255_of_lt {f : Nat} (h : f < 256) : f &&& 255 = f := by
  rw [show (255:Nat) = 2 ^ 8 - 1 from by norm_num]
  exact Nat.and_pow_two_sub_one_of_lt_two_pow (by simpa using h)

/-- Reassembling the four little-endian flag bytes of a value below 256
returns the value. -/
theorem reassemble_flags {f : Nat} (h : f < 256) :
    (f &&& 255) ||| (((f >>> 8) &&& 255) <<< 8) ||| (((f >>> 16) &&& 255) <<< 16) |||
      (((f >>> 24) &&& 255) <<< 24) = f := by
  have h8 : f >>> 8 = 0 := by
    rw [Nat.shiftRight_eq_div_pow]
    exact Nat.div_eq_of_lt (by norm_num; omega)
  have h16 : f >>> 16 = 0 := by
    rw [Nat.shiftRight_eq_div_pow]
    exact Nat.div_eq_of_lt (by norm_num; omega)
  have h24 : f >>> 24 = 0 := by
    rw [Nat.shiftRight_eq_div_pow]
    exact Nat.div_eq_of_lt (by norm_num; omega)
  rw [h8, h16, h24, and255_of_lt h]
  simp

/-- The flag bits of `mkFlags`: bit 0 always set, bits 1, 2, 3, 4 tracking the
four optional sections, and the whole byte below 256. -/
theorem mkFlags_spec (g d r i : Bool) :
    mkFlags g d r i &&& 1 ≠ 0 ∧
    (mkFlags g d r i &&& 2 ≠ 0 ↔ g = true) ∧
    (mkFlags g d r i &&& 4 ≠ 0 ↔ d = true) ∧
    (mkFlags g d r i &&& 8 ≠ 0 ↔ r = true) ∧
    (mkFlags g d r i &&& 16 ≠ 0 ↔ i = true) ∧
    mkFlags g d r i < 256 := by
  cases g <;> cases d <;> cases r <;> cases i <;> decide

/-- The byte image of a varint section. -/
def sectionBytes (vs : List Int) : List Nat :=
  (vs.map (fun v => uvarintEncodeNat v.toNat)).flatten

/-- The byte image of the zigzag-encoded d2 section. -/
def sectionZig (ds : List Int) : List Nat :=
  (ds.map (fun d => uvarintEncodeNat (zigzagEncode d).toNat)).flatten

/-- The byte image of the ratio section. -/
def sectionRat (qs : List Rational) : List Nat :=
  (qs.map (fun q => uvarintEncodeNat (zigzagEncode q.num).toNat ++
    uvarintEncodeNat q.den.toNat)).flatten

/-- Reading the loop of a varint section over the bytes of an encoded list of
non-negative values below the ceiling recovers the list. -/
theorem readVarints_spec (data : List Nat) (vs : List Int) :
    ∀ (off : Nat) (rest : List Nat), (∀ v ∈ vs, 0 ≤ v ∧ v < 2 ^ 77) →
      data.drop off = sectionBytes vs ++ rest →
      readVarints data vs.length off =
        .ok (vs, off + (sectionBytes vs).length) := by
  induction vs with
  | nil =>
    intro off rest _ _
    simp [sectionBytes, readVarints]
  | cons v vs ih =>
    intro off rest hall hdrop
    have hv := hall v (List.mem_cons_self _ _)
    have hsec : sectionBytes (v :: vs) =
        uvarintEncodeNat v.toNat ++ sectionBytes vs := by
      simp [sectionBytes]
    rw [hsec, List.append_assoc] at hdrop
    have hdec := uvarintDecode_spec data off v.toNat _ (toNat_lt_pow77 hv.2) hdrop
    have hdrop2 := drop_step data off _ _ hdrop
    have hr := ih (off + (uvarintEncodeNat v.toNat).length) rest
      (fun w hw => hall w (List.mem_cons_of_mem _ hw)) hdrop2
    show readVarints data (vs.length + 1) off = _
    rw [readVarints_succ, hdec]
    simp only [except_bind_ok]
    rw [hr]
    simp only [except_bind_ok]
    rw [hsec, List.length_append, Int.toNat_of_nonneg hv.1]
    rw [show off + (uvarintEncodeNat v.toNat).length + (sectionBytes vs).length =
      off + ((uvarintEncodeNat v.toNat).length + (sectionBytes vs).length) from by
      omega]

/-- Reading the d2 section over the bytes of a zigzag-then-varint encoded
list recovers the list. -/
theorem readZigzags_spec (data : List Nat) (ds : List Int) :
    ∀ (off : Nat) (rest : List Nat), (∀ d ∈ ds, zigzagEncode d < 2 ^ 77) →
      data.drop off = sectionZig ds ++ rest →
      readZigzags data ds.length off = .ok (ds, off + (sectionZig ds).length) := by
  induction ds with
  | nil =>
    intro off rest _ _
    simp [sectionZig, readZigzags]
  | cons d ds ih =>
    intro off rest hall hdrop
    have hd := hall d (List.mem_cons_self _ _)
    have hsec : sectionZig (d :: ds) =
        uvarintEncodeNat (zigzagEncode d).toNat ++ sectionZig ds := by
      simp [sectionZig]
    rw [hsec, List.append_assoc] at hdrop
    have hdec := uvarintDecode_spec data off (zigzagEncode d).toNat _
      (toNat_lt_pow77 hd) hdrop
    have hdrop2 := drop_step data off _ _ hdrop
    have hr := ih (off + (uvarintEncodeNat (zigzagEncode d).toNat).length) rest
      (fun w hw => hall w (List.mem_cons_of_mem _ hw)) hdrop2
    show readZigzags data (ds.length + 1) off = _
    rw [readZigzags_succ, hdec]
    simp only [except_bind_ok]
    rw [Int.toNat_of_nonneg (zigzagEncode_nonneg d), zigzagDecode_encode]
    simp only [except_bind_ok]
    rw [hr]
    simp only [except_bind_ok]
    rw [hsec, List.length_append]
    rw [show off + (uvarintEncodeNat (zigzagEncode d).toNat).length +
        (sectionZig ds).length =
      off + ((uvarintEncodeNat (zigzagEncode d).toNat).length +
        (sectionZig ds).length) from by omega]

/-- Reading the ratio section over the bytes of encoded
`(zigzag(num), uvarint(den))` pairs recovers the pairs. -/
theorem readRatios_spec (data : List Nat) (qs : List Rational) :
    ∀ (off : Nat) (rest : List Nat),
      (∀ q ∈ qs, zigzagEncode q.num < 2 ^ 77 ∧ 0 ≤ q.den ∧ q.den < 2 ^ 77) →
      data.drop off = sectionRat qs ++ rest →
      readRatios data qs.length off = .ok (qs, off + (sectionRat qs).length) := by
  induction qs with
  | nil =>
    intro off rest _ _
    simp [sectionRat, readRatios]
  | cons q qs ih =>
    intro off rest hall hdrop
    have hq := hall q (List.mem_cons_self _ _)
    have hsec : sectionRat (q :: qs) =
        uvarintEncodeNat (zigzagEncode q.num).toNat ++
          (uvarintEncodeNat q.den.toNat ++ sectionRat qs) := by
      simp [sectionRat]
    rw [hsec, List.append_assoc] at hdrop
    have hdec1 := uvarintDecode_spec data off (zigzagEncode q.num).toNat _
      (toNat_lt_pow77 hq.1) hdrop
    have hdrop1 := drop_step data off _ _ hdrop
    rw [List.append_assoc] at hdrop1
    have hdec2 := uvarintDecode_spec data
      (off + (uvarintEncodeNat (zigzagEncode q.num).toNat).length) q.den.toNat _
      (toNat_lt_pow77 hq.2.2) hdrop1
    have hdrop2 := drop_step data
      (off + (uvarintEncodeNat (zigzagEncode q.num).toNat).length) _ _ hdrop1
    have hr := ih (off + (uvarintEncodeNat (zigzagEncode q.num).toNat).length +
        (uvarintEncodeNat q.den.toNat).length) rest
      (fun w hw => hall w (List.mem_cons_of_mem _ hw)) hdrop2
    show readRatios data (qs.length + 1) off = _
    rw [readRatios_succ, hdec1]
    simp only [except_bind_ok]
    rw [Int.toNat_of_nonneg (zigzagEncode_nonneg q.num), zigzagDecode_encode]
    simp only [except_bind_ok]
    rw [hdec2]
    simp only [except_bind_ok]
    rw [hr]
    simp only [except_bind_ok]
    rw [Int.toNat_of_nonneg hq.2.1, hsec]
    simp only [List.length_append]
    rw [show off + (uvarintEncodeNat (zigzagEncode q.num).toNat).length +
        (uvarintEncodeNat q.den.toNat).length + (sectionRat qs).length =
      off + ((uvarintEncodeNat (zigzagEncode q.num).toNat).length +
        ((uvarintEncodeNat q.den.toNat).length + (sectionRat qs).length)) from by
      omega]

/-- Unfolding of `encodeAll` on a cons cell. -/
theorem encodeAll_cons {α : Type} (f : α → Except String (List Nat)) (a : α)
    (as : List α) :
    encodeAll f (a :: as) = (do
      let b ← f a
      let bs ← encodeAll f as
      .ok (b ++ bs)) := rfl

/-- Encoding a section of non-negative values succeeds and produces the
concatenated varint encodings. -/
theorem encodeAll_uvarint (vs : List Int) (h : ∀ v ∈ vs, 0 ≤ v) :
    encodeAll uvarintEncode vs =
      .ok ((vs.map (fun v => uvarintEncodeNat v.toNat)).flatten) := by
  induction vs with
  | nil => rfl
  | cons v vs ih =>
    rw [encodeAll_cons]
    rw [show uvarintEncode v = .ok (uvarintEncodeNat v.toNat) from by
      rw [uvarintEncode, if_neg (not_lt.mpr (h v (List.mem_cons_self _ _)))]]
    simp only [except_bind_ok]
    rw [ih (fun w hw => h w (List.mem_cons_of_mem _ hw))]
    simp only [except_bind_ok, List.map_cons, List.flatten_cons]

/-- Encoding the d2 section always succeeds, producing the concatenated
zigzag-varint encodings. -/
theorem encodeAll_zigzag (ds : List Int) :
    encodeAll (fun d => uvarintEncode (zigzagEncode d)) ds =
      .ok ((ds.map (fun d => uvarintEncodeNat (zigzagEncode d).toNat)).flatten) := by
  induction ds with
  | nil => rfl
  | cons d ds ih =>
    rw [encodeAll_cons]
    rw [show uvarintEncode (zigzagEncode d) =
        .ok (uvarintEncodeNat (zigzagEncode d).toNat) from by
      rw [uvarintEncode, if_neg (not_lt.mpr (zigzagEncode_nonneg d))]]
    simp only [except_bind_ok]
    rw [ih]
    simp only [except_bind_ok, List.map_cons, List.flatten_cons]

/-- Encoding the ratio section succeeds when all denominators are
non-negative, producing the concatenated pair encodings. -/
theorem encodeAll_ratio (qs : List Rational) (h : ∀ q ∈ qs, 0 ≤ q.den) :
    encodeAll (fun q => do
        let bn ← uvarintEncode (zigzagEncode q.num)
        let bd ← uvarintEncode q.den
        .ok (bn ++ bd)) qs =
      .ok ((qs.map (fun q => uvarintEncodeNat (zigzagEncode q.num).toNat ++
        uvarintEncodeNat q.den.toNat)).flatten) := by
  induction qs with
  | nil => rfl
  | cons q qs ih =>
    rw [encodeAll_cons]
    rw [show uvarintEncode (zigzagEncode q.num) =
        .ok (uvarintEncodeNat (zigzagEncode q.num).toNat) from by
      rw [uvarintEncode, if_neg (not_lt.mpr (zigzagEncode_nonneg q.num))]]
    rw [show uvarintEncode q.den = .ok (uvarintEncodeNat q.den.toNat) from by
      rw [uvarintEncode, if_neg (not_lt.mpr (h q (List.mem_cons_self _ _)))]]
    simp only [except_bind_ok]
    rw [ih (fun w hw => h w (List.mem_cons_of_mem _ hw))]
    simp only [except_bind_ok, List.map_cons, List.flatten_cons]

/-- Presence of an optional section expressed through its flag boolean. -/
theorem isSome_ite {α : Type} (b : Bool) (x : α) :
    (if b = true then some x else none).isSome = b := by
  cases b <;> rfl

/-- Defaulted access of an optional section through its flag boolean. -/
theorem getD_ite {α : Type} (b : Bool) (x d : α) :
    (if b = true then some x else none).getD d = if b = true then x else d := by
  cases b <;> rfl

/-- The reconstruction loop produces one prime per gap. -/
theorem accPrimes_length (c : Int) (gs : List Int) :
    (accPrimes c gs).length = gs.length := by
  induction gs generalizing c with
  | nil => rfl
  | cons g gs ih =>
    rw [accPrimes]
    simp [ih]

/-- The expected wire image of an encoded neighborhood result: header,
reserved bytes, the six varint fields, then the section bytes. -/
def binBytes (c p0 : Int) (nt : NType) (md : NeighborhoodMode)
    (G D I : List Int) (R : List Rational) (hasGaps hasD2 hasRatio hasIdx : Bool) :
    List Nat :=
  [70, 67, 80, 49, 1, 0,
    mkFlags hasGaps hasD2 hasRatio hasIdx &&& 255,
    (mkFlags hasGaps hasD2 hasRatio hasIdx >>> 8) &&& 255,
    (mkFlags hasGaps hasD2 hasRatio hasIdx >>> 16) &&& 255,
    (mkFlags hasGaps hasD2 hasRatio hasIdx >>> 24) &&& 255,
    if nt = NType.index then 0 else 1,
    if md = NeighborhoodMode.count then 0 else 1,
    0, 0] ++
  (uvarintEncodeNat (G.length + 1) ++ (uvarintEncodeNat G.length ++
    (uvarintEncodeNat D.length ++ (uvarintEncodeNat R.length ++
    (uvarintEncodeNat c.toNat ++ (uvarintEncodeNat p0.toNat ++
    (sectionBytes G ++ (sectionZig D ++ (sectionRat R ++ sectionBytes I)))))))))

/-- Evaluation of `binEncode` on a result whose primes are consistent with its
gaps: it succeeds and produces the expected wire image. -/
theorem binEncode_eval (nEcho c p0 : Int) (cp : Option Int) (nt : NType)
    (md : NeighborhoodMode)
    (gs ds is : List Int) (qs : List Rational)
    (hasGaps hasD2 hasRatio hasIdx : Bool)
    (hc : 0 ≤ c) (hp0 : 0 ≤ p0)
    (hgsv : ∀ g ∈ gs, 0 ≤ g) (hqsv : ∀ q ∈ qs, 0 ≤ q.den)
    (hisv : ∀ i ∈ is, 0 ≤ i) :
    binEncode
      { n := nEcho, n_type := nt, mode := md, center_prime := cp,
        primes := some (p0 :: accPrimes p0 (if hasGaps then gs else [])),
        gaps := if hasGaps then some gs else none,
        d2 := if hasD2 then some ds else none,
        ratio := if hasRatio then some qs else none,
        indices := if hasIdx then some is else none } c =
      .ok (binBytes c p0 nt md (if hasGaps then gs else [])
        (if hasD2 then ds else []) (if hasIdx then is else [])
        (if hasRatio then qs else []) hasGaps hasD2 hasRatio hasIdx) := by
  have hGv : ∀ g ∈ (if hasGaps = true then gs else []), 0 ≤ g := by
    intro g hg
    by_cases h : hasGaps = true
    · rw [if_pos h] at hg
      exact hgsv g hg
    · rw [if_neg h] at hg
      cases hg
  have hRv : ∀ q ∈ (if hasRatio = true then qs else []), 0 ≤ q.den := by
    intro q hq
    by_cases h : hasRatio = true
    · rw [if_pos h] at hq
      exact hqsv q hq
    · rw [if_neg h] at hq
      cases hq
  have e1 : uvarintEncode
      (((p0 :: accPrimes p0 (if hasGaps = true then gs else [])).length : Nat) : Int) =
      .ok (uvarintEncodeNat ((if hasGaps = true then gs else []).length + 1)) := by
    rw [uvarintEncode, if_neg (not_lt.mpr (Int.natCast_nonneg _)), Int.toNat_natCast]
    simp [accPrimes_length]
  have e2 : uvarintEncode (((if hasGaps = true then gs else []).length : Nat) : Int) =
      .ok (uvarintEncodeNat (if hasGaps = true then gs else []).length) := by
    rw [uvarintEncode, if_neg (not_lt.mpr (Int.natCast_nonneg _)), Int.toNat_natCast]
  have e3 : uvarintEncode (((if hasD2 = true then ds else []).length : Nat) : Int) =
      .ok (uvarintEncodeNat (if hasD2 = true then ds else []).length) := by
    rw [uvarintEncode, if_neg (not_lt.mpr (Int.natCast_nonneg _)), Int.toNat_natCast]
  have e4 : uvarintEncode (((if hasRatio = true then qs else []).length : Nat) : Int) =
      .ok (uvarintEncodeNat (if hasRatio = true then qs else []).length) := by
    rw [uvarintEncode, if_neg (not_lt.mpr (Int.natCast_nonneg _)), Int.toNat_natCast]
  have e5 : uvarintEncode c = .ok (uvarintEncodeNat c.toNat) := by
    rw [uvarintEncode, if_neg (not_lt.mpr hc)]
  have e6 : uvarintEncode p0 = .ok (uvarintEncodeNat p0.toNat) := by
    rw [uvarintEncode, if_neg (not_lt.mpr hp0)]
  rw [binEncode]
  dsimp only
  rw [getD_ite, getD_ite, getD_ite]
  simp only [Option.getD_some]
  rw [e1, except_bind_ok, e2, except_bind_ok, e3, except_bind_ok, e4,
    except_bind_ok, e5, except_bind_ok]
  rw [e6, except_bind_ok]
  rw [encodeAll_uvarint _ hGv, except_bind_ok, encodeAll_zigzag, except_bind_ok,
    encodeAll_ratio _ hRv, except_bind_ok]
  simp only [isSome_ite]
  cases hasIdx with
  | false =>
    simp only [except_bind_ok]
    rw [binBytes]
    simp [sectionBytes, sectionZig, sectionRat, List.append_assoc]
  | true =>
    rw [if_pos rfl]
    simp only [encodeAll_uvarint is hisv, except_bind_ok]
    rw [binBytes]
    simp [sectionBytes, sectionZig, sectionRat, List.append_assoc]

/-- A bind distributed into both branches of an if can be pulled back out. -/
theorem bind_ite {e a b : Type} (c : Prop) [Decidable c] (A B : Except e a)
    (k : a → Except e b) :
    (if c then A >>= k else B >>= k) = (if c then A else B) >>= k := by
  split <;> rfl

/-- Evaluation of `binDecode` on the expected wire image: it succeeds and
reconstructs the result (with a zero `n` echo and no `center_prime`). -/
theorem binDecode_eval (c p0 : Int) (nt : NType) (md : NeighborhoodMode)
    (G D I : List Int) (R : List Rational)
    (hasGaps hasD2 hasRatio hasIdx : Bool)
    (hc : 0 ≤ c) (hc77 : c < 2 ^ 77) (hp0 : 0 ≤ p0) (hp77 : p0 < 2 ^ 77)
    (hGv : ∀ g ∈ G, 0 ≤ g ∧ g < 2 ^ 77)
    (hDv : ∀ d ∈ D, zigzagEncode d < 2 ^ 77)
    (hRv : ∀ q ∈ R, zigzagEncode q.num < 2 ^ 77 ∧ 0 ≤ q.den ∧ q.den < 2 ^ 77)
    (hIv : ∀ i ∈ I, 0 ≤ i ∧ i < 2 ^ 77)
    (hGflag : hasGaps = true ↔ G ≠ [])
    (hDflag : hasD2 = true ↔ D ≠ [])
    (hRflag : hasRatio = true ↔ R ≠ [])
    (hIflag : hasIdx = true ↔ I ≠ [])
    (hIlen : hasIdx = true → I.length = G.length + 1)
    (hb1 : G.length + 1 < 2 ^ 77) (hb3 : D.length < 2 ^ 77)
    (hb4 : R.length < 2 ^ 77) :
    binDecode (binBytes c p0 nt md G D I R hasGaps hasD2 hasRatio hasIdx) =
      .ok ({ n := 0, n_type := nt, mode := md, center_prime := none,
             primes := some (p0 :: accPrimes p0 G),
             gaps := if hasGaps then some G else none,
             d2 := if hasD2 then some D else none,
             ratio := if hasRatio then some R else none,
             indices := if hasIdx then some I else none }, c) := by
  have hflags := mkFlags_spec hasGaps hasD2 hasRatio hasIdx
  set f := mkFlags hasGaps hasD2 hasRatio hasIdx with hf
  set bytes := binBytes c p0 nt md G D I R hasGaps hasD2 hasRatio hasIdx with hbts
  have hbytes : bytes = 70 :: 67 :: 80 :: 49 :: 1 :: 0 :: (f &&& 255) ::
      ((f >>> 8) &&& 255) :: ((f >>> 16) &&& 255) :: ((f >>> 24) &&& 255) ::
      (if nt = NType.index then 0 else 1) ::
      (if md = NeighborhoodMode.count then 0 else 1) :: 0 :: 0 ::
      (uvarintEncodeNat (G.length + 1) ++ (uvarintEncodeNat G.length ++
        (uvarintEncodeNat D.length ++ (uvarintEncodeNat R.length ++
        (uvarintEncodeNat c.toNat ++ (uvarintEncodeNat p0.toNat ++
        (sectionBytes G ++ (sectionZig D ++ (sectionRat R ++ sectionBytes I))))))))) := by
    rw [hbts, binBytes]
    simp [List.cons_append]
  have hm0 : bytes.get? 0 = some 70 := by rw [hbytes]; rfl
  have hm1 : bytes.get? 1 = some 67 := by rw [hbytes]; rfl
  have hm2 : bytes.get? 2 = some 80 := by rw [hbytes]; rfl
  have hm3 : bytes.get? 3 = some 49 := by rw [hbytes]; rfl
  have hgd4 : bytes.getD 4 0 = 1 := by rw [hbytes]; rfl
  have hgd5 : bytes.getD 5 0 = 0 := by rw [hbytes]; rfl
  have hgd6 : bytes.getD 6 0 = f &&& 255 := by rw [hbytes]; rfl
  have hgd7 : bytes.getD 7 0 = (f >>> 8) &&& 255 := by rw [hbytes]; rfl
  have hgd8 : bytes.getD 8 0 = (f >>> 16) &&& 255 := by rw [hbytes]; rfl
  have hgd9 : bytes.getD 9 0 = (f >>> 24) &&& 255 := by rw [hbytes]; rfl
  have hg10 : bytes.get? 10 = some (if nt = NType.index then 0 else 1) := by
    rw [hbytes]; rfl
  have hg11 : bytes.get? 11 = some (if md = NeighborhoodMode.count then 0 else 1) := by
    rw [hbytes]; rfl
  have hd14 : bytes.drop 14 = uvarintEncodeNat (G.length + 1) ++
      (uvarintEncodeNat G.length ++ (uvarintEncodeNat D.length ++
      (uvarintEncodeNat R.length ++ (uvarintEncodeNat c.toNat ++
      (uvarintEncodeNat p0.toNat ++ (sectionBytes G ++ (sectionZig D ++
      (sectionRat R ++ sectionBytes I)))))))) := by
    rw [hbytes]
    rfl
  have h1 := uvarintDecode_spec bytes 14 (G.length + 1) _ hb1 hd14
  have hd2 := drop_step bytes 14 _ _ hd14
  have h2 := uvarintDecode_spec bytes (14 + (uvarintEncodeNat (G.length + 1)).length)
    G.length _ (by omega) hd2
  have hd3 := drop_step bytes _ _ _ hd2
  have h3 := uvarintDecode_spec bytes
    (14 + (uvarintEncodeNat (G.length + 1)).length + (uvarintEncodeNat G.length).length)
    D.length _ hb3 hd3
  have hd4 := drop_step bytes _ _ _ hd3
  have h4 := uvarintDecode_spec bytes
    (14 + (uvarintEncodeNat (G.length + 1)).length + (uvarintEncodeNat G.length).length +
      (uvarintEncodeNat D.length).length)
    R.length _ hb4 hd4
  have hd5 := drop_step bytes _ _ _ hd4
  have h5 := uvarintDecode_spec bytes
    (14 + (uvarintEncodeNat (G.length + 1)).length + (uvarintEncodeNat G.length).length +
      (uvarintEncodeNat D.length).length + (uvarintEncodeNat R.length).length)
    c.toNat _ (toNat_lt_pow77 hc77) hd5
  have hd6 := drop_step bytes _ _ _ hd5
  have h6 := uvarintDecode_spec bytes
    (14 + (uvarintEncodeNat (G.length + 1)).length + (uvarintEncodeNat G.length).length +
      (uvarintEncodeNat D.length).length + (uvarintEncodeNat R.length).length +
      (uvarintEncodeNat c.toNat).length)
    p0.toNat _ (toNat_lt_pow77 hp77) hd6
  have hd7 := drop_step bytes _ _ _ hd6
  rw [binDecode]
  rw [if_neg (not_not_intro ⟨hm0, hm1, hm2, hm3⟩)]
  dsimp only
  rw [hgd4, hgd5]
  rw [if_neg (by decide : ¬ ((1 : Nat) ||| 0 <<< 8 ≠ 1))]
  rw [hgd6, hgd7, hgd8, hgd9, reassemble_flags hflags.2.2.2.2.2]
  rw [h1, except_bind_ok, h2, except_bind_ok, h3, except_bind_ok, h4,
    except_bind_ok, h5, except_bind_ok, h6, except_bind_ok]
  dsimp only
  set o6 := 14 + (uvarintEncodeNat (G.length + 1)).length +
    (uvarintEncodeNat G.length).length + (uvarintEncodeNat D.length).length +
    (uvarintEncodeNat R.length).length + (uvarintEncodeNat c.toNat).length +
    (uvarintEncodeNat p0.toNat).length with ho6
  have hGread := readVarints_spec bytes G o6
    (sectionZig D ++ (sectionRat R ++ sectionBytes I)) hGv hd7
  have hdG := drop_step bytes o6 _ _ hd7
  have hDread := readZigzags_spec bytes D (o6 + (sectionBytes G).length)
    (sectionRat R ++ sectionBytes I) hDv hdG
  have hdD := drop_step bytes (o6 + (sectionBytes G).length) _ _ hdG
  have hRread := readRatios_spec bytes R
    (o6 + (sectionBytes G).length + (sectionZig D).length)
    (sectionBytes I) hRv hdD
  have hdR := drop_step bytes
    (o6 + (sectionBytes G).length + (sectionZig D).length) _ _ hdD
  have hIread := readVarints_spec bytes I
    (o6 + (sectionBytes G).length + (sectionZig D).length + (sectionRat R).length)
    [] hIv (by simpa using hdR)
  have hgapsStep : (if f &&& 2 ≠ 0 then readVarints bytes G.length o6
      else .ok ([], o6)) = .ok (G, o6 + (sectionBytes G).length) := by
    by_cases hg : hasGaps = true
    · rw [if_pos (hflags.2.1.mpr hg)]
      exact hGread
    · have hGnil : G = [] := by
        by_contra hne
        exact hg (hGflag.mpr hne)
      rw [if_neg (fun hcond => hg (hflags.2.1.mp hcond))]
      subst hGnil
      simp [sectionBytes]
  have hd2Step : (if f &&& 4 ≠ 0 then
        readZigzags bytes D.length (o6 + (sectionBytes G).length)
      else .ok ([], o6 + (sectionBytes G).length)) =
      .ok (D, o6 + (sectionBytes G).length + (sectionZig D).length) := by
    by_cases hdd : hasD2 = true
    · rw [if_pos (hflags.2.2.1.mpr hdd)]
      exact hDread
    · have hDnil : D = [] := by
        by_contra hne
        exact hdd (hDflag.mpr hne)
      rw [if_neg (fun hcond => hdd (hflags.2.2.1.mp hcond))]
      subst hDnil
      simp [sectionZig]
  have hratStep : (if f &&& 8 ≠ 0 then
        readRatios bytes R.length
          (o6 + (sectionBytes G).length + (sectionZig D).length)
      else .ok ([], o6 + (sectionBytes G).length + (sectionZig D).length)) =
      .ok (R, o6 + (sectionBytes G).length + (sectionZig D).length +
        (sectionRat R).length) := by
    by_cases hr : hasRatio = true
    · rw [if_pos (hflags.2.2.2.1.mpr hr)]
      exact hRread
    · have hRnil : R = [] := by
        by_contra hne
        exact hr (hRflag.mpr hne)
      rw [if_neg (fun hcond => hr (hflags.2.2.2.1.mp hcond))]
      subst hRnil
      simp [sectionRat]
  have hidxStep : (if f &&& 16 ≠ 0 then
        readVarints bytes (G.length + 1)
          (o6 + (sectionBytes G).length + (sectionZig D).length +
            (sectionRat R).length)
      else .ok ([], o6 + (sectionBytes G).length + (sectionZig D).length +
        (sectionRat R).length)) =
      .ok (I, o6 + (sectionBytes G).length + (sectionZig D).length +
        (sectionRat R).length + (sectionBytes I).length) := by
    by_cases hi : hasIdx = true
    · rw [if_pos (hflags.2.2.2.2.1.mpr hi), ← hIlen hi]
      exact hIread
    · have hInil : I = [] := by
        by_contra hne
        exact hi (hIflag.mpr hne)
      rw [if_neg (fun hcond => hi (hflags.2.2.2.2.1.mp hcond))]
      subst hInil
      simp [sectionBytes]
  rw [bind_ite, hgapsStep]
  rw [except_bind_ok]
  dsimp only
  rw [bind_ite, hd2Step]
  rw [except_bind_ok]
  dsimp only
  rw [bind_ite, hratStep]
  rw [except_bind_ok]
  dsimp only
  rw [bind_ite, hidxStep]
  rw [except_bind_ok]
  dsimp only
  rw [if_pos hflags.1, Int.toNat_of_nonneg hp0, Int.toNat_of_nonneg hc, hg10, hg11]
  have hnt : (if (some (if nt = NType.index then 0 else 1) : Option Nat) = some 0
      then NType.index else NType.value) = nt := by
    cases nt <;> simp
  have hmd : (if (some (if md = NeighborhoodMode.count then 0 else 1) :
      Option Nat) = some 0
      then NeighborhoodMode.count else NeighborhoodMode.span) = md := by
    cases md <;> simp
  rw [hnt, hmd]
  have hpf : (if ((p0 : Int) :: accPrimes p0 G).length > 0 then
      some ((p0 : Int) :: accPrimes p0 G) else none) =
      some (p0 :: accPrimes p0 G) := by
    simp
  rw [hpf]
  have hgf : (if G.length > 0 then some G else none) =
      (if hasGaps = true then some G else none) := by
    by_cases hg : hasGaps = true
    · rw [if_pos hg, if_pos (List.length_pos.mpr (hGflag.mp hg))]
    · have hnil : G = [] := by
        by_contra hne
        exact hg (hGflag.mpr hne)
      subst hnil
      simp [hg]
  have hdf : (if D.length > 0 then some D else none) =
      (if hasD2 = true then some D else none) := by
    by_cases hd : hasD2 = true
    · rw [if_pos hd, if_pos (List.length_pos.mpr (hDflag.mp hd))]
    · have hnil : D = [] := by
        by_contra hne
        exact hd (hDflag.mpr hne)
      subst hnil
      simp [hd]
  have hrf : (if R.length > 0 then some R else none) =
      (if hasRatio = true then some R else none) := by
    by_cases hr : hasRatio = true
    · rw [if_pos hr, if_pos (List.length_pos.mpr (hRflag.mp hr))]
    · have hnil : R = [] := by
        by_contra hne
        exact hr (hRflag.mpr hne)
      subst hnil
      simp [hr]
  have hif : (if I.length > 0 then some I else none) =
      (if hasIdx = true then some I else none) := by
    by_cases hi : hasIdx = true
    · rw [if_pos hi, if_pos (List.length_pos.mpr (hIflag.mp hi))]
    · have hnil : I = [] := by
        by_contra hne
        exact hi (hIflag.mpr hne)
      subst hnil
      simp [hi]
  rw [hgf, hdf, hrf, hif]

/-- C1 (amended). The BIN v1 round-trip: for a result without a
`center_prime` echo, whose primes are exactly the first prime followed by the
running sums of the gaps section (a single prime when gaps are absent), whose
present optional sections are non-empty, whose indices section (when present)
has exactly one entry per prime, and whose numeric payloads are non-negative
where unsigned and below the varint ceiling `2 ^ 77`, encoding succeeds and
decoding the bytes returns the original center index and the original result
up to the `n` echo, which the decoder sets to zero for the caller to
reattach.  The decoder reads exactly `count_primes` entries for the indices
section and rebuilds the primes from `p0` and the gaps. -/
theorem bin_roundtrip (nEcho c p0 : Int) (nt : NType) (md : NeighborhoodMode)
    (gs ds is : List Int) (qs : List Rational)
    (hasGaps hasD2 hasRatio hasIdx : Bool)
    (hc : 0 ≤ c) (hc77 : c < 2 ^ 77) (hp0 : 0 ≤ p0) (hp77 : p0 < 2 ^ 77)
    (hgsv : ∀ g ∈ gs, 0 ≤ g ∧ g < 2 ^ 77)
    (hdsv : ∀ d ∈ ds, zigzagEncode d < 2 ^ 77)
    (hqsv : ∀ q ∈ qs, zigzagEncode q.num < 2 ^ 77 ∧ 0 ≤ q.den ∧ q.den < 2 ^ 77)
    (hisv : ∀ i ∈ is, 0 ≤ i ∧ i < 2 ^ 77)
    (hgs_ne : hasGaps = true → gs ≠ [])
    (hds_ne : hasD2 = true → ds ≠ [])
    (hqs_ne : hasRatio = true → qs ≠ [])
    (hIlen : hasIdx = true →
      is.length = (if hasGaps then gs else []).length + 1)
    (hb1 : gs.length + 1 < 2 ^ 77) (hb3 : ds.length < 2 ^ 77)
    (hb4 : qs.length < 2 ^ 77) :
    ∃ bytes,
      binEncode
        { n := nEcho, n_type := nt, mode := md, center_prime := none,
          primes := some (p0 :: accPrimes p0 (if hasGaps then gs else [])),
          gaps := if hasGaps then some gs else none,
          d2 := if hasD2 then some ds else none,
          ratio := if hasRatio then some qs else none,
          indices := if hasIdx then some is else none } c = .ok bytes ∧
      binDecode bytes =
        .ok ({ n := 0, n_type := nt, mode := md, center_prime := none,
               primes := some (p0 :: accPrimes p0 (if hasGaps then gs else [])),
               gaps := if hasGaps then some gs else none,
               d2 := if hasD2 then some ds else none,
               ratio := if hasRatio then some qs else none,
               indices := if hasIdx then some is else none }, c) := by
  have hGv : ∀ g ∈ (if hasGaps = true then gs else []), 0 ≤ g ∧ g < 2 ^ 77 := by
    intro g hg
    by_cases h : hasGaps = true
    · rw [if_pos h] at hg
      exact hgsv g hg
    · rw [if_neg h] at hg
      cases hg
  have hDv : ∀ d ∈ (if hasD2 = true then ds else []), zigzagEncode d < 2 ^ 77 := by
    intro d hd
    by_cases h : hasD2 = true
    · rw [if_pos h] at hd
      exact hdsv d hd
    · rw [if_neg h] at hd
      cases hd
  have hRv : ∀ q ∈ (if hasRatio = true then qs else []),
      zigzagEncode q.num < 2 ^ 77 ∧ 0 ≤ q.den ∧ q.den < 2 ^ 77 := by
    intro q hq
    by_cases h : hasRatio = true
    · rw [if_pos h] at hq
      exact hqsv q hq
    · rw [if_neg h] at hq
      cases hq
  have hIv : ∀ i ∈ (if hasIdx = true then is else []), 0 ≤ i ∧ i < 2 ^ 77 := by
    intro i hi
    by_cases h : hasIdx = true
    · rw [if_pos h] at hi
      exact hisv i hi
    · rw [if_neg h] at hi
      cases hi
  have hGflag : hasGaps = true ↔ (if hasGaps = true then gs else []) ≠ [] := by
    constructor
    · intro h
      rw [if_pos h]
      exact hgs_ne h
    · intro h
      by_contra hng
      rw [if_neg hng] at h
      exact h rfl
  have hDflag : hasD2 = true ↔ (if hasD2 = true then ds else []) ≠ [] := by
    constructor
    · intro h
      rw [if_pos h]
      exact hds_ne h
    · intro h
      by_contra hng
      rw [if_neg hng] at h
      exact h rfl
  have hRflag : hasRatio = true ↔ (if hasRatio = true then qs else []) ≠ [] := by
    constructor
    · intro h
      rw [if_pos h]
      exact hqs_ne h
    · intro h
      by_contra hng
      rw [if_neg hng] at h
      exact h rfl
  have hIflag : hasIdx = true ↔ (if hasIdx = true then is else []) ≠ [] := by
    constructor
    · intro h
      rw [if_pos h]
      intro hnil
      have := hIlen h
      rw [hnil] at this
      simp at this
    · intro h
      by_contra hng
      rw [if_neg hng] at h
      exact h rfl
  have hIlen2 : hasIdx = true → (if hasIdx = true then is else []).length =
      (if hasGaps = true then gs else []).length + 1 := by
    intro h
    rw [if_pos h]
    exact hIlen h
  have hone : (1:Nat) < 2 ^ 77 := by norm_num
  have hb1x : (if hasGaps = true then gs else []).length + 1 < 2 ^ 77 := by
    by_cases h : hasGaps = true
    · rw [if_pos h]
      exact hb1
    · rw [if_neg h]
      simp [hone]
  have hb3x : (if hasD2 = true then ds else []).length < 2 ^ 77 := by
    by_cases h : hasD2 = true
    · rw [if_pos h]
      exact hb3
    · rw [if_neg h]
      simp
  have hb4x : (if hasRatio = true then qs else []).length < 2 ^ 77 := by
    by_cases h : hasRatio = true
    · rw [if_pos h]
      exact hb4
    · rw [if_neg h]
      simp
  refine ⟨_, binEncode_eval nEcho c p0 none nt md gs ds is qs hasGaps hasD2
    hasRatio hasIdx hc hp0 (fun g hg => (hgsv g hg).1)
    (fun q hq => (hqsv q hq).2.1) (fun i hi => (hisv i hi).1), ?_⟩
  have hdec := binDecode_eval c p0 nt md (if hasGaps = true then gs else [])
    (if hasD2 = true then ds else []) (if hasIdx = true then is else [])
    (if hasRatio = true then qs else []) hasGaps hasD2 hasRatio hasIdx
    hc hc77 hp0 hp77 hGv hDv hRv hIv hGflag hDflag hRflag hIflag hIlen2
    hb1x hb3x hb4x
  rw [hdec]
  cases hasGaps <;> cases hasD2 <;> cases hasRatio <;> cases hasIdx <;> simp

/-- C1 counterexample. A result carrying its always-present `center_prime`
echo does not round-trip: the decoder never reconstructs `center_prime`, so
after reattaching `n` the decoded result still differs from the original. -/
theorem bin_roundtrip_cex :
    binEncode { n := 0, n_type := NType.index, mode := NeighborhoodMode.count,
                center_prime := some 2, primes := some [2] } 0 =
      .ok (binBytes 0 2 NType.index NeighborhoodMode.count [] [] [] []
        false false false false) ∧
    binDecode (binBytes 0 2 NType.index NeighborhoodMode.count [] [] [] []
        false false false false) =
      .ok ({ n := 0, n_type := NType.index, mode := NeighborhoodMode.count,
             center_prime := none, primes := some [2] }, 0) ∧
    ({ n := 0, n_type := NType.index, mode := NeighborhoodMode.count,
       center_prime := none, primes := some [2] } : NeighborhoodResult) ≠
      { n := 0, n_type := NType.index, mode := NeighborhoodMode.count,
        center_prime := some 2, primes := some [2] } := by
  refine ⟨?_, ?_, by decide⟩
  · have h := binEncode_eval 0 0 2 (some 2) NType.index NeighborhoodMode.count
      [] [] [] [] false false false false (le_refl 0) (by norm_num)
      (by simp) (by simp) (by simp)
    simpa using h
  · have h := binDecode_eval 0 2 NType.index NeighborhoodMode.count [] [] [] []
      false false false false (le_refl 0) (by norm_num) (by norm_num)
      (by norm_num) (by simp) (by simp) (by simp) (by simp) (by simp) (by simp)
      (by simp) (by simp) (by simp) (by norm_num) (by norm_num) (by norm_num)
    simpa using h

/-- Closed instance of `bin_roundtrip` with every optional section present. -/
theorem bin_roundtrip_witness :
    ∃ bytes,
      binEncode
        { n := 5, n_type := NType.index, mode := NeighborhoodMode.count,
          center_prime := none,
          primes := some ((2:Int) :: accPrimes 2 (if true then [1] else [])),
          gaps := if true then some [(1:Int)] else none,
          d2 := if true then some [(-1:Int)] else none,
          ratio := if true then some [({ num := -1, den := 2 } : Rational)] else none,
          indices := if true then some [(0:Int), 1] else none } 1 = .ok bytes ∧
      binDecode bytes =
        .ok ({ n := 0, n_type := NType.index, mode := NeighborhoodMode.count,
               center_prime := none,
               primes := some ((2:Int) :: accPrimes 2 (if true then [1] else [])),
               gaps := if true then some [(1:Int)] else none,
               d2 := if true then some [(-1:Int)] else none,
               ratio := if true then some [({ num := -1, den := 2 } : Rational)] else none,
               indices := if true then some [(0:Int), 1] else none }, 1) :=
  bin_roundtrip 5 1 2 NType.index NeighborhoodMode.count [1] [-1] [0, 1]
    [{ num := -1, den := 2 }] true true true true
    (by norm_num) (by norm_num) (by norm_num) (by norm_num)
    (by decide) (by decide) (by decide) (by decide)
    (fun _ => by decide) (fun _ => by decide) (fun _ => by decide)
    (fun _ => by decide) (by decide) (by decide) (by decide)

/-! ## The sieve engine (usage-tracker.ts) -/

/-- Inner marking loop of the sieve: clear `isPrime[j]` for
`j = i*i, i*i+i, …` while `j ≤ n`.  The `1 ≤ i` conjunct in the guard is a
totality guard for the embedding; the source only runs this loop with
`i ≥ 2`. -/
def markMultiples (i n : Nat) (j : Nat) (flags : Nat → Bool) : Nat → Bool :=
  if _h : j ≤ n ∧ 1 ≤ i then
    markMultiples i n (j + i) (fun m => if m = j then false else flags m)
  else flags
termination_by n + 1 - j
decreasing_by omega

/-- Outer loop of the sieve: for `i` while `i * i ≤ n`, mark the multiples of
`i` when `isPrime[i]` is still set. -/
def sieveLoop (i n : Nat) (flags : Nat → Bool) : Nat → Bool :=
  if _h : i * i ≤ n then
    sieveLoop (i + 1) n
      (if flags i = true then markMultiples i n (i * i) flags else flags)
  else flags
termination_by n + 1 - i
decreasing_by
  have hin : i ≤ n := by
    rcases Nat.eq_zero_or_pos i with h0 | h0
    · omega
    · calc i = i * 1 := (Nat.mul_one i).symm
      _ ≤ i * i := Nat.mul_le_mul_left i h0
      _ ≤ n := _h
  omega

/-- Source function `sieve`: primes up to the limit, clamped to the hard
10,000,000 ceiling, collected in ascending order.  The flags array of size
`n + 1` initialised to 1 except entries 0 and 1 is the function
`fun k => 2 ≤ k`. -/
def sieve (limit : Nat) : List Nat :=
  if limit < 2 then []
  else
    let n := min limit 10000000
    (List.range' 2 (n - 1)).filter (fun m => sieveLoop 2 n (fun k => decide (2 ≤ k)) m)

/-- The module-level cache: `cachedPrimes` and `sieveLimit`. -/
structure SieveState where
  cachedPrimes : List Nat
  sieveLimit : Nat
deriving DecidableEq

/-- The initial cache: no primes, limit 0. -/
def initState : SieveState := ⟨[], 0⟩

/-- Source function `ensureSieved`: skip if covered, else re-sieve from
scratch with a 10000 margin and record the unclamped new limit. -/
def ensureSieved (limit : Nat) (s : SieveState) : SieveState :=
  if limit ≤ s.sieveLimit then s
  else { cachedPrimes := sieve (limit + 10000), sieveLimit := limit + 10000 }

/-- Binary-search loop of `lowerBound`. -/
def lowerBoundAux (arr : List Nat) (t : Nat) (lo hi : Nat) : Nat :=
  if _h : lo < hi then
    let mid := (lo + hi) / 2
    if arr.getD mid 0 < t then lowerBoundAux arr t (mid + 1) hi
    else lowerBoundAux arr t lo mid
  else lo
termination_by hi - lo
decreasing_by
  · omega
  · omega

/-- Source function `lowerBound`: first index whose element is `≥ t`. -/
def lowerBound (arr : List Nat) (t : Nat) : Nat :=
  lowerBoundAux arr t 0 arr.length

/-- Binary-search loop of `binarySearch`; `lo`, `hi` are JS numbers that can
go negative (`hi = mid - 1`), hence `Int`. -/
def binarySearchAux (arr : List Nat) (t : Nat) (lo hi : Int) : Int :=
  if _h : lo ≤ hi then
    let mid := (lo + hi) / 2
    if arr.getD mid.toNat 0 = t then mid
    else if arr.getD mid.toNat 0 < t then binarySearchAux arr t (mid + 1) hi
    else binarySearchAux arr t lo (mid - 1)
  else -1
termination_by (hi + 1 - lo).toNat
decreasing_by
  · omega
  · omega

/-- Source function `binarySearch`: index of `t` in the cache or `-1`. -/
def binarySearch (arr : List Nat) (t : Nat) : Int :=
  binarySearchAux arr t 0 ((arr.length : Int) - 1)

/-- Source function `isPrime`: false below 2, otherwise a binary search over
the (grown) cache. -/
def isPrime (n : Int) (s : SieveState) : Bool × SieveState :=
  if n < 2 then (false, s)
  else
    let s' := ensureSieved n.toNat s
    (decide (0 ≤ binarySearch s'.cachedPrimes n.toNat), s')

/-- Source function `closestPrime`: nearest cached prime, ties toward the
lower one. -/
def closestPrime (n : Int) (s : SieveState) : (Nat × Nat) × SieveState :=
  if n < 2 then ((2, 0), s)
  else
    let s' := ensureSieved (n + 1000).toNat s
    let arr := s'.cachedPrimes
    let idx := lowerBound arr n.toNat
    if idx < arr.length ∧ arr.getD idx 0 = n.toNat then ((n.toNat, idx), s')
    else if idx = 0 then ((arr.getD 0 0, 0), s')
    else if arr.length ≤ idx then
      ((arr.getD (arr.length - 1) 0, arr.length - 1), s')
    else
      let lower := arr.getD (idx - 1) 0
      let upper := arr.getD idx 0
      if (n - (lower : Int)) ≤ ((upper : Int) - n) then ((lower, idx - 1), s')
      else ((upper, idx), s')

/-- Source function `nextPrime`: smallest cached prime `≥ n`, with the
grow-and-retry fallback. -/
def nextPrime (n : Int) (s : SieveState) : (Nat × Nat) × SieveState :=
  if n < 2 then ((2, 0), s)
  else
    let s' := ensureSieved (n + 1000).toNat s
    let idx := lowerBound s'.cachedPrimes n.toNat
    if idx < s'.cachedPrimes.length then
      ((s'.cachedPrimes.getD idx 0, idx), s')
    else
      let s'' := ensureSieved (n * 2).toNat s'
      let newIdx := lowerBound s''.cachedPrimes n.toNat
      ((s''.cachedPrimes.getD newIdx 0, newIdx), s'')

/-- The cache invariant: the cache is exactly the sieve of the recorded
limit (the clamping lives inside `sieve`). -/
def Inv (s : SieveState) : Prop :=
  s.cachedPrimes = sieve s.sieveLimit

/-- The marking loop never sets a flag. -/
theorem markMultiples_le (i n j : Nat) (flags : Nat → Bool) (m : Nat) :
    markMultiples i n j flags m = true → flags m = true := by
  induction j, flags using markMultiples.induct i n with
  | case1 j flags hg ih =>
    intro h
    rw [markMultiples, dif_pos hg] at h
    have h2 : (if m = j then false else flags m) = true := ih h
    by_cases hm : m = j
    · rw [if_pos hm] at h2
      exact absurd h2 (by simp)
    · rwa [if_neg hm] at h2
  | case2 j flags hg =>
    intro h
    rwa [markMultiples, dif_neg hg] at h

/-- Exact effect of the marking loop: a flag is clear afterwards iff it was
clear before or lies on the arithmetic progression `j, j+i, …` within the
bound. -/
theorem markMultiples_false_iff (i n j : Nat) (flags : Nat → Bool) (m : Nat)
    (hi : 1 ≤ i) :
    markMultiples i n j flags m = false ↔
      flags m = false ∨ ((∃ t, m = j + t * i) ∧ m ≤ n) := by
  induction j, flags using markMultiples.induct i n with
  | case1 j flags hg ih =>
    have ih2 : markMultiples i n (j + i) (fun m => if m = j then false else flags m)
          m = false ↔
        ((if m = j then false else flags m) = false ∨
          ((∃ t, m = j + i + t * i) ∧ m ≤ n)) := ih
    rw [markMultiples, dif_pos hg, ih2]
    constructor
    · rintro (hf | hex)
      · by_cases hm : m = j
        · right
          exact ⟨⟨0, by omega⟩, by omega⟩
        · rw [if_neg hm] at hf
          left
          exact hf
      · obtain ⟨⟨t, ht⟩, hle⟩ := hex
        right
        refine ⟨⟨t + 1, ?_⟩, hle⟩
        rw [ht]
        ring
    · rintro (hf | ⟨⟨t, ht⟩, hle⟩)
      · left
        by_cases hm : m = j
        · simp [hm]
        · rw [if_neg hm]
          exact hf
      · cases t with
        | zero =>
          left
          have hmj : m = j := by omega
          simp [hmj]
        | succ t =>
          right
          refine ⟨⟨t, ?_⟩, hle⟩
          rw [ht]
          ring
  | case2 j flags hg =>
    rw [markMultiples, dif_neg hg]
    constructor
    · intro h
      left
      exact h
    · rintro (hf | ⟨⟨t, ht⟩, hle⟩)
      · exact hf
      · exfalso
        have hj : ¬ j ≤ n := fun hj => hg ⟨hj, hi⟩
        have htn : 0 ≤ t * i := Nat.zero_le _
        omega

/-- The marking loop started at `i * i` with `i ≥ 2` never clears a prime. -/
theorem markMultiples_prime (i n : Nat) (flags : Nat → Bool) (q : Nat)
    (h2 : 2 ≤ i) (hq : Nat.Prime q) (hf : flags q = true) :
    markMultiples i n (i * i) flags q = true := by
  cases hmark : markMultiples i n (i * i) flags q with
  | false =>
    exfalso
    rw [markMultiples_false_iff _ _ _ _ _ (by omega)] at hmark
    rcases hmark with hfq | ⟨⟨t, ht⟩, _⟩
    · rw [hf] at hfq
      cases hfq
    · have hd : i ∣ q := ⟨i + t, by rw [ht]; ring⟩
      rcases hq.eq_one_or_self_of_dvd i hd with h1 | h1
      · omega
      · have hq2 := hq.two_le
        subst h1
        have h2q : 2 * i ≤ i * i := by nlinarith
        omega
  | true => rfl

/-- The sieve loop never sets a flag. -/
theorem sieveLoop_le (i n : Nat) (flags : Nat → Bool) (m : Nat) :
    sieveLoop i n flags m = true → flags m = true := by
  induction i, n, flags using sieveLoop.induct with
  | case1 i n flags hg ih =>
    intro h
    rw [sieveLoop, dif_pos hg] at h
    have h2 : (if flags i = true then markMultiples i n (i * i) flags
        else flags) m = true := ih h
    by_cases hfi : flags i = true
    · rw [if_pos hfi] at h2
      exact markMultiples_le _ _ _ _ _ h2
    · rwa [if_neg hfi] at h2
  | case2 i n flags hg =>
    intro h
    rwa [sieveLoop, dif_neg hg] at h

/-- Primes survive the sieve loop. -/
theorem sieveLoop_prime (p : Nat) (hp : Nat.Prime p) (i n : Nat)
    (flags : Nat → Bool) :
    2 ≤ i → flags p = true → sieveLoop i n flags p = true := by
  induction i, n, flags using sieveLoop.induct with
  | case1 i n flags hg ih =>
    intro h2 hf
    rw [sieveLoop, dif_pos hg]
    apply ih (by omega)
    show (if flags i = true then markMultiples i n (i * i) flags
      else flags) p = true
    by_cases hfi : flags i = true
    · rw [if_pos hfi]
      exact markMultiples_prime i n flags p h2 hp hf
    · rwa [if_neg hfi]
  | case2 i n flags hg =>
    intro _ hf
    rwa [sieveLoop, dif_neg hg]

/-- Composites are cleared by the sieve loop once it reaches their least
prime factor. -/
theorem sieveLoop_composite (m : Nat) (hm2 : 2 ≤ m) (hcomp : ¬ Nat.Prime m)
    (i n : Nat) (flags : Nat → Bool) :
    m ≤ n → 2 ≤ i → i ≤ m.minFac →
    (∀ q, Nat.Prime q → flags q = true) →
    sieveLoop i n flags m = false := by
  have hpfac : Nat.Prime m.minFac := Nat.minFac_prime (by omega)
  have hsq : m.minFac * m.minFac ≤ m := by
    have h := Nat.minFac_sq_le_self (by omega) hcomp
    rwa [pow_two] at h
  induction i, n, flags using sieveLoop.induct with
  | case1 i n flags hg ih =>
    intro hmn h2 hip hflags
    rw [sieveLoop, dif_pos hg]
    by_cases hieq : i = m.minFac
    · have hfi : flags i = true := hflags i (hieq ▸ hpfac)
      have hcleared : markMultiples i n (i * i) flags m = false := by
        rw [markMultiples_false_iff _ _ _ _ _ (by omega)]
        right
        obtain ⟨k, hk⟩ := Nat.minFac_dvd m
        have hik : i ≤ k := by
          have h4 : m.minFac * m.minFac ≤ m.minFac * k := by rw [← hk]; exact hsq
          have h5 := Nat.le_of_mul_le_mul_left h4 (by have := hpfac.two_le; omega)
          omega
        refine ⟨⟨k - i, ?_⟩, hmn⟩
        have h3 : i * i + (k - i) * i = i * k := by
          have h6 : i + (k - i) = k := by omega
          calc i * i + (k - i) * i = (i + (k - i)) * i := by ring
            _ = k * i := by rw [h6]
            _ = i * k := Nat.mul_comm _ _
        rw [h3, hieq]
        exact hk
      cases hlater : sieveLoop (i + 1) n
          (if flags i = true then markMultiples i n (i * i) flags else flags) m with
      | false => rfl
      | true =>
        exfalso
        have hchain := sieveLoop_le _ _ _ _ hlater
        rw [if_pos hfi, hcleared] at hchain
        cases hchain
    · apply ih hmn (by omega) (by omega)
      intro q hq
      show (if flags i = true then markMultiples i n (i * i) flags
        else flags) q = true
      by_cases hfi : flags i = true
      · rw [if_pos hfi]
        exact markMultiples_prime i n flags q h2 hq (hflags q hq)
      · rw [if_neg hfi]
        exact hflags q hq
  | case2 i n flags hg =>
    intro hmn h2 hip hflags
    exfalso
    apply hg
    calc i * i ≤ m.minFac * m.minFac := Nat.mul_le_mul hip hip
      _ ≤ m := hsq
      _ ≤ n := hmn

/-- Membership in the sieve output: exactly the primes up to the clamped
limit. -/
theorem mem_sieve (limit m : Nat) :
    m ∈ sieve limit ↔ Nat.Prime m ∧ m ≤ min limit 10000000 := by
  by_cases hl : limit < 2
  · rw [sieve, if_pos hl]
    simp only [List.not_mem_nil, false_iff]
    rintro ⟨hp, hle⟩
    have := hp.two_le
    omega
  · rw [sieve]
    rw [if_neg hl]
    simp only [List.mem_filter, List.mem_range']
    constructor
    · rintro ⟨⟨t, ht, hmt⟩, hloop⟩
      have hm2 : 2 ≤ m := by omega
      have hmn : m ≤ min limit 10000000 := by omega
      refine ⟨?_, hmn⟩
      by_contra hcomp
      have hfalse := sieveLoop_composite m hm2 hcomp 2 (min limit 10000000)
        (fun k => decide (2 ≤ k)) hmn (le_refl 2)
        (Nat.minFac_prime (by omega)).two_le
        (fun q hq => by simp [hq.two_le])
      rw [hfalse] at hloop
      cases hloop
    · rintro ⟨hp, hle⟩
      have hm2 := hp.two_le
      refine ⟨⟨m - 2, by omega, by omega⟩, ?_⟩
      exact sieveLoop_prime m hp 2 _ _ (le_refl 2) (by simp [hm2])

/-- The sieve output is strictly ascending. -/
theorem sieve_sorted (limit : Nat) : List.Pairwise (· < ·) (sieve limit) := by
  rw [sieve]
  split
  · exact List.Pairwise.nil
  · exact List.Pairwise.filter _ (List.pairwise_lt_range' _ _)

/-- Defaulted access is monotone on a strictly ascending list. -/
theorem getD_mono_of_sorted (arr : List Nat) (hs : List.Pairwise (· < ·) arr)
    (a b : Nat) (hab : a ≤ b) (hb : b < arr.length) :
    arr.getD a 0 ≤ arr.getD b 0 := by
  rcases Nat.eq_or_lt_of_le hab with h | h
  · rw [h]
  · rw [List.getD_eq_get _ _ (lt_trans h hb), List.getD_eq_get _ _ hb]
    exact le_of_lt (List.pairwise_iff_get.mp hs ⟨a, lt_trans h hb⟩ ⟨b, hb⟩ h)

/-- Every element of a list is a defaulted access at some in-range index. -/
theorem mem_getD (arr : List Nat) (q : Nat) (hq : q ∈ arr) :
    ∃ k, k < arr.length ∧ arr.getD k 0 = q := by
  obtain ⟨⟨k, hk⟩, hget⟩ := List.mem_iff_get.mp hq
  exact ⟨k, hk, by rw [List.getD_eq_get _ _ hk]; exact hget⟩

/-- Unfolding of the lower-bound loop in the searching case. -/
theorem lowerBoundAux_eq (arr : List Nat) (t lo hi : Nat) (h : lo < hi) :
    lowerBoundAux arr t lo hi =
      if arr.getD ((lo + hi) / 2) 0 < t then
        lowerBoundAux arr t ((lo + hi) / 2 + 1) hi
      else lowerBoundAux arr t lo ((lo + hi) / 2) := by
  rw [lowerBoundAux, dif_pos h]

/-- The lower-bound loop on a sorted slice returns the first index whose
element is at least the target. -/
theorem lowerBoundAux_spec (arr : List Nat) (t : Nat)
    (hs : List.Pairwise (· < ·) arr) (lo hi : Nat) :
    hi ≤ arr.length → lo ≤ hi →
    (∀ k, k < lo → arr.getD k 0 < t) →
    (∀ k, hi ≤ k → k < arr.length → t ≤ arr.getD k 0) →
    lo ≤ lowerBoundAux arr t lo hi ∧ lowerBoundAux arr t lo hi ≤ hi ∧
      (∀ k, k < lowerBoundAux arr t lo hi → arr.getD k 0 < t) ∧
      (lowerBoundAux arr t lo hi < arr.length →
        t ≤ arr.getD (lowerBoundAux arr t lo hi) 0) := by
  induction lo, hi using lowerBoundAux.induct arr t with
  | case1 lo hi hlt mid hmid ih =>
    intro hhi hlohi hbelow habove
    have hmideq : mid = (lo + hi) / 2 := rfl
    rw [lowerBoundAux_eq arr t lo hi hlt, ← hmideq, if_pos hmid]
    have hbelow2 : ∀ k, k < mid + 1 → arr.getD k 0 < t := by
      intro k hk
      rcases Nat.lt_or_ge k lo with hkl | hkl
      · exact hbelow k hkl
      · have hmono : arr.getD k 0 ≤ arr.getD mid 0 :=
          getD_mono_of_sorted arr hs k mid (by omega) (by omega)
        omega
    obtain ⟨ha, hb, hc, hd⟩ := ih hhi (by omega) hbelow2 habove
    exact ⟨by omega, hb, hc, hd⟩
  | case2 lo hi hlt mid hmid ih =>
    intro hhi hlohi hbelow habove
    have hmideq : mid = (lo + hi) / 2 := rfl
    rw [lowerBoundAux_eq arr t lo hi hlt, ← hmideq, if_neg hmid]
    have habove2 : ∀ k, mid ≤ k → k < arr.length → t ≤ arr.getD k 0 := by
      intro k hk hkl
      have hmono : arr.getD mid 0 ≤ arr.getD k 0 :=
        getD_mono_of_sorted arr hs mid k hk hkl
      omega
    obtain ⟨ha, hb, hc, hd⟩ := ih (by omega) (by omega) hbelow habove2
    exact ⟨ha, by omega, hc, hd⟩
  | case3 lo hi hlt =>
    intro hhi hlohi hbelow habove
    rw [lowerBoundAux, dif_neg hlt]
    exact ⟨le_refl lo, by omega, hbelow, fun h => habove lo (by omega) h⟩

/-- `lowerBound` on a sorted array: first index with element `≥ t`. -/
theorem lowerBound_spec (arr : List Nat) (t : Nat)
    (hs : List.Pairwise (· < ·) arr) :
    lowerBound arr t ≤ arr.length ∧
      (∀ k, k < lowerBound arr t → arr.getD k 0 < t) ∧
      (lowerBound arr t < arr.length → t ≤ arr.getD (lowerBound arr t) 0) := by
  have h := lowerBoundAux_spec arr t hs 0 arr.length (le_refl _) (Nat.zero_le _)
    (fun k hk => absurd hk (Nat.not_lt_zero k))
    (fun k hk hkl => absurd hkl (by omega))
  rw [lowerBound]
  exact ⟨h.2.1, h.2.2.1, h.2.2.2⟩

/-- Unfolding of the binary-search loop in the searching case. -/
theorem binarySearchAux_eq (arr : List Nat) (t : Nat) (lo hi : Int)
    (h : lo ≤ hi) :
    binarySearchAux arr t lo hi =
      if arr.getD ((lo + hi) / 2).toNat 0 = t then (lo + hi) / 2
      else if arr.getD ((lo + hi) / 2).toNat 0 < t then
        binarySearchAux arr t ((lo + hi) / 2 + 1) hi
      else binarySearchAux arr t lo ((lo + hi) / 2 - 1) := by
  rw [binarySearchAux, dif_pos h]

/-- A binary search over in-range bounds for an absent target fails. -/
theorem binarySearchAux_not_mem (arr : List Nat) (t : Nat) (ht : t ∉ arr)
    (lo hi : Int) :
    0 ≤ lo → hi < (arr.length : Int) → binarySearchAux arr t lo hi = -1 := by
  induction lo, hi using binarySearchAux.induct arr t with
  | case1 lo hi hle mid hfound =>
    intro hlo hhi
    exfalso
    have hmideq : mid = (lo + hi) / 2 := rfl
    have hm2 : mid.toNat < arr.length := by omega
    have hmem : arr.getD mid.toNat 0 ∈ arr := by
      rw [List.getD_eq_get _ _ hm2]
      exact List.get_mem _ _ _
    rw [hfound] at hmem
    exact ht hmem
  | case2 lo hi hle mid hfound hlt ih =>
    intro hlo hhi
    have hmideq : mid = (lo + hi) / 2 := rfl
    rw [binarySearchAux_eq arr t lo hi hle, ← hmideq, if_neg hfound, if_pos hlt]
    exact ih (by omega) hhi
  | case3 lo hi hle mid hfound hlt ih =>
    intro hlo hhi
    have hmideq : mid = (lo + hi) / 2 := rfl
    rw [binarySearchAux_eq arr t lo hi hle, ← hmideq, if_neg hfound, if_neg hlt]
    exact ih hlo (by omega)
  | case4 lo hi hle =>
    intro hlo hhi
    rw [binarySearchAux, dif_neg hle]

/-- `binarySearch` for an absent target returns `-1`. -/
theorem binarySearch_not_mem (arr : List Nat) (t : Nat) (ht : t ∉ arr) :
    binarySearch arr t = -1 := by
  rw [binarySearch]
  exact binarySearchAux_not_mem arr t ht 0 _ (le_refl 0) (by omega)

/-- Growing the cache preserves the invariant. -/
theorem ensureSieved_inv (limit : Nat) (s : SieveState) (h : Inv s) :
    Inv (ensureSieved limit s) := by
  rw [ensureSieved]
  split
  · exact h
  · unfold Inv
    dsimp only

/-- The recorded limit after growing covers the request (unclamped). -/
theorem ensureSieved_limit (limit : Nat) (s : SieveState) :
    limit ≤ (ensureSieved limit s).sieveLimit := by
  rw [ensureSieved]
  split
  · assumption
  · show limit ≤ limit + 10000
    omega

/-- After growing to a limit within the ceiling, every prime up to the
request is cached. -/
theorem ensureSieved_mem (limit : Nat) (s : SieveState) (h : Inv s) (q : Nat)
    (hq : Nat.Prime q) (hql : q ≤ limit) (hcap : limit ≤ 10000000) :
    q ∈ (ensureSieved limit s).cachedPrimes := by
  rw [ensureSieved]
  split
  · next hcov =>
    rw [h, mem_sieve]
    exact ⟨hq, by omega⟩
  · next hcov =>
    dsimp only
    rw [mem_sieve]
    exact ⟨hq, by omega⟩

/-- Everything in a cache satisfying the invariant is a prime below the
hard ceiling. -/
theorem cache_le_ceiling (s : SieveState) (h : Inv s) (q : Nat)
    (hq : q ∈ s.cachedPrimes) : q ≤ 10000000 ∧ Nat.Prime q := by
  rw [h, mem_sieve] at hq
  exact ⟨by omega, hq.1⟩

/-- C10.  Above the 10,000,000 clamping ceiling of `sieve`, `isPrime`
returns `false` even on a prime input, without failing: the grown cache
still satisfies the invariant, `ensureSieved` records the unclamped
request as covered, yet every cached prime stays at or below the ceiling,
so the lookup cannot find the input. -/
theorem isPrime_above_ceiling (n : Int) (s : SieveState) (hInv : Inv s)
    (hn : 10000000 < n) (hp : Nat.Prime n.toNat) :
    (isPrime n s).1 = false ∧
      Inv (isPrime n s).2 ∧
      n.toNat ≤ (isPrime n s).2.sieveLimit ∧
      ∀ q ∈ (isPrime n s).2.cachedPrimes, q ≤ 10000000 := by
  have h2 : ¬ n < 2 := by omega
  rw [isPrime, if_neg h2]
  dsimp only
  have hInv2 := ensureSieved_inv n.toNat s hInv
  refine ⟨?_, hInv2, ensureSieved_limit _ _,
    fun q hq => (cache_le_ceiling _ hInv2 q hq).1⟩
  have hnot : n.toNat ∉ (ensureSieved n.toNat s).cachedPrimes := by
    intro hmem
    have hle := (cache_le_ceiling _ hInv2 _ hmem).1
    omega
  rw [binarySearch_not_mem _ _ hnot]
  decide

/-- Defaulted access at an in-range index is a member. -/
theorem getD_mem (arr : List Nat) (k : Nat) (hk : k < arr.length) :
    arr.getD k 0 ∈ arr := by
  rw [List.getD_eq_get _ _ hk]
  exact List.get_mem _ _ _

/-- The natural distance written with truncated subtractions. -/
theorem dist_eq (a b : Nat) : Nat.dist a b = a - b + (b - a) := rfl

/-- `closestPrime` under the engine's capability: the result is the prime
nearest to `n`, with ties broken toward the lower prime. -/
theorem closestPrime_spec (n : Int) (s : SieveState) (hInv : Inv s)
    (h2 : 2 ≤ n) (hcap : n.toNat + 11000 ≤ 10000000)
    (q0 : Nat) (hq0 : Nat.Prime q0) (hq0lo : n.toNat ≤ q0)
    (hq0hi : q0 ≤ n.toNat + 1000) :
    Nat.Prime ((closestPrime n s).1.1) ∧
      (∀ q, Nat.Prime q →
        Nat.dist ((closestPrime n s).1.1) n.toNat ≤ Nat.dist q n.toNat) ∧
      (∀ q, Nat.Prime q →
        Nat.dist q n.toNat = Nat.dist ((closestPrime n s).1.1) n.toNat →
        (closestPrime n s).1.1 ≤ q) := by
  have h2n : ¬ n < 2 := by omega
  have hInv2 : Inv (ensureSieved (n + 1000).toNat s) := ensureSieved_inv _ _ hInv
  have hsort : List.Pairwise (· < ·)
      (ensureSieved (n + 1000).toNat s).cachedPrimes := by
    rw [show (ensureSieved (n + 1000).toNat s).cachedPrimes =
      sieve (ensureSieved (n + 1000).toNat s).sieveLimit from hInv2]
    exact sieve_sorted _
  have hmemin : ∀ q, Nat.Prime q → q ≤ n.toNat + 1000 →
      q ∈ (ensureSieved (n + 1000).toNat s).cachedPrimes := by
    intro q hq hql
    exact ensureSieved_mem _ _ hInv q hq (by omega) (by omega)
  have hprime : ∀ q ∈ (ensureSieved (n + 1000).toNat s).cachedPrimes,
      Nat.Prime q :=
    fun q hq => (cache_le_ceiling _ hInv2 q hq).2
  rw [closestPrime, if_neg h2n]
  dsimp only
  set arr := (ensureSieved (n + 1000).toNat s).cachedPrimes with harr
  set idx := lowerBound arr n.toNat with hidxdef
  have hspec := lowerBound_spec arr n.toNat hsort
  rw [← hidxdef] at hspec
  obtain ⟨hlen, hbelow, habove⟩ := hspec
  have hq0mem : q0 ∈ arr := hmemin q0 hq0 hq0hi
  obtain ⟨k0, hk0, hk0v⟩ := mem_getD arr q0 hq0mem
  have hidxlt : idx < arr.length := by
    by_contra hge
    have h5 := hbelow k0 (by omega)
    omega
  have hU0 : n.toNat ≤ arr.getD idx 0 := habove hidxlt
  have hUprime : Nat.Prime (arr.getD idx 0) := hprime _ (getD_mem arr idx hidxlt)
  have hidxk0 : idx ≤ k0 := by
    by_contra hlt
    have h5 := hbelow k0 (by omega)
    omega
  have hUq0 : arr.getD idx 0 ≤ q0 := by
    have h6 := getD_mono_of_sorted arr hsort idx k0 hidxk0 hk0
    omega
  have hUleast : ∀ q, Nat.Prime q → n.toNat ≤ q → arr.getD idx 0 ≤ q := by
    intro q hq hqt
    by_cases hqarr : q ∈ arr
    · obtain ⟨kq, hkq, hkqv⟩ := mem_getD arr q hqarr
      have hkidx : idx ≤ kq := by
        by_contra hlt
        have h5 := hbelow kq (by omega)
        omega
      have h6 := getD_mono_of_sorted arr hsort idx kq hkidx hkq
      omega
    · have hbig : ¬ q ≤ n.toNat + 1000 := fun hle => hqarr (hmemin q hq hle)
      omega
  by_cases hexact : arr.getD idx 0 = n.toNat
  · rw [if_pos ⟨hidxlt, hexact⟩]
    refine ⟨?_, fun q hq => ?_, fun q hq htie => ?_⟩
    · show Nat.Prime n.toNat
      exact hexact ▸ hUprime
    · show Nat.dist n.toNat n.toNat ≤ Nat.dist q n.toNat
      rw [Nat.dist_self]
      exact Nat.zero_le _
    · have htie2 : Nat.dist q n.toNat = Nat.dist n.toNat n.toNat := htie
      rw [Nat.dist_self, dist_eq] at htie2
      show n.toNat ≤ q
      omega
  · rw [if_neg (fun hc => hexact hc.2)]
    have hUgt : n.toNat < arr.getD idx 0 := by omega
    by_cases hzero : idx = 0
    · rw [if_pos hzero]
      have hztoU : arr.getD 0 0 = arr.getD idx 0 := by rw [hzero]
      have hnolow : ∀ q, Nat.Prime q → ¬ q < n.toNat := by
        intro q hq hlt
        have hqmem : q ∈ arr := hmemin q hq (by omega)
        obtain ⟨kq, hkq, hkqv⟩ := mem_getD arr q hqmem
        have h6 : arr.getD idx 0 ≤ arr.getD kq 0 :=
          getD_mono_of_sorted arr hsort idx kq (by omega) hkq
        omega
      refine ⟨?_, fun q hq => ?_, fun q hq htie => ?_⟩
      · show Nat.Prime (arr.getD 0 0)
        exact hztoU ▸ hUprime
      · show Nat.dist (arr.getD 0 0) n.toNat ≤ Nat.dist q n.toNat
        have hqt := hnolow q hq
        have h7 := hUleast q hq (by omega)
        rw [hztoU, dist_eq, dist_eq]
        omega
      · show arr.getD 0 0 ≤ q
        have hqt := hnolow q hq
        rw [hztoU]
        exact hUleast q hq (by omega)
    · rw [if_neg hzero]
      rw [if_neg (by omega : ¬ arr.length ≤ idx)]
      have hL1 : arr.getD (idx - 1) 0 < n.toNat := hbelow (idx - 1) (by omega)
      have hLprime : Nat.Prime (arr.getD (idx - 1) 0) :=
        hprime _ (getD_mem arr (idx - 1) (by omega))
      have hLgreatest : ∀ q, Nat.Prime q → q < n.toNat →
          q ≤ arr.getD (idx - 1) 0 := by
        intro q hq hlt
        have hqmem : q ∈ arr := hmemin q hq (by omega)
        obtain ⟨kq, hkq, hkqv⟩ := mem_getD arr q hqmem
        have hkqidx : kq < idx := by
          by_contra hge
          have h6 := getD_mono_of_sorted arr hsort idx kq (by omega) hkq
          omega
        have h6 := getD_mono_of_sorted arr hsort kq (idx - 1) (by omega)
          (by omega)
        omega
      by_cases hcmp : n - (arr.getD (idx - 1) 0 : Int) ≤ (arr.getD idx 0 : Int) - n
      · rw [if_pos hcmp]
        refine ⟨?_, fun q hq => ?_, fun q hq htie => ?_⟩
        · show Nat.Prime (arr.getD (idx - 1) 0)
          exact hLprime
        · show Nat.dist (arr.getD (idx - 1) 0) n.toNat ≤ Nat.dist q n.toNat
          rw [dist_eq, dist_eq]
          by_cases hqt : q < n.toNat
          · have h6 := hLgreatest q hq hqt
            omega
          · have h6 := hUleast q hq (by omega)
            omega
        · have htie2 : Nat.dist q n.toNat =
              Nat.dist (arr.getD (idx - 1) 0) n.toNat := htie
          rw [dist_eq, dist_eq] at htie2
          show arr.getD (idx - 1) 0 ≤ q
          by_cases hqt : q < n.toNat
          · have h6 := hLgreatest q hq hqt
            omega
          · have h6 := hUleast q hq (by omega)
            omega
      · rw [if_neg hcmp]
        refine ⟨?_, fun q hq => ?_, fun q hq htie => ?_⟩
        · show Nat.Prime (arr.getD idx 0)
          exact hUprime
        · show Nat.dist (arr.getD idx 0) n.toNat ≤ Nat.dist q n.toNat
          rw [dist_eq, dist_eq]
          by_cases hqt : q < n.toNat
          · have h6 := hLgreatest q hq hqt
            omega
          · have h6 := hUleast q hq (by omega)
            omega
        · have htie2 : Nat.dist q n.toNat =
              Nat.dist (arr.getD idx 0) n.toNat := htie
          rw [dist_eq, dist_eq] at htie2
          show arr.getD idx 0 ≤ q
          by_cases hqt : q < n.toNat
          · have h6 := hLgreatest q hq hqt
            omega
          · have h6 := hUleast q hq (by omega)
            omega

/-- `nextPrime` under the engine's capability: the result is the least
prime at or above `n`. -/
theorem nextPrime_spec (n : Int) (s : SieveState) (hInv : Inv s)
    (h2 : 2 ≤ n) (hcap : n.toNat + 11000 ≤ 10000000)
    (q0 : Nat) (hq0 : Nat.Prime q0) (hq0lo : n.toNat ≤ q0)
    (hq0hi : q0 ≤ n.toNat + 1000) :
    Nat.Prime ((nextPrime n s).1.1) ∧ n.toNat ≤ (nextPrime n s).1.1 ∧
      ∀ q, Nat.Prime q → n.toNat ≤ q → (nextPrime n s).1.1 ≤ q := by
  have h2n : ¬ n < 2 := by omega
  have hInv2 : Inv (ensureSieved (n + 1000).toNat s) := ensureSieved_inv _ _ hInv
  have hsort : List.Pairwise (· < ·)
      (ensureSieved (n + 1000).toNat s).cachedPrimes := by
    rw [show (ensureSieved (n + 1000).toNat s).cachedPrimes =
      sieve (ensureSieved (n + 1000).toNat s).sieveLimit from hInv2]
    exact sieve_sorted _
  have hmemin : ∀ q, Nat.Prime q → q ≤ n.toNat + 1000 →
      q ∈ (ensureSieved (n + 1000).toNat s).cachedPrimes := by
    intro q hq hql
    exact ensureSieved_mem _ _ hInv q hq (by omega) (by omega)
  have hprime : ∀ q ∈ (ensureSieved (n + 1000).toNat s).cachedPrimes,
      Nat.Prime q :=
    fun q hq => (cache_le_ceiling _ hInv2 q hq).2
  rw [nextPrime, if_neg h2n]
  dsimp only
  set arr := (ensureSieved (n + 1000).toNat s).cachedPrimes with harr
  set idx := lowerBound arr n.toNat with hidxdef
  have hspec := lowerBound_spec arr n.toNat hsort
  rw [← hidxdef] at hspec
  obtain ⟨hlen, hbelow, habove⟩ := hspec
  have hq0mem : q0 ∈ arr := hmemin q0 hq0 hq0hi
  obtain ⟨k0, hk0, hk0v⟩ := mem_getD arr q0 hq0mem
  have hidxlt : idx < arr.length := by
    by_contra hge
    have h5 := hbelow k0 (by omega)
    omega
  have hU0 : n.toNat ≤ arr.getD idx 0 := habove hidxlt
  have hUprime : Nat.Prime (arr.getD idx 0) := hprime _ (getD_mem arr idx hidxlt)
  have hidxk0 : idx ≤ k0 := by
    by_contra hlt
    have h5 := hbelow k0 (by omega)
    omega
  have hUq0 : arr.getD idx 0 ≤ q0 := by
    have h6 := getD_mono_of_sorted arr hsort idx k0 hidxk0 hk0
    omega
  have hUleast : ∀ q, Nat.Prime q → n.toNat ≤ q → arr.getD idx 0 ≤ q := by
    intro q hq hqt
    by_cases hqarr : q ∈ arr
    · obtain ⟨kq, hkq, hkqv⟩ := mem_getD arr q hqarr
      have hkidx : idx ≤ kq := by
        by_contra hlt
        have h5 := hbelow kq (by omega)
        omega
      have h6 := getD_mono_of_sorted arr hsort idx kq hkidx hkq
      omega
    · have hbig : ¬ q ≤ n.toNat + 1000 := fun hle => hqarr (hmemin q hq hle)
      omega
  rw [if_pos hidxlt]
  exact ⟨hUprime, hU0, hUleast⟩

/-- Source `gcd` (part_002): Euclid's algorithm on the absolute values,
i.e. the nonnegative gcd of the two integers. -/
def gcd (a b : Int) : Int := (Int.gcd a b : Int)

/-- Source `rational` (part_002): reduced rational with positive
denominator; throws on a zero denominator.  JS bigint division truncates,
hence `Int.tdiv`; the sign-normalisation branch is inlined. -/
def rational (num den : Int) : Except String Rational :=
  if den = 0 then .error "Division by zero in rational"
  else if den < 0 then
    .ok ⟨(-num).tdiv (gcd (-num) (-den)), (-den).tdiv (gcd (-num) (-den))⟩
  else .ok ⟨num.tdiv (gcd num den), den.tdiv (gcd num den)⟩

/-- The gaps loop of `computeNeighborhood`: `g[i] = p[i+1] - p[i]`. -/
def gapsOf (ps : List Int) : List Int :=
  (List.range (ps.length - 1)).map (fun i => ps.getD (i + 1) 0 - ps.getD i 0)

/-- The second-difference loop of `computeNeighborhood`:
`d2[i] = g[i+1] - g[i]`. -/
def d2Of (gs : List Int) : List Int :=
  (List.range (gs.length - 1)).map (fun i => gs.getD (i + 1) 0 - gs.getD i 0)

/-- The ratios loop of `computeNeighborhood`: `count` entries starting at
position `i`, each `rational(d2[j], p[j+2] - p[j])`. -/
def ratiosGo (ds ps : List Int) (i count : Nat) :
    Except String (List Rational) :=
  match count with
  | 0 => .ok []
  | c + 1 => do
    let r ← rational (ds.getD i 0) (ps.getD (i + 2) 0 - ps.getD i 0)
    let rest ← ratiosGo ds ps (i + 1) c
    pure (r :: rest)

/-- The full ratios loop over all of `d2`. -/
def ratiosOf (ds ps : List Int) : Except String (List Rational) :=
  ratiosGo ds ps 0 ds.length

/-- The doubling `while` loop of `primeAtIndex`; the source runs it
without bound, so the embedding carries explicit fuel and signals
exhaustion with an error no source path produces. -/
def primeAtIndexGo (index fuel estimate : Nat) (s : SieveState) :
    Except String (Nat × SieveState) :=
  match fuel with
  | 0 => .error "fuel exhausted"
  | f + 1 =>
    if s.cachedPrimes.length ≤ index then
      primeAtIndexGo index f (estimate * 2) (ensureSieved (estimate * 2) s)
    else .ok (s.cachedPrimes.getD index 0, s)

/-- Source `primeAtIndex`: the prime-number-theorem estimate is computed
with float `Math.log`, modelled here as the `est` parameter; the source
clamps it below at 100 and then doubles while the cache is too short. -/
def primeAtIndex (index est fuel : Nat) (s : SieveState) :
    Except String (Nat × SieveState) :=
  primeAtIndexGo index fuel (max 100 est) (ensureSieved (max 100 est) s)

/-- Source `primesAroundIndex`: the window
`[max 0 (index-k), index+k]` of cached primes with their indices. -/
def primesAroundIndex (index k est fuel : Nat) (s : SieveState) :
    Except String ((List Nat × List Nat) × SieveState) :=
  match primeAtIndex (index + k) est fuel s with
  | .error e => .error e
  | .ok (_, s1) =>
    let stop := min (index + k + 1) s1.cachedPrimes.length
    let idxs := List.range' (index - k) (stop - (index - k))
    .ok ((idxs.map (fun i => s1.cachedPrimes.getD i 0), idxs), s1)

/-- `lowerBound` against a signed target (the source compares bigints; the
cache holds naturals, the target may be negative). -/
def lowerBoundIAux (arr : List Nat) (t : Int) (lo hi : Nat) : Nat :=
  if _h : lo < hi then
    let mid := (lo + hi) / 2
    if (arr.getD mid 0 : Int) < t then lowerBoundIAux arr t (mid + 1) hi
    else lowerBoundIAux arr t lo mid
  else lo
termination_by hi - lo
decreasing_by
  · omega
  · omega

/-- `lowerBound` over the whole array, signed target. -/
def lowerBoundI (arr : List Nat) (t : Int) : Nat :=
  lowerBoundIAux arr t 0 arr.length

/-- Source `primesAroundValue`: the cached primes in
`[max (center-w) 2, center+w]` with their indices. -/
def primesAroundValue (center w : Int) (s : SieveState) :
    (List Nat × List Nat) × SieveState :=
  let start : Int := if 2 < center - w then center - w else 2
  let e : Int := center + w
  let s1 := ensureSieved e.toNat s
  let startIdx := lowerBoundI s1.cachedPrimes start
  let endIdx := lowerBoundI s1.cachedPrimes (e + 1)
  let idxs := List.range' startIdx (endIdx - startIdx)
  ((idxs.map (fun i => s1.cachedPrimes.getD i 0), idxs), s1)

/-- The `NeighborhoodData` record assembled by `computeNeighborhood`. -/
structure NeighborhoodData where
  centerIndex : Nat
  centerPrime : Nat
  primes : List Nat
  indices : List Nat
  gaps : List Int
  d2 : List Int
  ratios : List Rational
deriving DecidableEq

/-- The tail of `computeNeighborhood` after the window is selected: the
gaps, second differences and ratios, assembled into the data record. -/
def finishData (centerIndex centerPrime : Nat) (primes indices : List Nat)
    (s2 : SieveState) : Except String (NeighborhoodData × SieveState) :=
  let psI : List Int := primes.map (Nat.cast : Nat → Int)
  let gaps := gapsOf psI
  let d2 := d2Of gaps
  match ratiosOf d2 psI with
  | .error e => .error e
  | .ok ratios =>
    .ok (⟨centerIndex, centerPrime, primes, indices, gaps, d2, ratios⟩, s2)

/-- The window-selection step of `computeNeighborhood` (`mode` dispatch,
with the source defaults `k = 10` and `w = 100`). -/
def computeRest (centerIndex centerPrime : Nat) (md : NeighborhoodMode)
    (k : Option Nat) (w : Option Int) (estf : Nat → Nat) (fuel : Nat)
    (s1 : SieveState) : Except String (NeighborhoodData × SieveState) :=
  match md with
  | .count =>
    match primesAroundIndex centerIndex (k.getD 10)
        (estf (centerIndex + k.getD 10)) fuel s1 with
    | .error e => .error e
    | .ok (pr, s2) => finishData centerIndex centerPrime pr.1 pr.2 s2
  | .span =>
    let pr := primesAroundValue (centerPrime : Int) (w.getD 100) s1
    finishData centerIndex centerPrime pr.1.1 pr.1.2 pr.2

/-- Source `computeNeighborhood`: resolve the center (`index` →
`primeAtIndex`, `value` → `nextPrime`), select the window by mode, then
derive gaps, second differences and ratios. -/
def computeNeighborhood (n : Int) (nt : NType) (md : NeighborhoodMode)
    (k : Option Nat) (w : Option Int) (estf : Nat → Nat) (fuel : Nat)
    (s : SieveState) : Except String (NeighborhoodData × SieveState) :=
  match nt with
  | .index =>
    match primeAtIndex n.toNat (estf n.toNat) fuel s with
    | .error e => .error e
    | .ok (p, s1) => computeRest n.toNat p md k w estf fuel s1
  | .value =>
    let r := nextPrime n s
    computeRest r.1.2 r.1.1 md k w estf fuel r.2

/-- `rational` on a positive denominator: succeeds with the fraction in
lowest terms, positive denominator, the same value (by cross
multiplication), and magnitude bounds when the input was proper. -/
theorem rational_spec (num den : Int) (hden : 0 < den) :
    ∃ r, rational num den = .ok r ∧ 0 < r.den ∧
      Nat.gcd r.num.natAbs r.den.natAbs = 1 ∧
      r.num * den = num * r.den ∧
      (num.natAbs ≤ den.natAbs → -r.den ≤ r.num ∧ r.num ≤ r.den) := by
  have hne : ¬ den = 0 := by omega
  have hnlt : ¬ den < 0 := by omega
  rw [rational, if_neg hne, if_neg hnlt]
  set g : Int := gcd num den with hg
  have hg0 : 0 < Int.gcd num den := by
    apply Nat.gcd_pos_of_pos_right
    omega
  have hgpos : 0 < g := by
    rw [hg, gcd]
    exact_mod_cast hg0
  obtain ⟨a, ha⟩ : g ∣ num := by rw [hg, gcd]; exact Int.gcd_dvd_left
  obtain ⟨b, hb⟩ : g ∣ den := by rw [hg, gcd]; exact Int.gcd_dvd_right
  have hta : num.tdiv g = a := by rw [ha]; exact Int.mul_tdiv_cancel_left a (by omega)
  have htb : den.tdiv g = b := by rw [hb]; exact Int.mul_tdiv_cancel_left b (by omega)
  have hbpos : 0 < b := by
    by_contra hble
    push_neg at hble
    have hd0 : den ≤ 0 := by
      rw [hb]
      exact mul_nonpos_iff.mpr (Or.inl ⟨le_of_lt hgpos, hble⟩)
    omega
  have hgabs : g.natAbs = Int.gcd num den := by
    rw [hg, gcd]
    exact Int.natAbs_ofNat _
  have hnums : num.natAbs = Int.gcd num den * a.natAbs := by
    conv_lhs => rw [ha]
    rw [Int.natAbs_mul, hgabs]
  have hdens : den.natAbs = Int.gcd num den * b.natAbs := by
    conv_lhs => rw [hb]
    rw [Int.natAbs_mul, hgabs]
  have ha2 : a.natAbs = num.natAbs / Int.gcd num den := by
    rw [hnums, Nat.mul_div_cancel_left _ hg0]
  have hb2 : b.natAbs = den.natAbs / Int.gcd num den := by
    rw [hdens, Nat.mul_div_cancel_left _ hg0]
  refine ⟨⟨num.tdiv g, den.tdiv g⟩, rfl, ?_, ?_, ?_, ?_⟩
  · rw [htb]
    exact hbpos
  · rw [hta, htb, ha2, hb2]
    exact Nat.coprime_div_gcd_div_gcd hg0
  · rw [hta, htb]
    rw [ha, hb]
    ring
  · intro hle
    have habs : a.natAbs ≤ b.natAbs := by
      rw [hnums, hdens] at hle
      exact Nat.le_of_mul_le_mul_left hle hg0
    show -(den.tdiv g) ≤ num.tdiv g ∧ num.tdiv g ≤ den.tdiv g
    rw [hta, htb]
    omega

/-- Defaulted access into a mapped range. -/
theorem getD_map_range (f : Nat → Int) (n i : Nat) (hi : i < n) :
    ((List.range n).map f).getD i 0 = f i := by
  rw [List.getD_eq_get _ _ (by simpa using hi)]
  simp

/-- Defaulted access commutes with the cast of a natural list. -/
theorem getD_map_cast (ps : List Nat) (i : Nat) (hi : i < ps.length) :
    (ps.map (Nat.cast : Nat → Int)).getD i 0 = (ps.getD i 0 : Int) := by
  have h2 : i < (ps.map (Nat.cast : Nat → Int)).length := by
    rw [List.length_map]
    exact hi
  rw [List.getD_eq_getElem _ _ h2, List.getD_eq_getElem _ _ hi,
    List.getElem_map]

/-- One gap per adjacent pair. -/
theorem gapsOf_length (ps : List Int) : (gapsOf ps).length = ps.length - 1 := by
  simp [gapsOf]

/-- One second difference per adjacent pair of gaps. -/
theorem d2Of_length (gs : List Int) : (d2Of gs).length = gs.length - 1 := by
  simp [d2Of]

/-- The gaps loop computes `p[i+1] - p[i]`. -/
theorem gapsOf_getD (ps : List Int) (i : Nat) (hi : i + 1 < ps.length) :
    (gapsOf ps).getD i 0 = ps.getD (i + 1) 0 - ps.getD i 0 := by
  rw [gapsOf]
  exact getD_map_range _ _ _ (by omega)

/-- The second-difference loop computes `g[i+1] - g[i]`. -/
theorem d2Of_getD (gs : List Int) (i : Nat) (hi : i + 1 < gs.length) :
    (d2Of gs).getD i 0 = gs.getD (i + 1) 0 - gs.getD i 0 := by
  rw [d2Of]
  exact getD_map_range _ _ _ (by omega)

/-- Unfolding of the ratios loop at a positive count. -/
theorem ratiosGo_succ (ds ps : List Int) (i c : Nat) :
    ratiosGo ds ps i (c + 1) = (do
      let r ← rational (ds.getD i 0) (ps.getD (i + 2) 0 - ps.getD i 0)
      let rest ← ratiosGo ds ps (i + 1) c
      pure (r :: rest)) := rfl

/-- The ratios loop on positive spans: succeeds, one entry per step, each
entry a reduced positive-denominator rational with the cross-multiplied
value `d2[j] / (p[j+2] - p[j])` and, for proper fractions, magnitude at
most the denominator. -/
theorem ratiosGo_spec (ds ps : List Int) (count : Nat) : ∀ i,
    (∀ j, i ≤ j → j < i + count → 0 < ps.getD (j + 2) 0 - ps.getD j 0) →
    ∃ rs, ratiosGo ds ps i count = .ok rs ∧ rs.length = count ∧
      ∀ j, j < count →
        0 < (rs.getD j ⟨0, 1⟩).den ∧
        Nat.gcd (rs.getD j ⟨0, 1⟩).num.natAbs (rs.getD j ⟨0, 1⟩).den.natAbs = 1 ∧
        (rs.getD j ⟨0, 1⟩).num * (ps.getD (i + j + 2) 0 - ps.getD (i + j) 0) =
          ds.getD (i + j) 0 * (rs.getD j ⟨0, 1⟩).den ∧
        ((ds.getD (i + j) 0).natAbs ≤
            (ps.getD (i + j + 2) 0 - ps.getD (i + j) 0).natAbs →
          -(rs.getD j ⟨0, 1⟩).den ≤ (rs.getD j ⟨0, 1⟩).num ∧
            (rs.getD j ⟨0, 1⟩).num ≤ (rs.getD j ⟨0, 1⟩).den) := by
  induction count with
  | zero =>
    intro i hpos
    exact ⟨[], rfl, rfl, fun j hj => absurd hj (by omega)⟩
  | succ c ih =>
    intro i hpos
    obtain ⟨r, hr, hrden, hrgcd, hrcross, hrbound⟩ :=
      rational_spec (ds.getD i 0) (ps.getD (i + 2) 0 - ps.getD i 0)
        (hpos i (le_refl i) (by omega))
    obtain ⟨rest, hrest, hlen, hrel⟩ :=
      ih (i + 1) (fun j hj1 hj2 => hpos j (by omega) (by omega))
    refine ⟨r :: rest, ?_, by simp [hlen], ?_⟩
    · rw [ratiosGo_succ, hr, except_bind_ok, hrest, except_bind_ok]
      rfl
    · intro j hj
      cases j with
      | zero =>
        exact ⟨hrden, hrgcd, hrcross, hrbound⟩
      | succ j2 =>
        have h := hrel j2 (by omega)
        have hidx : i + 1 + j2 = i + (j2 + 1) := by omega
        rw [hidx] at h
        exact h

/-- Defaulted access is strictly monotone on a strictly ascending list. -/
theorem getD_strict_mono (arr : List Nat) (hs : List.Pairwise (· < ·) arr)
    (a b : Nat) (hab : a < b) (hb : b < arr.length) :
    arr.getD a 0 < arr.getD b 0 := by
  rw [List.getD_eq_get _ _ (lt_trans hab hb), List.getD_eq_get _ _ hb]
  exact List.pairwise_iff_get.mp hs ⟨a, lt_trans hab hb⟩ ⟨b, hb⟩ hab

/-- A window of defaulted accesses at consecutive in-range indices is
strictly ascending. -/
theorem slice_sorted (arr : List Nat) (hs : List.Pairwise (· < ·) arr)
    (start cnt : Nat) (hcnt : start + cnt ≤ arr.length) :
    List.Pairwise (· < ·)
      ((List.range' start cnt).map (fun i => arr.getD i 0)) := by
  rw [List.pairwise_map]
  refine List.Pairwise.imp_of_mem ?_ (List.pairwise_lt_range' start cnt)
  intro a b ha hb hab
  obtain ⟨j, hj, hbeq⟩ := List.mem_range'.mp hb
  exact getD_strict_mono arr hs a b hab (by omega)

/-- A cache satisfying the invariant is strictly ascending. -/
theorem inv_sorted (s : SieveState) (h : Inv s) :
    List.Pairwise (· < ·) s.cachedPrimes := by
  rw [show s.cachedPrimes = sieve s.sieveLimit from h]
  exact sieve_sorted _

/-- The signed lower-bound loop stays within its bounds. -/
theorem lowerBoundIAux_le (arr : List Nat) (t : Int) (lo hi : Nat) :
    lo ≤ hi → lo ≤ lowerBoundIAux arr t lo hi ∧
      lowerBoundIAux arr t lo hi ≤ hi := by
  induction lo, hi using lowerBoundIAux.induct arr t with
  | case1 lo hi hlt mid hmid ih =>
    intro hlohi
    have hmideq : mid = (lo + hi) / 2 := rfl
    rw [show lowerBoundIAux arr t lo hi =
        lowerBoundIAux arr t (mid + 1) hi by
      rw [lowerBoundIAux, dif_pos hlt, ← hmideq, if_pos hmid]]
    have h := ih (by omega)
    omega
  | case2 lo hi hlt mid hmid ih =>
    intro hlohi
    have hmideq : mid = (lo + hi) / 2 := rfl
    rw [show lowerBoundIAux arr t lo hi =
        lowerBoundIAux arr t lo mid by
      rw [lowerBoundIAux, dif_pos hlt, ← hmideq, if_neg hmid]]
    have h := ih (by omega)
    omega
  | case3 lo hi hlt =>
    intro hlohi
    rw [lowerBoundIAux, dif_neg hlt]
    omega

/-- The signed lower bound is at most the array length. -/
theorem lowerBoundI_le (arr : List Nat) (t : Int) :
    lowerBoundI arr t ≤ arr.length := by
  rw [lowerBoundI]
  exact (lowerBoundIAux_le arr t 0 arr.length (Nat.zero_le _)).2

/-- A successful doubling loop preserves the invariant, covers the index,
and returns the cached prime there. -/
theorem primeAtIndexGo_ok (index : Nat) : ∀ (fuel estimate : Nat)
    (s : SieveState) (p : Nat) (s1 : SieveState), Inv s →
    primeAtIndexGo index fuel estimate s = .ok (p, s1) →
    Inv s1 ∧ index < s1.cachedPrimes.length ∧
      p = s1.cachedPrimes.getD index 0 := by
  intro fuel
  induction fuel with
  | zero =>
    intro estimate s p s1 hInv h
    exact Except.noConfusion h
  | succ f ih =>
    intro estimate s p s1 hInv h
    have h2 : (if s.cachedPrimes.length ≤ index then
        primeAtIndexGo index f (estimate * 2) (ensureSieved (estimate * 2) s)
      else .ok (s.cachedPrimes.getD index 0, s)) = .ok (p, s1) := h
    by_cases hl : s.cachedPrimes.length ≤ index
    · rw [if_pos hl] at h2
      exact ih _ _ _ _ (ensureSieved_inv _ _ hInv) h2
    · rw [if_neg hl] at h2
      injection h2 with h3
      injection h3 with h4 h5
      subst h4
      subst h5
      exact ⟨hInv, by omega, rfl⟩

/-- The doubling loop only fails by exhausting its fuel. -/
theorem primeAtIndexGo_err (index : Nat) : ∀ (fuel estimate : Nat)
    (s : SieveState) (e : String),
    primeAtIndexGo index fuel estimate s = .error e →
    e = "fuel exhausted" := by
  intro fuel
  induction fuel with
  | zero =>
    intro estimate s e h
    injection h with h2
    exact h2.symm
  | succ f ih =>
    intro estimate s e h
    have h2 : (if s.cachedPrimes.length ≤ index then
        primeAtIndexGo index f (estimate * 2) (ensureSieved (estimate * 2) s)
      else .ok (s.cachedPrimes.getD index 0, s)) = .error e := h
    by_cases hl : s.cachedPrimes.length ≤ index
    · rw [if_pos hl] at h2
      exact ih _ _ _ h2
    · rw [if_neg hl] at h2
      exact Except.noConfusion h2

/-- `primeAtIndex` success facts. -/
theorem primeAtIndex_ok (index est fuel : Nat) (s : SieveState) (p : Nat)
    (s1 : SieveState) (hInv : Inv s)
    (h : primeAtIndex index est fuel s = .ok (p, s1)) :
    Inv s1 ∧ index < s1.cachedPrimes.length := by
  have h2 : primeAtIndexGo index fuel (max 100 est)
      (ensureSieved (max 100 est) s) = .ok (p, s1) := h
  have h3 := primeAtIndexGo_ok index fuel _ _ p s1
    (ensureSieved_inv _ _ hInv) h2
  exact ⟨h3.1, h3.2.1⟩

/-- `primeAtIndex` only fails by exhausting its fuel. -/
theorem primeAtIndex_err (index est fuel : Nat) (s : SieveState) (e : String)
    (h : primeAtIndex index est fuel s = .error e) : e = "fuel exhausted" := by
  have h2 : primeAtIndexGo index fuel (max 100 est)
      (ensureSieved (max 100 est) s) = .error e := h
  exact primeAtIndexGo_err index fuel _ _ e h2

/-- A successful `primesAroundIndex` preserves the invariant and returns a
strictly ascending window. -/
theorem primesAroundIndex_ok (index k est fuel : Nat) (s : SieveState)
    (pr : List Nat × List Nat) (s1 : SieveState) (hInv : Inv s)
    (h : primesAroundIndex index k est fuel s = .ok (pr, s1)) :
    Inv s1 ∧ List.Pairwise (· < ·) pr.1 := by
  rw [primesAroundIndex] at h
  cases hpa : primeAtIndex (index + k) est fuel s with
  | error e =>
    rw [hpa] at h
    exact Except.noConfusion h
  | ok v =>
    obtain ⟨p, sx⟩ := v
    rw [hpa] at h
    obtain ⟨hInv1, hlen⟩ := primeAtIndex_ok _ _ _ _ _ _ hInv hpa
    dsimp only at h
    injection h with h3
    injection h3 with h4 h5
    subst h5
    subst h4
    refine ⟨hInv1, ?_⟩
    apply slice_sorted _ (inv_sorted _ hInv1)
    omega

/-- `primesAroundIndex` only fails by exhausting the doubling fuel. -/
theorem primesAroundIndex_err (index k est fuel : Nat) (s : SieveState)
    (e : String) (h : primesAroundIndex index k est fuel s = .error e) :
    e = "fuel exhausted" := by
  rw [primesAroundIndex] at h
  cases hpa : primeAtIndex (index + k) est fuel s with
  | error e2 =>
    rw [hpa] at h
    injection h with h2
    subst h2
    exact primeAtIndex_err _ _ _ _ _ hpa
  | ok v =>
    obtain ⟨p, sx⟩ := v
    rw [hpa] at h
    exact Except.noConfusion h

/-- `primesAroundValue` preserves the invariant and returns a strictly
ascending window. -/
theorem primesAroundValue_ok (center w : Int) (s : SieveState) (hInv : Inv s) :
    Inv (primesAroundValue center w s).2 ∧
      List.Pairwise (· < ·) (primesAroundValue center w s).1.1 := by
  rw [primesAroundValue]
  dsimp only
  refine ⟨ensureSieved_inv _ _ hInv, ?_⟩
  apply slice_sorted _ (inv_sorted _ (ensureSieved_inv _ _ hInv))
  have h1 := lowerBoundI_le (ensureSieved (center + w).toNat s).cachedPrimes
    (if 2 < center - w then center - w else 2)
  have h2 := lowerBoundI_le (ensureSieved (center + w).toNat s).cachedPrimes
    (center + w + 1)
  omega

/-- `nextPrime` preserves the invariant. -/
theorem nextPrime_inv (n : Int) (s : SieveState) (h : Inv s) :
    Inv (nextPrime n s).2 := by
  rw [nextPrime]
  split
  · exact h
  · dsimp only
    split
    · exact ensureSieved_inv _ _ h
    · exact ensureSieved_inv _ _ (ensureSieved_inv _ _ h)

/-- Evaluation of `finishData` when the ratios loop succeeds. -/
theorem finishData_eval (ci cp : Nat) (primes indices : List Nat)
    (s2 : SieveState) (rs : List Rational)
    (hrs : ratiosOf (d2Of (gapsOf (primes.map (Nat.cast : Nat → Int))))
      (primes.map (Nat.cast : Nat → Int)) = .ok rs) :
    finishData ci cp primes indices s2 =
      .ok (⟨ci, cp, primes, indices,
        gapsOf (primes.map (Nat.cast : Nat → Int)),
        d2Of (gapsOf (primes.map (Nat.cast : Nat → Int))), rs⟩, s2) := by
  rw [finishData]
  rw [hrs]

/-- `finishData` on a strictly ascending window: succeeds and the derived
arrays satisfy all the index relations. -/
theorem finishData_spec (ci cp : Nat) (primes indices : List Nat)
    (s2 : SieveState) (hsorted : List.Pairwise (· < ·) primes) :
    ∃ data, finishData ci cp primes indices s2 = .ok (data, s2) ∧
      data.centerIndex = ci ∧ data.centerPrime = cp ∧
      data.primes = primes ∧ data.indices = indices ∧
      data.gaps.length = primes.length - 1 ∧
      data.d2.length = primes.length - 2 ∧
      data.ratios.length = primes.length - 2 ∧
      (∀ i, i + 1 < primes.length →
        data.gaps.getD i 0 =
          (primes.getD (i + 1) 0 : Int) - (primes.getD i 0 : Int)) ∧
      (∀ i, i + 2 < primes.length →
        data.d2.getD i 0 = data.gaps.getD (i + 1) 0 - data.gaps.getD i 0) ∧
      (∀ i, i + 2 < primes.length →
        0 < (data.ratios.getD i ⟨0, 1⟩).den ∧
        Nat.gcd (data.ratios.getD i ⟨0, 1⟩).num.natAbs
          (data.ratios.getD i ⟨0, 1⟩).den.natAbs = 1 ∧
        (data.ratios.getD i ⟨0, 1⟩).num *
            ((primes.getD (i + 2) 0 : Int) - (primes.getD i 0 : Int)) =
          data.d2.getD i 0 * (data.ratios.getD i ⟨0, 1⟩).den ∧
        -(data.ratios.getD i ⟨0, 1⟩).den ≤ (data.ratios.getD i ⟨0, 1⟩).num ∧
        (data.ratios.getD i ⟨0, 1⟩).num ≤ (data.ratios.getD i ⟨0, 1⟩).den) := by
  have hlenI : (primes.map (Nat.cast : Nat → Int)).length = primes.length :=
    List.length_map _ _
  have hglen : (gapsOf (primes.map (Nat.cast : Nat → Int))).length =
      primes.length - 1 := by
    rw [gapsOf_length, hlenI]
  have hdlen : (d2Of (gapsOf (primes.map (Nat.cast : Nat → Int)))).length =
      primes.length - 2 := by
    rw [d2Of_length, hglen]
    omega
  have hpos : ∀ j, 0 ≤ j →
      j < 0 + (d2Of (gapsOf (primes.map (Nat.cast : Nat → Int)))).length →
      0 < (primes.map (Nat.cast : Nat → Int)).getD (j + 2) 0 -
        (primes.map (Nat.cast : Nat → Int)).getD j 0 := by
    intro j _ hj
    rw [getD_map_cast _ _ (by omega), getD_map_cast _ _ (by omega)]
    have hmono := getD_strict_mono primes hsorted j (j + 2) (by omega) (by omega)
    omega
  obtain ⟨rs, hrs, hrslen, hrsrel⟩ :=
    ratiosGo_spec (d2Of (gapsOf (primes.map (Nat.cast : Nat → Int))))
      (primes.map (Nat.cast : Nat → Int))
      (d2Of (gapsOf (primes.map (Nat.cast : Nat → Int)))).length 0 hpos
  have hro : ratiosOf (d2Of (gapsOf (primes.map (Nat.cast : Nat → Int))))
      (primes.map (Nat.cast : Nat → Int)) = .ok rs := hrs
  refine ⟨_, finishData_eval ci cp primes indices s2 rs hro, rfl, rfl, rfl,
    rfl, hglen, hdlen, by rw [hrslen, hdlen], ?_, ?_, ?_⟩
  · intro i hi
    show (gapsOf (primes.map (Nat.cast : Nat → Int))).getD i 0 = _
    rw [gapsOf_getD _ _ (by omega), getD_map_cast _ _ (by omega),
      getD_map_cast _ _ (by omega)]
  · intro i hi
    show (d2Of (gapsOf (primes.map (Nat.cast : Nat → Int)))).getD i 0 = _
    rw [d2Of_getD _ _ (by omega)]
  · intro i hi
    have h := hrsrel i (by omega)
    simp only [Nat.zero_add] at h
    rw [getD_map_cast _ _ (by omega), getD_map_cast _ _ (by omega)] at h
    obtain ⟨hden, hgcd, hcross, hbound⟩ := h
    refine ⟨hden, hgcd, hcross, hbound ?_⟩
    rw [d2Of_getD _ _ (by omega), gapsOf_getD _ _ (by omega),
      gapsOf_getD _ _ (by omega), getD_map_cast _ _ (by omega),
      getD_map_cast _ _ (by omega), getD_map_cast _ _ (by omega)]
    have hm1 := getD_strict_mono primes hsorted i (i + 1) (by omega) (by omega)
    have hm2 := getD_strict_mono primes hsorted (i + 1) (i + 2) (by omega)
      (by omega)
    have hidx2 : i + 1 + 1 = i + 2 := by omega
    rw [hidx2]
    omega

/-- The index relations C4 claims of a computed neighborhood: derived
array lengths, `gaps[i] = primes[i+1] - primes[i]`,
`d2[i] = gaps[i+1] - gaps[i]`, and each ratio a reduced
positive-denominator fraction equal to `d2[i] / (primes[i+2] - primes[i])`
with `-den ≤ num ≤ den`. -/
def WellFormedData (data : NeighborhoodData) : Prop :=
  data.gaps.length = data.primes.length - 1 ∧
  data.d2.length = data.primes.length - 2 ∧
  data.ratios.length = data.primes.length - 2 ∧
  (∀ i, i + 1 < data.primes.length →
    data.gaps.getD i 0 = (data.primes.getD (i + 1) 0 : Int) -
      (data.primes.getD i 0 : Int)) ∧
  (∀ i, i + 2 < data.primes.length →
    data.d2.getD i 0 = data.gaps.getD (i + 1) 0 - data.gaps.getD i 0) ∧
  (∀ i, i + 2 < data.primes.length →
    0 < (data.ratios.getD i ⟨0, 1⟩).den ∧
    Nat.gcd (data.ratios.getD i ⟨0, 1⟩).num.natAbs
      (data.ratios.getD i ⟨0, 1⟩).den.natAbs = 1 ∧
    (data.ratios.getD i ⟨0, 1⟩).num *
        ((data.primes.getD (i + 2) 0 : Int) - (data.primes.getD i 0 : Int)) =
      data.d2.getD i 0 * (data.ratios.getD i ⟨0, 1⟩).den ∧
    -(data.ratios.getD i ⟨0, 1⟩).den ≤ (data.ratios.getD i ⟨0, 1⟩).num ∧
    (data.ratios.getD i ⟨0, 1⟩).num ≤ (data.ratios.getD i ⟨0, 1⟩).den)

/-- A successful `finishData` on a sorted window yields well-formed data
and echoes the center and state. -/
theorem finishData_wf (ci cp : Nat) (primes indices : List Nat)
    (s2 : SieveState) (data : NeighborhoodData) (s2b : SieveState)
    (hsorted : List.Pairwise (· < ·) primes)
    (h : finishData ci cp primes indices s2 = .ok (data, s2b)) :
    data.centerIndex = ci ∧ data.centerPrime = cp ∧ s2b = s2 ∧
      WellFormedData data := by
  obtain ⟨d, hd, hci, hcp, hpfld, hifld, hg, hd2, hr, hrel1, hrel2, hrel3⟩ :=
    finishData_spec ci cp primes indices s2 hsorted
  rw [hd] at h
  injection h with h2
  injection h2 with h3 h4
  subst h3
  subst h4
  rw [← hpfld] at hg hd2 hr hrel1 hrel2 hrel3
  exact ⟨hci, hcp, rfl, hg, hd2, hr, hrel1, hrel2, hrel3⟩

/-- A successful `computeRest` echoes the resolved center, preserves the
invariant, and yields well-formed data. -/
theorem computeRest_ok (ci cp : Nat) (md : NeighborhoodMode) (k : Option Nat)
    (w : Option Int) (estf : Nat → Nat) (fuel : Nat) (s1 : SieveState)
    (data : NeighborhoodData) (s2 : SieveState) (hInv : Inv s1)
    (h : computeRest ci cp md k w estf fuel s1 = .ok (data, s2)) :
    data.centerIndex = ci ∧ data.centerPrime = cp ∧ Inv s2 ∧
      WellFormedData data := by
  cases md with
  | count =>
    have h2 : (match primesAroundIndex ci (k.getD 10)
        (estf (ci + k.getD 10)) fuel s1 with
      | .error e => (.error e : Except String (NeighborhoodData × SieveState))
      | .ok (pr, s2x) => finishData ci cp pr.1 pr.2 s2x) = .ok (data, s2) := h
    cases hpa : primesAroundIndex ci (k.getD 10) (estf (ci + k.getD 10))
        fuel s1 with
    | error e =>
      rw [hpa] at h2
      exact Except.noConfusion h2
    | ok v =>
      obtain ⟨pr, s2x⟩ := v
      rw [hpa] at h2
      obtain ⟨hInv2, hsort⟩ := primesAroundIndex_ok _ _ _ _ _ _ _ hInv hpa
      have h3 : finishData ci cp pr.1 pr.2 s2x = .ok (data, s2) := h2
      obtain ⟨hci, hcp2, hs, hwf⟩ := finishData_wf _ _ _ _ _ _ _ hsort h3
      subst hs
      exact ⟨hci, hcp2, hInv2, hwf⟩
  | span =>
    have h2 : finishData ci cp
        (primesAroundValue ((cp : Nat) : Int) (w.getD 100) s1).1.1
        (primesAroundValue ((cp : Nat) : Int) (w.getD 100) s1).1.2
        (primesAroundValue ((cp : Nat) : Int) (w.getD 100) s1).2 =
        .ok (data, s2) := h
    obtain ⟨hInvV, hsortV⟩ :=
      primesAroundValue_ok ((cp : Nat) : Int) (w.getD 100) s1 hInv
    obtain ⟨hci, hcp2, hs, hwf⟩ := finishData_wf _ _ _ _ _ _ _ hsortV h2
    subst hs
    exact ⟨hci, hcp2, hInvV, hwf⟩

/-- `computeRest` only fails by exhausting the doubling fuel. -/
theorem computeRest_err (ci cp : Nat) (md : NeighborhoodMode) (k : Option Nat)
    (w : Option Int) (estf : Nat → Nat) (fuel : Nat) (s1 : SieveState)
    (e : String) (hInv : Inv s1)
    (h : computeRest ci cp md k w estf fuel s1 = .error e) :
    e = "fuel exhausted" := by
  cases md with
  | count =>
    have h2 : (match primesAroundIndex ci (k.getD 10)
        (estf (ci + k.getD 10)) fuel s1 with
      | .error e2 => (.error e2 : Except String (NeighborhoodData × SieveState))
      | .ok (pr, s2x) => finishData ci cp pr.1 pr.2 s2x) = .error e := h
    cases hpa : primesAroundIndex ci (k.getD 10) (estf (ci + k.getD 10))
        fuel s1 with
    | error e2 =>
      rw [hpa] at h2
      injection h2 with h3
      subst h3
      exact primesAroundIndex_err _ _ _ _ _ _ hpa
    | ok v =>
      obtain ⟨pr, s2x⟩ := v
      rw [hpa] at h2
      obtain ⟨hInv2, hsort⟩ := primesAroundIndex_ok _ _ _ _ _ _ _ hInv hpa
      have h3 : finishData ci cp pr.1 pr.2 s2x = .error e := h2
      obtain ⟨d, hd, hrest⟩ := finishData_spec ci cp pr.1 pr.2 s2x hsort
      rw [hd] at h3
      exact Except.noConfusion h3
  | span =>
    have h2 : finishData ci cp
        (primesAroundValue ((cp : Nat) : Int) (w.getD 100) s1).1.1
        (primesAroundValue ((cp : Nat) : Int) (w.getD 100) s1).1.2
        (primesAroundValue ((cp : Nat) : Int) (w.getD 100) s1).2 =
        .error e := h
    obtain ⟨hInvV, hsortV⟩ :=
      primesAroundValue_ok ((cp : Nat) : Int) (w.getD 100) s1 hInv
    obtain ⟨d, hd, hrest⟩ := finishData_spec _ _ _ _ _ hsortV
    rw [hd] at h2
    exact Except.noConfusion h2

/-- C4.  Every neighborhood successfully produced by `computeNeighborhood`
satisfies the index relations: `gaps[i] = primes[i+1] - primes[i]`,
`d2[i] = gaps[i+1] - gaps[i]`, each ratio is `d2[i]` over
`primes[i+2] - primes[i]` reduced to lowest terms with a positive
denominator and `-den ≤ num ≤ den`, and the derived arrays are shorter
than `primes` by one (gaps) and two (d2, ratios); moreover the
computation never throws: the only failure is the embedding's fuel bound
on the doubling loop, never the division-by-zero error. -/
theorem computeNeighborhood_claim :
    (∀ (n : Int) (nt : NType) (md : NeighborhoodMode) (k : Option Nat)
        (w : Option Int) (estf : Nat → Nat) (fuel : Nat) (s : SieveState)
        (data : NeighborhoodData) (s2 : SieveState), Inv s →
      computeNeighborhood n nt md k w estf fuel s = .ok (data, s2) →
      WellFormedData data) ∧
    (∀ (n : Int) (nt : NType) (md : NeighborhoodMode) (k : Option Nat)
        (w : Option Int) (estf : Nat → Nat) (fuel : Nat) (s : SieveState)
        (e : String), Inv s →
      computeNeighborhood n nt md k w estf fuel s = .error e →
      e = "fuel exhausted") := by
  constructor
  · intro n nt md k w estf fuel s data s2 hInv hok
    cases nt with
    | index =>
      have h2 : (match primeAtIndex n.toNat (estf n.toNat) fuel s with
        | .error e => (.error e : Except String (NeighborhoodData × SieveState))
        | .ok (p, s1) => computeRest n.toNat p md k w estf fuel s1) =
          .ok (data, s2) := hok
      cases hpa : primeAtIndex n.toNat (estf n.toNat) fuel s with
      | error e =>
        rw [hpa] at h2
        exact Except.noConfusion h2
      | ok v =>
        obtain ⟨p, s1⟩ := v
        rw [hpa] at h2
        have hInv1 := (primeAtIndex_ok _ _ _ _ _ _ hInv hpa).1
        have h3 : computeRest n.toNat p md k w estf fuel s1 =
            .ok (data, s2) := h2
        exact (computeRest_ok _ _ _ _ _ _ _ _ _ _ hInv1 h3).2.2.2
    | value =>
      have h2 : computeRest (nextPrime n s).1.2 (nextPrime n s).1.1 md k w
          estf fuel (nextPrime n s).2 = .ok (data, s2) := hok
      exact (computeRest_ok _ _ _ _ _ _ _ _ _ _
        (nextPrime_inv n s hInv) h2).2.2.2
  · intro n nt md k w estf fuel s e hInv herr
    cases nt with
    | index =>
      have h2 : (match primeAtIndex n.toNat (estf n.toNat) fuel s with
        | .error e2 => (.error e2 : Except String (NeighborhoodData × SieveState))
        | .ok (p, s1) => computeRest n.toNat p md k w estf fuel s1) =
          .error e := herr
      cases hpa : primeAtIndex n.toNat (estf n.toNat) fuel s with
      | error e2 =>
        rw [hpa] at h2
        injection h2 with h3
        subst h3
        exact primeAtIndex_err _ _ _ _ _ hpa
      | ok v =>
        obtain ⟨p, s1⟩ := v
        rw [hpa] at h2
        have hInv1 := (primeAtIndex_ok _ _ _ _ _ _ hInv hpa).1
        have h3 : computeRest n.toNat p md k w estf fuel s1 = .error e := h2
        exact computeRest_err _ _ _ _ _ _ _ _ _ hInv1 h3
    | value =>
      have h2 : computeRest (nextPrime n s).1.2 (nextPrime n s).1.1 md k w
          estf fuel (nextPrime n s).2 = .error e := herr
      exact computeRest_err _ _ _ _ _ _ _ _ _ (nextPrime_inv n s hInv) h2

/-- Concrete evaluation of `computeNeighborhood` on an empty window:
`n = 1` resolves by `nextPrime` without sieving, and the negative span
width selects no primes, so every derived array is empty. -/
theorem computeNeighborhood_empty_eval :
    computeNeighborhood 1 .value .span none (some (-10)) (fun _ => 0) 0
      initState = .ok (⟨0, 2, [], [], [], [], []⟩, initState) := by
  have hlb0 : ∀ t : Int, lowerBoundI ([] : List Nat) t = 0 := by
    intro t
    rw [lowerBoundI]
    rw [lowerBoundIAux, dif_neg (by decide)]
  have hpv : primesAroundValue (((2 : Nat)) : Int) (-10) initState =
      (([], []), initState) := by
    show (((List.range' (lowerBoundI ([] : List Nat) 12)
        (lowerBoundI ([] : List Nat) (2 + (-10) + 1) -
          lowerBoundI ([] : List Nat) 12)).map
          (fun i => ([] : List Nat).getD i 0),
        List.range' (lowerBoundI ([] : List Nat) 12)
          (lowerBoundI ([] : List Nat) (2 + (-10) + 1) -
            lowerBoundI ([] : List Nat) 12)),
      initState) = (([], []), initState)
    rw [hlb0, hlb0]
    rfl
  have hcr : computeRest 0 2 .span none (some (-10)) (fun _ => 0) 0 initState
      = .ok (⟨0, 2, [], [], [], [], []⟩, initState) := by
    have h1 : computeRest 0 2 .span none (some (-10)) (fun _ => 0) 0 initState
        = finishData 0 2
          (primesAroundValue (((2 : Nat)) : Int) (-10) initState).1.1
          (primesAroundValue (((2 : Nat)) : Int) (-10) initState).1.2
          (primesAroundValue (((2 : Nat)) : Int) (-10) initState).2 := rfl
    rw [h1, hpv]
    rfl
  show computeRest 0 2 .span none (some (-10)) (fun _ => 0) 0 initState = _
  exact hcr

/-- Closed instance of `computeNeighborhood_claim` on the empty window. -/
theorem computeNeighborhood_claim_witness :
    WellFormedData ⟨0, 2, [], [], [], [], []⟩ :=
  computeNeighborhood_claim.1 1 .value .span none (some (-10)) (fun _ => 0) 0
    initState ⟨0, 2, [], [], [], [], []⟩ initState rfl
    computeNeighborhood_empty_eval

/-- C7.  `nextPrime` returns the smallest prime at or above `n` within the
engine's capability (never a smaller prime even if closer), returns the
prime at index 0 (that is, 2) for `n < 2`, satisfies
`nextPrime(20) = 23` and `nextPrime(13) = 13`, and `computeNeighborhood`
in `value` mode resolves its center prime and index through `nextPrime`. -/
theorem nextPrime_claim :
    (∀ (n : Int) (s : SieveState), Inv s → 2 ≤ n →
      n.toNat + 11000 ≤ 10000000 →
      (∃ q0, Nat.Prime q0 ∧ n.toNat ≤ q0 ∧ q0 ≤ n.toNat + 1000) →
      Nat.Prime ((nextPrime n s).1.1) ∧ n.toNat ≤ (nextPrime n s).1.1 ∧
        ∀ q, Nat.Prime q → n.toNat ≤ q → (nextPrime n s).1.1 ≤ q) ∧
    (∀ (n : Int) (s : SieveState), n < 2 → nextPrime n s = ((2, 0), s)) ∧
    (nextPrime 20 initState).1.1 = 23 ∧
    (nextPrime 13 initState).1.1 = 13 ∧
    (∀ (n : Int) (md : NeighborhoodMode) (k : Option Nat) (w : Option Int)
        (estf : Nat → Nat) (fuel : Nat) (s : SieveState)
        (data : NeighborhoodData) (s2 : SieveState), Inv s →
      computeNeighborhood n .value md k w estf fuel s = .ok (data, s2) →
      data.centerPrime = (nextPrime n s).1.1 ∧
        data.centerIndex = (nextPrime n s).1.2) := by
  refine ⟨?_, ?_, ?_, ?_, ?_⟩
  · intro n s hInv h2 hcap hex
    obtain ⟨q0, hq0, hlo, hhi⟩ := hex
    exact nextPrime_spec n s hInv h2 hcap q0 hq0 hlo hhi
  · intro n s hn
    rw [nextPrime, if_pos hn]
  · obtain ⟨hp, hge, hle⟩ := nextPrime_spec 20 initState rfl (by decide)
      (by decide) 23 (by norm_num) (by decide) (by decide)
    have h20 : ((20 : Int)).toNat = 20 := rfl
    rw [h20] at hge
    have hle23 := hle 23 (by norm_num) (by decide)
    have h2024 : ∀ x, x < 24 → Nat.Prime x → 20 ≤ x → x = 23 := by decide
    exact h2024 _ (by omega) hp (by omega)
  · obtain ⟨hp, hge, hle⟩ := nextPrime_spec 13 initState rfl (by decide)
      (by decide) 13 (by norm_num) (by decide) (by decide)
    have h13 : ((13 : Int)).toNat = 13 := rfl
    rw [h13] at hge
    have hle13 := hle 13 (by norm_num) (by decide)
    omega
  · intro n md k w estf fuel s data s2 hInv hok
    have h2 : computeRest (nextPrime n s).1.2 (nextPrime n s).1.1 md k w
        estf fuel (nextPrime n s).2 = .ok (data, s2) := hok
    obtain ⟨hci, hcp, _, _⟩ := computeRest_ok _ _ _ _ _ _ _ _ _ _
      (nextPrime_inv n s hInv) h2
    exact ⟨hcp, hci⟩

/-- Closed instance of the general part of `nextPrime_claim` at 13. -/
theorem nextPrime_claim_witness :
    Nat.Prime ((nextPrime 13 initState).1.1) :=
  (nextPrime_claim.1 13 initState rfl (by decide) (by decide)
    ⟨13, by norm_num, by decide, by decide⟩).1

/-- Lexicographic (non-strict) comparison of JS strings as UTF-16
code-unit sequences: the default `Array.prototype.sort` string order. -/
def seqLe : List Nat → List Nat → Bool
  | [], _ => true
  | _ :: _, [] => false
  | a :: as, b :: bs =>
    if a < b then true
    else if b < a then false
    else seqLe as bs

/-- Strict lexicographic comparison of byte sequences. -/
def seqLt : List Nat → List Nat → Bool
  | [], [] => false
  | [], _ :: _ => true
  | _ :: _, [] => false
  | a :: as, b :: bs =>
    if a < b then true
    else if b < a then false
    else seqLt as bs

/-- Lower-case hexadecimal digit, as `JSON.stringify` emits in escapes. -/
def hexDigit (n : Nat) : Nat := if n < 10 then 48 + n else 87 + n

/-- A `\uXXXX` escape. -/
def uEscape (c : Nat) : List Nat :=
  [92, 117, hexDigit (c / 4096 % 16), hexDigit (c / 256 % 16),
    hexDigit (c / 16 % 16), hexDigit (c % 16)]

/-- `JSON.stringify` escaping of one BMP code unit. -/
def escapeUnit (c : Nat) : List Nat :=
  if c = 34 then [92, 34]
  else if c = 92 then [92, 92]
  else if c = 8 then [92, 98]
  else if c = 9 then [92, 116]
  else if c = 10 then [92, 110]
  else if c = 12 then [92, 102]
  else if c = 13 then [92, 114]
  else if c < 32 then [92, 117, 48, 48, hexDigit (c / 16), hexDigit (c % 16)]
  else [c]

/-- `JSON.stringify` string-body escaping over UTF-16 code units:
well-formed output escapes lone surrogates, keeps surrogate pairs. -/
def escapeUnits : List Nat → List Nat
  | [] => []
  | [c] =>
    if 55296 ≤ c ∧ c ≤ 57343 then uEscape c else escapeUnit c
  | c :: c2 :: rest =>
    if 55296 ≤ c ∧ c ≤ 56319 then
      if 56320 ≤ c2 ∧ c2 ≤ 57343 then c :: c2 :: escapeUnits rest
      else uEscape c ++ escapeUnits (c2 :: rest)
    else if 56320 ≤ c ∧ c ≤ 57343 then uEscape c ++ escapeUnits (c2 :: rest)
    else escapeUnit c ++ escapeUnits (c2 :: rest)

/-- `JSON.stringify` of a string: quoted escaped body. -/
def quoteStr (s : List Nat) : List Nat := 34 :: escapeUnits s ++ [34]

/-- Decimal digits of a positive natural, most significant first; the
first argument is fuel (any value above the digit count works). -/
def natDecimalGo : Nat → Nat → List Nat
  | 0, _ => []
  | _ + 1, 0 => []
  | f + 1, n + 1 => natDecimalGo f ((n + 1) / 10) ++ [48 + (n + 1) % 10]

/-- `toString` of a natural number: base-10, no leading zeros. -/
def natDecimal (n : Nat) : List Nat :=
  if n = 0 then [48] else natDecimalGo (n + 1) n

/-- `toString` of a bigint: sign only if negative. -/
def intDecimal (v : Int) : List Nat :=
  if v < 0 then 45 :: natDecimal (-v).toNat else natDecimal v.toNat

/-- The numeric value a digit list denotes in base 10. -/
def digitsVal (ds : List Nat) : Nat :=
  ds.foldl (fun acc d => acc * 10 + (d - 48)) 0

/-- `Array.prototype.join(',')`. -/
def joinComma : List (List Nat) → List Nat
  | [] => []
  | [x] => x
  | x :: y :: rest => x ++ 44 :: joinComma (y :: rest)

/-- The values `canonicalStringify` serializes: JS strings are UTF-16
code-unit lists; `jnum` is a finite number (the integral case), `jnaninf`
a non-finite number; `jundef` the absent marker. -/
inductive JVal where
  | jnull
  | jundef
  | jbool (b : Bool)
  | jnum (v : Int)
  | jnaninf
  | jbig (v : Int)
  | jstr (s : List Nat)
  | jarr (xs : List JVal)
  | jobj (fields : List (List Nat × JVal))

/-- True for every value except the absent marker `undefined`. -/
def isDefined : JVal → Bool
  | .jundef => false
  | _ => true

/-- Key order used by `Object.keys(obj).sort()`: UTF-16 code-unit order
on the key component of a rendered entry `(key, kept?, rendering)`. -/
def entryLe (a b : List Nat × Bool × List Nat) : Prop := seqLe a.1 b.1 = true

instance : DecidableRel entryLe := fun a b => by
  unfold entryLe
  infer_instance

mutual

/-- Source `canonicalStringify` (part_009): null/undefined to `null`,
booleans/numbers literally, non-finite numbers throw, bigints and strings
quoted, arrays in order, objects with keys sorted by the default JS sort
and undefined-valued keys omitted.  Values are rendered before sorting;
rendering is pure, so this commutes with the source's sort-then-render. -/
def canonicalStringify : JVal → Except String (List Nat)
  | .jnull => .ok [110, 117, 108, 108]
  | .jundef => .ok [110, 117, 108, 108]
  | .jbool true => .ok [116, 114, 117, 101]
  | .jbool false => .ok [102, 97, 108, 115, 101]
  | .jnum v => .ok (intDecimal v)
  | .jnaninf => .error "canonicalStringify: non-finite numbers not allowed"
  | .jbig v => .ok (quoteStr (intDecimal v))
  | .jstr s => .ok (quoteStr s)
  | .jarr xs =>
    match stringifyList xs with
    | .error e => .error e
    | .ok parts => .ok (91 :: joinComma parts ++ [93])
  | .jobj fields =>
    match stringifyPairs fields with
    | .error e => .error e
    | .ok entries =>
      .ok (123 :: joinComma
        (((List.insertionSort entryLe entries).filter
          (fun e => e.2.1)).map
          (fun e => quoteStr e.1 ++ 58 :: e.2.2)) ++ [125])

/-- `array.map(canonicalStringify)` with leftmost error. -/
def stringifyList : List JVal → Except String (List (List Nat))
  | [] => .ok []
  | x :: xs =>
    match canonicalStringify x, stringifyList xs with
    | .error e, _ => .error e
    | .ok _, .error e => .error e
    | .ok s, .ok rest => .ok (s :: rest)

/-- Renders each field to `(key, kept?, rendering)`, where `kept?` is
false exactly for undefined values (the source omits those keys). -/
def stringifyPairs :
    List (List Nat × JVal) → Except String (List (List Nat × Bool × List Nat))
  | [] => .ok []
  | (k, v) :: ps =>
    match canonicalStringify v, stringifyPairs ps with
    | .error e, _ => .error e
    | .ok _, .error e => .error e
    | .ok s, .ok rest => .ok ((k, isDefined v, s) :: rest)

end

/-- UTF-8 bytes of one code point (lone surrogates as 3-byte WTF-8). -/
def utf8Char (c : Nat) : List Nat :=
  if c < 128 then [c]
  else if c < 2048 then [192 + c / 64, 128 + c % 64]
  else if c < 65536 then
    [224 + c / 4096, 128 + c / 64 % 64, 128 + c % 64]
  else
    [240 + c / 262144, 128 + c / 4096 % 64, 128 + c / 64 % 64, 128 + c % 64]

/-- UTF-8 bytes of a UTF-16 code-unit sequence (pairs combined). -/
def utf8Encode : List Nat → List Nat
  | [] => []
  | [c] => utf8Char c
  | c :: c2 :: rest =>
    if 55296 ≤ c ∧ c ≤ 56319 ∧ 56320 ≤ c2 ∧ c2 ≤ 57343 then
      utf8Char (65536 + (c - 55296) * 1024 + (c2 - 56320)) ++ utf8Encode rest
    else utf8Char c ++ utf8Encode (c2 :: rest)

/-- C5 counterexample.  On the object with keys U+10000 (UTF-16 units
55296, 56320) and U+E000 (unit 57344) and a one-space string value,
`canonicalStringify` emits the U+10000 key first — although its UTF-8
bytes are larger, so the keys are NOT in byte-value-ascending order
(`sort()` compares UTF-16 code units) — and the output contains the
whitespace unit 32 inside the string literal. -/
theorem canonicalStringify_cex :
    canonicalStringify (.jobj [([55296, 56320], .jstr [32]),
        ([57344], .jnull)]) =
      .ok [123, 34, 55296, 56320, 34, 58, 34, 32, 34, 44, 34, 57344, 34, 58,
        110, 117, 108, 108, 125] ∧
    seqLt (utf8Encode [57344]) (utf8Encode [55296, 56320]) = true ∧
    32 ∈ [123, 34, 55296, 56320, 34, 58, 34, 32, 34, 44, 34, 57344, 34, 58,
        110, 117, 108, 108, 125] := by
  refine ⟨?_, by decide, by decide⟩
  simp [canonicalStringify, stringifyPairs, List.insertionSort,
    List.orderedInsert, entryLe, seqLe, quoteStr, escapeUnits, escapeUnit,
    joinComma, isDefined]

/-- The UTF-16 sort order is total. -/
theorem seqLe_total : ∀ a b : List Nat, seqLe a b = true ∨ seqLe b a = true := by
  intro a
  induction a with
  | nil => intro b; left; rfl
  | cons x as ih =>
    intro b
    cases b with
    | nil => right; rfl
    | cons y bs =>
      by_cases hxy : x < y
      · left
        rw [seqLe, if_pos hxy]
      · by_cases hyx : y < x
        · right
          rw [seqLe, if_pos hyx]
        · have hxey : x = y := by omega
          subst hxey
          rcases ih bs with h | h
          · left
            rw [seqLe, if_neg hxy, if_neg hxy]
            exact h
          · right
            rw [seqLe, if_neg hxy, if_neg hxy]
            exact h

/-- The UTF-16 sort order is transitive. -/
theorem seqLe_trans : ∀ a b c : List Nat, seqLe a b = true →
    seqLe b c = true → seqLe a c = true := by
  intro a
  induction a with
  | nil => intro b c h1 h2; rfl
  | cons x as ih =>
    intro b c h1 h2
    cases b with
    | nil => exact absurd h1 (by rw [seqLe]; simp)
    | cons y bs =>
      cases c with
      | nil => exact absurd h2 (by rw [seqLe]; simp)
      | cons z cs =>
        rw [seqLe] at h1 h2 ⊢
        by_cases hxy : x < y
        · by_cases hyz : y < z
          · rw [if_pos (by omega : x < z)]
          · rw [if_neg hyz] at h2
            by_cases hzy : z < y
            · rw [if_pos hzy] at h2
              cases h2
            · rw [if_pos (by omega : x < z)]
        · rw [if_neg hxy] at h1
          by_cases hyx : y < x
          · rw [if_pos hyx] at h1
            cases h1
          · rw [if_neg hyx] at h1
            have hxey : x = y := by omega
            subst hxey
            by_cases hyz : x < z
            · rw [if_pos hyz]
            · rw [if_neg hyz] at h2 ⊢
              by_cases hzy : z < x
              · rw [if_pos hzy] at h2
                cases h2
              · rw [if_neg hzy] at h2 ⊢
                exact ih bs cs h1 h2

instance : IsTotal (List Nat × Bool × List Nat) entryLe :=
  ⟨fun a b => seqLe_total a.1 b.1⟩

instance : IsTrans (List Nat × Bool × List Nat) entryLe :=
  ⟨fun a b c => seqLe_trans a.1 b.1 c.1⟩

/-- Appending one digit multiplies the denoted value by ten. -/
theorem digitsVal_append (xs : List Nat) (d : Nat) :
    digitsVal (xs ++ [d]) = digitsVal xs * 10 + (d - 48) := by
  rw [digitsVal, digitsVal, List.foldl_append]
  rfl

/-- Head of an append with a non-empty prefix. -/
theorem getD_append_head (xs ys : List Nat) (h : xs ≠ []) :
    (xs ++ ys).getD 0 0 = xs.getD 0 0 := by
  cases xs with
  | nil => exact absurd rfl h
  | cons a as => rfl

/-- The digit loop on zero yields nothing. -/
theorem natDecimalGo_zero (f : Nat) : natDecimalGo f 0 = [] := by
  cases f <;> rfl

/-- The digit loop, given enough fuel, renders a positive natural in
base 10 with no leading zero. -/
theorem natDecimalGo_spec : ∀ f n, 0 < n → n < 10 ^ f →
    digitsVal (natDecimalGo f n) = n ∧ natDecimalGo f n ≠ [] ∧
      (natDecimalGo f n).getD 0 0 ≠ 48 ∧
      ∀ d ∈ natDecimalGo f n, 48 ≤ d ∧ d ≤ 57 := by
  intro f
  induction f with
  | zero =>
    intro n h0 hlt
    exact absurd h0 (by omega)
  | succ f ih =>
    intro n h0 hlt
    obtain ⟨m, rfl⟩ : ∃ m, n = m + 1 := ⟨n - 1, by omega⟩
    rw [natDecimalGo]
    by_cases hq : (m + 1) / 10 = 0
    · rw [hq, natDecimalGo_zero]
      have hm10 : (m + 1) % 10 = m + 1 := by omega
      refine ⟨?_, by simp, ?_, ?_⟩
      · rw [digitsVal_append]
        rw [show digitsVal [] = 0 from rfl]
        omega
      · show 48 + (m + 1) % 10 ≠ 48
        omega
      · intro d hd
        simp at hd
        omega
    · have hp := pow_succ 10 f
      have hqlt : (m + 1) / 10 < 10 ^ f := by omega
      obtain ⟨ihv, ihne, ihhd, ihdig⟩ := ih ((m + 1) / 10) (by omega) hqlt
      refine ⟨?_, by simp, ?_, ?_⟩
      · rw [digitsVal_append, ihv]
        omega
      · rw [getD_append_head _ _ ihne]
        exact ihhd
      · intro d hd
        rcases List.mem_append.mp hd with hd | hd
        · exact ihdig d hd
        · simp at hd
          omega

/-- `natDecimal` renders base 10 with no leading zero, digits only. -/
theorem natDecimal_spec (n : Nat) :
    digitsVal (natDecimal n) = n ∧
      (n ≠ 0 → (natDecimal n).getD 0 0 ≠ 48) ∧
      (∀ d ∈ natDecimal n, 48 ≤ d ∧ d ≤ 57) ∧ natDecimal n ≠ [] := by
  by_cases h : n = 0
  · subst h
    refine ⟨by decide, fun hc => absurd rfl hc, ?_, by decide⟩
    intro d hd
    simp [natDecimal] at hd
    omega
  · rw [natDecimal, if_neg h]
    have hlt : n < 10 ^ (n + 1) :=
      lt_of_lt_of_le (Nat.lt_pow_self (by omega) n)
        (Nat.pow_le_pow_right (by omega) (by omega))
    obtain ⟨hv, hne, hhd, hdig⟩ := natDecimalGo_spec (n + 1) n (by omega) hlt
    exact ⟨hv, fun _ => hhd, hdig, hne⟩

/-- Hex digits are at least `'0'`. -/
theorem hexDigit_ge (n : Nat) : 48 ≤ hexDigit n := by
  rw [hexDigit]
  split <;> omega

/-- A single escaped unit contains no raw whitespace when the unit is not
a space. -/
theorem escapeUnit_chars (c : Nat) (hc : c ≠ 32) (d : Nat)
    (hd : d ∈ escapeUnit c) : ¬(d = 32 ∨ d = 9 ∨ d = 10 ∨ d = 13) := by
  have h1 := hexDigit_ge (c / 16)
  have h2 := hexDigit_ge (c % 16)
  unfold escapeUnit at hd
  repeat' split at hd
  all_goals simp_all
  all_goals omega

/-- A `\uXXXX` escape contains no whitespace. -/
theorem uEscape_chars (c d : Nat) (hd : d ∈ uEscape c) :
    ¬(d = 32 ∨ d = 9 ∨ d = 10 ∨ d = 13) := by
  have h1 := hexDigit_ge (c / 4096 % 16)
  have h2 := hexDigit_ge (c / 256 % 16)
  have h3 := hexDigit_ge (c / 16 % 16)
  have h4 := hexDigit_ge (c % 16)
  rw [uEscape] at hd
  simp at hd
  omega

/-- The escaped body of a space-free string contains no whitespace. -/
theorem escapeUnits_chars : ∀ s : List Nat, (∀ c ∈ s, c ≠ 32) →
    ∀ d ∈ escapeUnits s, ¬(d = 32 ∨ d = 9 ∨ d = 10 ∨ d = 13) := by
  intro s
  induction s using escapeUnits.induct with
  | case1 =>
    intro hs d hd
    cases hd
  | case2 c hsur =>
    intro hs d hd
    rw [escapeUnits, if_pos hsur] at hd
    exact uEscape_chars c d hd
  | case3 c hsur =>
    intro hs d hd
    rw [escapeUnits, if_neg hsur] at hd
    exact escapeUnit_chars c (hs c (by simp)) d hd
  | case4 c c2 rest hc hc2 ih =>
    intro hs d hd
    rw [escapeUnits, if_pos hc, if_pos hc2] at hd
    rcases List.mem_cons.mp hd with hde | hd2
    · omega
    · rcases List.mem_cons.mp hd2 with hde | hd3
      · omega
      · exact ih (fun x hx => hs x (by simp [hx])) d hd3
  | case5 c c2 rest hc hc2 ih =>
    intro hs d hd
    rw [escapeUnits, if_pos hc, if_neg hc2] at hd
    rcases List.mem_append.mp hd with hd2 | hd2
    · exact uEscape_chars c d hd2
    · exact ih (fun x hx => hs x (by simp [List.mem_cons.mp hx])) d hd2
  | case6 c c2 rest hc hctr ih =>
    intro hs d hd
    rw [escapeUnits, if_neg hc, if_pos hctr] at hd
    rcases List.mem_append.mp hd with hd2 | hd2
    · exact uEscape_chars c d hd2
    · exact ih (fun x hx => hs x (by simp [List.mem_cons.mp hx])) d hd2
  | case7 c c2 rest hc hctr ih =>
    intro hs d hd
    rw [escapeUnits, if_neg hc, if_neg hctr] at hd
    rcases List.mem_append.mp hd with hd2 | hd2
    · exact escapeUnit_chars c (hs c (by simp)) d hd2
    · exact ih (fun x hx => hs x (by simp [List.mem_cons.mp hx])) d hd2

/-- A quoted space-free string contains no whitespace. -/
theorem quoteStr_chars (s : List Nat) (hs : ∀ c ∈ s, c ≠ 32) (d : Nat)
    (hd : d ∈ quoteStr s) : ¬(d = 32 ∨ d = 9 ∨ d = 10 ∨ d = 13) := by
  rw [quoteStr] at hd
  rcases List.mem_cons.mp hd with hde | hd2
  · omega
  · rcases List.mem_append.mp hd2 with hd3 | hd3
    · exact escapeUnits_chars s hs d hd3
    · simp at hd3
      omega

/-- Decimal renderings contain only the sign and digits. -/
theorem intDecimal_chars (v : Int) (d : Nat) (hd : d ∈ intDecimal v) :
    d = 45 ∨ (48 ≤ d ∧ d ≤ 57) := by
  rw [intDecimal] at hd
  split at hd
  · rcases List.mem_cons.mp hd with hde | hd2
    · left; exact hde
    · right; exact (natDecimal_spec _).2.2.1 d hd2
  · right; exact (natDecimal_spec _).2.2.1 d hd

/-- Members of a comma join are commas or part characters. -/
theorem joinComma_mem : ∀ (parts : List (List Nat)) (c : Nat),
    c ∈ joinComma parts → c = 44 ∨ ∃ p ∈ parts, c ∈ p := by
  intro parts
  induction parts with
  | nil =>
    intro c hc
    cases hc
  | cons x rest ih =>
    intro c hc
    cases rest with
    | nil =>
      right
      exact ⟨x, by simp, hc⟩
    | cons y rest2 =>
      rw [joinComma] at hc
      rcases List.mem_append.mp hc with hc | hc
      · right
        exact ⟨x, by simp, hc⟩
      · rcases List.mem_cons.mp hc with hc | hc
        · left
          exact hc
        · rcases ih c hc with hc2 | ⟨p, hp, hcp⟩
          · left
            exact hc2
          · right
            exact ⟨p, List.mem_cons_of_mem _ hp, hcp⟩

/-- `stringifyPairs` renders each field in order, flagging undefined. -/
theorem stringifyPairs_spec : ∀ (fields : List (List Nat × JVal))
    (entries : List (List Nat × Bool × List Nat)),
    stringifyPairs fields = .ok entries →
    entries.length = fields.length ∧
    ∀ i, i < fields.length →
      (entries.getD i ([], false, [])).1 = (fields.getD i ([], .jnull)).1 ∧
      (entries.getD i ([], false, [])).2.1 =
        isDefined (fields.getD i ([], .jnull)).2 ∧
      canonicalStringify (fields.getD i ([], .jnull)).2 =
        .ok (entries.getD i ([], false, [])).2.2 := by
  intro fields
  induction fields with
  | nil =>
    intro entries h
    injection h with h2
    subst h2
    exact ⟨rfl, fun i hi => by simp at hi⟩
  | cons p ps ih =>
    intro entries h
    obtain ⟨k, v⟩ := p
    rw [stringifyPairs] at h
    cases hcv : canonicalStringify v with
    | error e =>
      rw [hcv] at h
      exact Except.noConfusion h
    | ok s =>
      cases hsp : stringifyPairs ps with
      | error e =>
        rw [hcv, hsp] at h
        exact Except.noConfusion h
      | ok rest =>
        rw [hcv, hsp] at h
        have h2 : (Except.ok ((k, isDefined v, s) :: rest) :
            Except String (List (List Nat × Bool × List Nat))) =
            .ok entries := h
        injection h2 with h3
        subst h3
        obtain ⟨ihlen, ihrel⟩ := ih rest hsp
        refine ⟨by simp [ihlen], ?_⟩
        intro i hi
        cases i with
        | zero => exact ⟨rfl, rfl, hcv⟩
        | succ j =>
          refine ihrel j ?_
          simp at hi
          omega

/-- `stringifyList` renders each element in order. -/
theorem stringifyList_spec : ∀ (xs : List JVal) (parts : List (List Nat)),
    stringifyList xs = .ok parts →
    parts.length = xs.length ∧
    ∀ i, i < xs.length →
      canonicalStringify (xs.getD i .jnull) = .ok (parts.getD i []) := by
  intro xs
  induction xs with
  | nil =>
    intro parts h
    injection h with h2
    subst h2
    exact ⟨rfl, fun i hi => by simp at hi⟩
  | cons x xs2 ih =>
    intro parts h
    rw [stringifyList] at h
    cases hcv : canonicalStringify x with
    | error e =>
      rw [hcv] at h
      exact Except.noConfusion h
    | ok s =>
      cases hsl : stringifyList xs2 with
      | error e =>
        rw [hcv, hsl] at h
        exact Except.noConfusion h
      | ok rest =>
        rw [hcv, hsl] at h
        have h2 : (Except.ok (s :: rest) :
            Except String (List (List Nat))) = .ok parts := h
        injection h2 with h3
        subst h3
        obtain ⟨ihlen, ihrel⟩ := ih rest hsl
        refine ⟨by simp [ihlen], ?_⟩
        intro i hi
        cases i with
        | zero => exact hcv
        | succ j =>
          refine ihrel j ?_
          simp at hi
          omega

mutual

/-- No string scalar (or object key) below this value contains a space
(unit 32); the only whitespace `JSON.stringify` leaves unescaped. -/
def noSpaceVal : JVal → Bool
  | .jstr s => s.all (fun c => c != 32)
  | .jarr xs => noSpaceList xs
  | .jobj fields => noSpacePairs fields
  | _ => true

/-- `noSpaceVal` over an array's elements. -/
def noSpaceList : List JVal → Bool
  | [] => true
  | x :: xs => noSpaceVal x && noSpaceList xs

/-- `noSpaceVal` over an object's keys and values. -/
def noSpacePairs : List (List Nat × JVal) → Bool
  | [] => true
  | (k, v) :: ps => k.all (fun c => c != 32) && noSpaceVal v && noSpacePairs ps

end

/-- Every value's size is positive. -/
theorem jval_sizeOf_pos (v : JVal) : 0 < sizeOf v := by
  cases v <;> simp

/-- The output of `canonicalStringify` contains no whitespace at all when
no string scalar or key contains a space; structural whitespace is never
emitted and all other whitespace is escaped.  Stated simultaneously for
values, arrays and field lists, by induction on size. -/
theorem noSpace_out : ∀ N : Nat,
    (∀ v : JVal, sizeOf v ≤ N → noSpaceVal v = true →
      ∀ out, canonicalStringify v = .ok out →
      ∀ c ∈ out, ¬(c = 32 ∨ c = 9 ∨ c = 10 ∨ c = 13)) ∧
    (∀ xs : List JVal, sizeOf xs ≤ N → noSpaceList xs = true →
      ∀ parts, stringifyList xs = .ok parts →
      ∀ p ∈ parts, ∀ c ∈ p, ¬(c = 32 ∨ c = 9 ∨ c = 10 ∨ c = 13)) ∧
    (∀ ps : List (List Nat × JVal), sizeOf ps ≤ N → noSpacePairs ps = true →
      ∀ entries, stringifyPairs ps = .ok entries →
      ∀ e ∈ entries, (∀ c ∈ e.1, c ≠ 32) ∧
        ∀ c ∈ e.2.2, ¬(c = 32 ∨ c = 9 ∨ c = 10 ∨ c = 13)) := by
  intro N
  induction N with
  | zero =>
    refine ⟨fun v hv => absurd hv (by have := jval_sizeOf_pos v; omega),
      fun xs hxs => ?_, fun ps hps => ?_⟩
    · exact absurd hxs (by cases xs <;> simp)
    · exact absurd hps (by cases ps <;> simp)
  | succ N ih =>
    obtain ⟨ihv, ihl, ihp⟩ := ih
    refine ⟨?_, ?_, ?_⟩
    · intro v hv hns out hout c hc
      cases v with
      | jnull =>
        rw [canonicalStringify] at hout
        injection hout with h2
        subst h2
        simp at hc
        omega
      | jundef =>
        rw [canonicalStringify] at hout
        injection hout with h2
        subst h2
        simp at hc
        omega
      | jbool b =>
        cases b <;>
          (rw [canonicalStringify] at hout
           injection hout with h2
           subst h2
           simp at hc
           omega)
      | jnum v2 =>
        rw [canonicalStringify] at hout
        injection hout with h2
        subst h2
        have := intDecimal_chars v2 c hc
        omega
      | jnaninf =>
        rw [canonicalStringify] at hout
        exact Except.noConfusion hout
      | jbig v2 =>
        rw [canonicalStringify] at hout
        injection hout with h2
        subst h2
        refine quoteStr_chars _ ?_ c hc
        intro d hd
        have := intDecimal_chars v2 d hd
        omega
      | jstr s =>
        rw [canonicalStringify] at hout
        injection hout with h2
        subst h2
        refine quoteStr_chars _ ?_ c hc
        intro d hd
        rw [noSpaceVal, List.all_eq_true] at hns
        have := hns d hd
        simpa using this
      | jarr xs =>
        rw [canonicalStringify] at hout
        cases hsl : stringifyList xs with
        | error e =>
          rw [hsl] at hout
          exact Except.noConfusion hout
        | ok parts =>
          rw [hsl] at hout
          have h2 : (Except.ok (91 :: joinComma parts ++ [93]) :
              Except String (List Nat)) = .ok out := hout
          injection h2 with h3
          subst h3
          rcases List.mem_cons.mp hc with hce | hc2
          · omega
          · rcases List.mem_append.mp hc2 with hc3 | hc3
            · rcases joinComma_mem parts c hc3 with hce | ⟨p, hp, hcp⟩
              · omega
              · have hxs : sizeOf xs ≤ N := by
                  have hsz : sizeOf (JVal.jarr xs) = 1 + sizeOf xs := by simp
                  omega
                rw [noSpaceVal] at hns
                exact ihl xs hxs hns parts hsl p hp c hcp
            · simp at hc3
              omega
      | jobj fields =>
        rw [canonicalStringify] at hout
        cases hsp : stringifyPairs fields with
        | error e =>
          rw [hsp] at hout
          exact Except.noConfusion hout
        | ok entries =>
          rw [hsp] at hout
          have h2 : (Except.ok (123 :: joinComma
              (((List.insertionSort entryLe entries).filter
                (fun e => e.2.1)).map
                (fun e => quoteStr e.1 ++ 58 :: e.2.2)) ++ [125]) :
              Except String (List Nat)) = .ok out := hout
          injection h2 with h3
          subst h3
          rcases List.mem_cons.mp hc with hce | hc2
          · omega
          · rcases List.mem_append.mp hc2 with hc3 | hc3
            · rcases joinComma_mem _ c hc3 with hce | ⟨p, hp, hcp⟩
              · omega
              · obtain ⟨e, he, hpe⟩ := List.mem_map.mp hp
                have he2 : e ∈ entries :=
                  (List.perm_insertionSort entryLe entries).mem_iff.mp
                    (List.mem_of_mem_filter he)
                have hflds : sizeOf fields ≤ N := by
                  have hsz : sizeOf (JVal.jobj fields) = 1 + sizeOf fields := by
                    simp
                  omega
                rw [noSpaceVal] at hns
                obtain ⟨hkey, hval⟩ :=
                  ihp fields hflds hns entries hsp e he2
                subst hpe
                rcases List.mem_append.mp hcp with hc4 | hc4
                · exact quoteStr_chars _ hkey c hc4
                · rcases List.mem_cons.mp hc4 with hce | hc5
                  · omega
                  · exact hval c hc5
            · simp at hc3
              omega
    · intro xs hxs hns parts hpl p hp c hc
      cases xs with
      | nil =>
        injection hpl with h2
        subst h2
        cases hp
      | cons x xs2 =>
        rw [stringifyList] at hpl
        cases hcv : canonicalStringify x with
        | error e =>
          rw [hcv] at hpl
          exact Except.noConfusion hpl
        | ok s =>
          cases hsl2 : stringifyList xs2 with
          | error e =>
            rw [hcv, hsl2] at hpl
            exact Except.noConfusion hpl
          | ok rest =>
            rw [hcv, hsl2] at hpl
            have h2 : (Except.ok (s :: rest) :
                Except String (List (List Nat))) = .ok parts := hpl
            injection h2 with h3
            subst h3
            rw [noSpaceList, Bool.and_eq_true] at hns
            have hszc : sizeOf (x :: xs2) = 1 + sizeOf x + sizeOf xs2 := by
              simp
            have hlp : 0 < sizeOf xs2 := by cases xs2 <;> simp
            rcases List.mem_cons.mp hp with hpe | hp2
            · subst hpe
              exact ihv x (by omega) hns.1 p hcv c hc
            · exact ihl xs2 (by omega) hns.2 rest hsl2 p hp2 c hc
    · intro ps hps hns entries hent e he
      cases ps with
      | nil =>
        injection hent with h2
        subst h2
        cases he
      | cons q ps2 =>
        obtain ⟨k, v⟩ := q
        rw [stringifyPairs] at hent
        cases hcv : canonicalStringify v with
        | error e2 =>
          rw [hcv] at hent
          exact Except.noConfusion hent
        | ok s =>
          cases hsp2 : stringifyPairs ps2 with
          | error e2 =>
            rw [hcv, hsp2] at hent
            exact Except.noConfusion hent
          | ok rest =>
            rw [hcv, hsp2] at hent
            have h2 : (Except.ok ((k, isDefined v, s) :: rest) :
                Except String (List (List Nat × Bool × List Nat))) =
                .ok entries := hent
            injection h2 with h3
            subst h3
            rw [noSpacePairs, Bool.and_eq_true, Bool.and_eq_true] at hns
            have hszc : sizeOf ((k, v) :: ps2) =
                1 + (1 + sizeOf k + sizeOf v) + sizeOf ps2 := by
              simp
            have hlp : 0 < sizeOf ps2 := by cases ps2 <;> simp
            have hkp : 0 < sizeOf k := by cases k <;> simp
            rcases List.mem_cons.mp he with hee | he2
            · subst hee
              refine ⟨?_, ?_⟩
              · intro c hck
                have := hns.1.1
                rw [List.all_eq_true] at this
                have := this c hck
                simpa using this
              · intro c hc
                exact ihv v (by omega) hns.1.2 s hcv c hc
            · exact ihp ps2 (by omega) hns.2 rest hsp2 e he2

/-- C5 (amended).  `canonicalStringify` emits object keys sorted in
UTF-16 code-unit order (the default JS string sort, which coincides with
byte order only for BMP-only keys), omits undefined-valued keys, emits no
whitespace outside string content (structural whitespace never, and all
control whitespace escaped), serializes bigints as quoted base-10 with a
sign only if negative and no leading zeros, preserves array element
order, and fails on non-finite numbers. -/
theorem canonicalStringify_amended :
    (∀ (fields : List (List Nat × JVal))
        (entries : List (List Nat × Bool × List Nat)),
      stringifyPairs fields = .ok entries →
      canonicalStringify (.jobj fields) =
        .ok (123 :: joinComma
          (((List.insertionSort entryLe entries).filter
            (fun e => e.2.1)).map
            (fun e => quoteStr e.1 ++ 58 :: e.2.2)) ++ [125]) ∧
      List.Pairwise entryLe
        ((List.insertionSort entryLe entries).filter (fun e => e.2.1)) ∧
      ((List.insertionSort entryLe entries).filter (fun e => e.2.1)).length =
        (entries.filter (fun e => e.2.1)).length ∧
      entries.length = fields.length ∧
      (∀ i, i < fields.length →
        (entries.getD i ([], false, [])).1 = (fields.getD i ([], .jnull)).1 ∧
        (entries.getD i ([], false, [])).2.1 =
          isDefined (fields.getD i ([], .jnull)).2 ∧
        canonicalStringify (fields.getD i ([], .jnull)).2 =
          .ok (entries.getD i ([], false, [])).2.2)) ∧
    (∀ (v : JVal) (out : List Nat), noSpaceVal v = true →
      canonicalStringify v = .ok out →
      ∀ c ∈ out, ¬(c = 32 ∨ c = 9 ∨ c = 10 ∨ c = 13)) ∧
    (∀ v : Int, canonicalStringify (.jbig v) = .ok (quoteStr (intDecimal v)) ∧
      (0 ≤ v → intDecimal v = natDecimal v.toNat) ∧
      (v < 0 → intDecimal v = 45 :: natDecimal (-v).toNat) ∧
      digitsVal (natDecimal v.natAbs) = v.natAbs ∧
      (v ≠ 0 → (natDecimal v.natAbs).getD 0 0 ≠ 48) ∧
      ∀ d ∈ natDecimal v.natAbs, 48 ≤ d ∧ d ≤ 57) ∧
    (∀ (xs : List JVal) (parts : List (List Nat)),
      stringifyList xs = .ok parts →
      canonicalStringify (.jarr xs) = .ok (91 :: joinComma parts ++ [93]) ∧
      parts.length = xs.length ∧
      ∀ i, i < xs.length →
        canonicalStringify (xs.getD i .jnull) = .ok (parts.getD i [])) ∧
    canonicalStringify .jnaninf =
      .error "canonicalStringify: non-finite numbers not allowed" := by
  refine ⟨?_, ?_, ?_, ?_, ?_⟩
  · intro fields entries h
    refine ⟨?_, ?_, ?_, (stringifyPairs_spec fields entries h).1,
      (stringifyPairs_spec fields entries h).2⟩
    · rw [canonicalStringify, h]
    · exact List.Pairwise.filter _ (List.sorted_insertionSort entryLe entries)
    · exact List.Perm.length_eq
        (List.Perm.filter _ (List.perm_insertionSort entryLe entries))
  · intro v out hns hout c hc
    exact (noSpace_out (sizeOf v)).1 v (le_refl _) hns out hout c hc
  · intro v
    refine ⟨by rw [canonicalStringify], ?_, ?_, ?_, ?_, ?_⟩
    · intro h0
      rw [intDecimal, if_neg (by omega)]
    · intro hneg
      rw [intDecimal, if_pos hneg]
    · exact (natDecimal_spec v.natAbs).1
    · intro hv
      exact (natDecimal_spec v.natAbs).2.1 (by omega)
    · exact (natDecimal_spec v.natAbs).2.2.1
  · intro xs parts h
    refine ⟨?_, (stringifyList_spec xs parts h).1,
      (stringifyList_spec xs parts h).2⟩
    rw [canonicalStringify, h]
  · rw [canonicalStringify]

/-- Closed instance of `canonicalStringify_amended` on a one-field
object. -/
theorem canonicalStringify_amended_witness :
    canonicalStringify (.jobj [([107], .jnull)]) =
      .ok (123 :: joinComma
        (((List.insertionSort entryLe
            [([107], true, [110, 117, 108, 108])]).filter
          (fun e => e.2.1)).map
          (fun e => quoteStr e.1 ++ 58 :: e.2.2)) ++ [125]) :=
  (canonicalStringify_amended.1 [([107], .jnull)]
    [([107], true, [110, 117, 108, 108])]
    (by simp [stringifyPairs, canonicalStringify, isDefined])).1

/-- C6.  Within the engine's sieve capability (a prime exists within 1000
above `n` and the grown sieve stays below the hard ceiling),
`closestPrime` returns the prime nearest to `n` by absolute distance,
breaking ties toward the lower prime; in particular `closestPrime 9`
returns 7 (not 11) and `closestPrime 10` returns 11. -/
theorem closestPrime_claim :
    (∀ (n : Int) (s : SieveState), Inv s → 2 ≤ n →
      n.toNat + 11000 ≤ 10000000 →
      (∃ q0, Nat.Prime q0 ∧ n.toNat ≤ q0 ∧ q0 ≤ n.toNat + 1000) →
      Nat.Prime ((closestPrime n s).1.1) ∧
        (∀ q, Nat.Prime q →
          Nat.dist ((closestPrime n s).1.1) n.toNat ≤ Nat.dist q n.toNat) ∧
        (∀ q, Nat.Prime q →
          Nat.dist q n.toNat = Nat.dist ((closestPrime n s).1.1) n.toNat →
          (closestPrime n s).1.1 ≤ q)) ∧
    (closestPrime 9 initState).1.1 = 7 ∧
    (closestPrime 10 initState).1.1 = 11 := by
  refine ⟨fun n s hInv h2 hcap hex => ?_, ?_, ?_⟩
  · obtain ⟨q0, hq0, hlo, hhi⟩ := hex
    exact closestPrime_spec n s hInv h2 hcap q0 hq0 hlo hhi
  · obtain ⟨hprime, hnear, htie⟩ := closestPrime_spec 9 initState rfl
      (by decide) (by decide) 11 (by norm_num) (by decide) (by decide)
    have h9 : ((9 : Int)).toNat = 9 := rfl
    have hd := hnear 7 (by norm_num)
    rw [h9, dist_eq, dist_eq] at hd
    have h712 : ∀ x, x < 12 → Nat.Prime x → 7 ≤ x → x = 7 ∨ x = 11 := by decide
    rcases h712 _ (by omega) hprime (by omega) with h | h
    · exact h
    · exfalso
      have heq : Nat.dist 7 ((9 : Int)).toNat =
          Nat.dist ((closestPrime 9 initState).1.1) ((9 : Int)).toNat := by
        rw [h9, h]
        decide
      have ht := htie 7 (by norm_num) heq
      omega
  · obtain ⟨hprime, hnear, htie⟩ := closestPrime_spec 10 initState rfl
      (by decide) (by decide) 11 (by norm_num) (by decide) (by decide)
    have h10 : ((10 : Int)).toNat = 10 := rfl
    have hd := hnear 11 (by norm_num)
    rw [h10, dist_eq, dist_eq] at hd
    have h911 : ∀ x, x < 12 → Nat.Prime x → 9 ≤ x → x = 11 := by decide
    exact h911 _ (by omega) hprime (by omega)

/-- Closed instance of the general part of `closestPrime_claim` at 13. -/
theorem closestPrime_claim_witness :
    Nat.Prime ((closestPrime 13 initState).1.1) :=
  (closestPrime_claim.1 13 initState rfl (by decide) (by decide)
    ⟨13, by norm_num, by decide, by decide⟩).1

/-- Closed instance of `isPrime_above_ceiling` at the prime 10000019. -/
theorem isPrime_above_ceiling_witness :
    Inv initState ∧ (10000000 : Int) < 10000019 ∧
      Nat.Prime ((10000019 : Int)).toNat ∧
      ((isPrime 10000019 initState).1 = false ∧
        Inv (isPrime 10000019 initState).2 ∧
        ((10000019 : Int)).toNat ≤ (isPrime 10000019 initState).2.sieveLimit ∧
        ∀ q ∈ (isPrime 10000019 initState).2.cachedPrimes, q ≤ 10000000) := by
  have hp : Nat.Prime ((10000019 : Int)).toNat := by
    have he : ((10000019 : Int)).toNat = 10000019 := rfl
    rw [he]
    norm_num
  exact ⟨rfl, by decide, hp,
    isPrime_above_ceiling 10000019 initState rfl (by decide) hp⟩

end FractalCore
